import Mathlib

/-! Kismet `Timetracker`: a shallow embedding of `timetracker.cc`.

The timer registry of `Timetracker` is embedded as an explicit state record.
Heap-allocated `timer_event` objects live in `State.heap`, an address-indexed
table; `timer_map` and `sorted_timers` hold addresses, exactly as the C++
containers hold `timer_event *`.  Dereferencing an address that is not live is
undefined behaviour in C++ and is `none` here, so every operation returns an
`Option`.

The clock (`gettimeofday`) is an explicit argument of every operation that
reads it.  `int`, `time_t` and `suseconds_t` are unbounded `Int`; integer
division and remainder are the truncating `Int.tdiv` and `Int.tmod` of C++.
The mutexes are not part of the state.
-/

namespace Kismet

/-! ## Finite maps as association lists -/

/-- Lookup of a key (`std::map::find`, or the dereference of an address). -/
def map_find {κ α : Type} [DecidableEq κ] (k : κ) : List (κ × α) → Option α
  | [] => none
  | (k1, v) :: m => if k1 = k then some v else map_find k m

/-- Assignment `m[k] = v`: replaces the binding of `k` or adds one. -/
def map_assign {κ α : Type} [DecidableEq κ] (k : κ) (v : α) : List (κ × α) → List (κ × α)
  | [] => [(k, v)]
  | (k1, v1) :: m => if k1 = k then (k, v) :: m else (k1, v1) :: map_assign k v m

/-- Removal of the binding of a key (`std::map::erase`, or `delete`). -/
def map_erase {κ α : Type} [DecidableEq κ] (k : κ) (m : List (κ × α)) : List (κ × α) :=
  m.filter (fun kv => decide (kv.1 ≠ k))

/-- The address returned by `new`: one that is not live in the heap. -/
def alloc {α : Type} (heap : List (Nat × α)) : Nat :=
  (heap.map Prod.fst).foldr max 0 + 1

/-! ## Data model -/

/-- The C `struct timeval`. -/
structure timeval where
  tv_sec : Int
  tv_usec : Int
deriving DecidableEq, Repr, Inhabited

/-- The record `Timetracker::timer_event`.  The three action fields hold a handle
(`none` is `NULL`, or an empty `std::function`). -/
structure timer_event where
  timer_id : Int
  timer_cancelled : Bool
  schedule_tm : timeval
  trigger_tm : timeval
  timeslices : Int
  recurring : Int
  event : Option Nat
  event_func : Option Nat
  callback : Option Nat
  callback_parm : Nat
deriving DecidableEq, Repr, Inhabited

/-- The members of `Timetracker` together with the heap of live `timer_event`
objects and `globalreg->timestamp`. -/
structure State where
  heap : List (Nat × timer_event)
  next_timer_id : Int
  timer_map : List (Int × Nat)
  sorted_timers : List Nat
  removed_timer_ids : List Int
  timestamp : timeval
deriving DecidableEq, Repr, Inhabited

/-- Modelled from the spec: the constant `SERVER_TIMESLICES_SEC` of the missing
header, the number of timeslices per second, which is 10. -/
def SERVER_TIMESLICES_SEC : Int := 10

/-- Strict lexicographic comparison of two timevals on `(tv_sec, tv_usec)`, the
test written out in `Tick` (lines 74-75) with `a = cur_tm`, `b = trigger_tm`. -/
def tv_before (a b : timeval) : Bool :=
  decide (a.tv_sec < b.tv_sec) ||
    (decide (a.tv_sec = b.tv_sec) && decide (a.tv_usec < b.tv_usec))

/-- Non-strict lexicographic order on timevals: `a` is not after `b`. -/
def tv_le (a b : timeval) : Prop :=
  a.tv_sec < b.tv_sec ∨ (a.tv_sec = b.tv_sec ∧ a.tv_usec ≤ b.tv_usec)

instance (a b : timeval) : Decidable (tv_le a b) := by
  unfold tv_le; infer_instance

/-- The instant a timeval denotes, in microseconds. -/
def tv_micros (t : timeval) : Int := t.tv_sec * 1000000 + t.tv_usec

/-- Modelled from the spec: the comparator `SortTimerEventsTrigger` of the missing
header, which orders records by `trigger_tm`, lexicographically on seconds and
microseconds. -/
def SortTimerEventsTrigger (x y : timer_event) : Bool :=
  tv_before x.trigger_tm y.trigger_tm

/-- The call `std::stable_sort(first, last, comp)`: insertion from the right, each
element placed before the first one that is not `comp`-smaller than it, so
equivalent elements keep their order. -/
def stable_sort {α : Type} (comp : α → α → Bool) (l : List α) : List α :=
  List.insertionSort (fun a b => comp b a = false) l

/-- Dereference every address of a list; `none` when one of them is not live. -/
def deref_all (heap : List (Nat × timer_event)) : List Nat → Option (List (Nat × timer_event))
  | [] => some []
  | p :: ps =>
    match map_find p heap, deref_all heap ps with
    | some e, some r => some ((p, e) :: r)
    | _, _ => none

/-- The statement `stable_sort(sorted_timers.begin(), sorted_timers.end(),
SortTimerEventsTrigger())`, which compares the records the addresses point to. -/
def sort_timers (s : State) : Option State :=
  (deref_all s.heap s.sorted_timers).map fun l =>
    { s with sorted_timers :=
        (stable_sort (fun a b => SortTimerEventsTrigger a.2 b.2) l).map Prod.fst }

/-- The records of the registry, in the order of `sorted_timers`. -/
def records (s : State) : List timer_event :=
  s.sorted_timers.filterMap (fun p => map_find p s.heap)

/-- The constructor `Timetracker::Timetracker`, at clock reading `now`. -/
def Timetracker (now : timeval) : State :=
  { heap := [], next_timer_id := 0, timer_map := [], sorted_timers := [],
    removed_timer_ids := [], timestamp := now }

/-! ## Registration -/

/-- The relative trigger time computed from a base time and a number of
timeslices, with the carry test of the source (`>= 999999L`).  The same
statements occur in `Tick` (lines 92-99) and in the event-handle and closure
variants of `RegisterTimer_nb` (lines 195-204 and 243-253). -/
def timeslice_trigger (base : timeval) (timeslices : Int) : timeval :=
  let sec := base.tv_sec + Int.tdiv timeslices SERVER_TIMESLICES_SEC
  let usec := base.tv_usec +
    Int.tmod timeslices SERVER_TIMESLICES_SEC * Int.tdiv 1000000 SERVER_TIMESLICES_SEC
  if 999999 ≤ usec then { tv_sec := sec + 1, tv_usec := Int.tmod usec 1000000 }
  else { tv_sec := sec, tv_usec := usec }

/-- Lines 166-167 (and 214-215, 263-264): the new record, stored at a fresh
address, is entered in `timer_map` under its id and appended to `sorted_timers`. -/
def inserted (evt : timer_event) (s : State) : State :=
  { s with heap := map_assign (alloc s.heap) evt s.heap,
           timer_map := map_assign evt.timer_id (alloc s.heap) s.timer_map,
           sorted_timers := s.sorted_timers ++ [alloc s.heap] }

/-- Lines 166-172 (and 214-220, 263-269): enter the new record in both views,
re-sort, and return its id. -/
def insert_timer (evt : timer_event) (s : State) : Option (State × Int) :=
  (sort_timers (inserted evt s)).map fun s2 => (s2, evt.timer_id)

/-- Lines 146-164: the record built by the function-pointer variant of
`RegisterTimer_nb` when the id counter is `id`.  `now` is the clock reading and
`fresh` the contents of the record returned by `new timer_event` before any
assignment; this variant assigns neither `timer_cancelled` nor `event_func`, and
adds `in_timeslices % 10` microseconds without a carry. -/
def new_timer_callback (now : timeval) (fresh : timer_event) (in_timeslices : Int)
    (in_trigger : Option timeval) (in_recurring : Int) (in_callback : Option Nat)
    (in_parm : Nat) (id : Int) : timer_event :=
  { fresh with
    timer_id := id
    schedule_tm := now
    trigger_tm :=
      match in_trigger with
      | some tr => { tv_sec := tr.tv_sec, tv_usec := tr.tv_usec }
      | none => { tv_sec := now.tv_sec + Int.tdiv in_timeslices 10,
                  tv_usec := now.tv_usec + Int.tmod in_timeslices 10 }
    timeslices :=
      match in_trigger with
      | some _ => -1
      | none => in_timeslices
    recurring := in_recurring
    callback := in_callback
    callback_parm := in_parm
    event := none }

/-- Lines 183-212: the record built by the event-handle variant of
`RegisterTimer_nb` when the id counter is `id`. -/
def new_timer_event (now : timeval) (fresh : timer_event) (in_timeslices : Int)
    (in_trigger : Option timeval) (in_recurring : Int) (in_event : Option Nat)
    (id : Int) : timer_event :=
  { fresh with
    timer_cancelled := false
    timer_id := id
    schedule_tm := now
    trigger_tm :=
      match in_trigger with
      | some tr => { tv_sec := tr.tv_sec, tv_usec := tr.tv_usec }
      | none => timeslice_trigger now in_timeslices
    timeslices :=
      match in_trigger with
      | some _ => -1
      | none => in_timeslices
    recurring := in_recurring
    callback := none
    callback_parm := 0
    event := in_event }

/-- Lines 231-261: the record built by the closure variant of `RegisterTimer_nb`
when the id counter is `id`. -/
def new_timer_func (now : timeval) (fresh : timer_event) (in_timeslices : Int)
    (in_trigger : Option timeval) (in_recurring : Int) (in_event : Option Nat)
    (id : Int) : timer_event :=
  { fresh with
    timer_cancelled := false
    timer_id := id
    schedule_tm := now
    trigger_tm :=
      match in_trigger with
      | some tr => { tv_sec := tr.tv_sec, tv_usec := tr.tv_usec }
      | none => timeslice_trigger now in_timeslices
    timeslices :=
      match in_trigger with
      | some _ => -1
      | none => in_timeslices
    recurring := in_recurring
    callback := none
    callback_parm := 0
    event := none
    event_func := in_event }

/-- The function-pointer variant of `Timetracker::RegisterTimer_nb` (lines 142-173):
`next_timer_id++`, build the record, enter it in both views and re-sort. -/
def RegisterTimer_nb (now : timeval) (fresh : timer_event) (in_timeslices : Int)
    (in_trigger : Option timeval) (in_recurring : Int) (in_callback : Option Nat)
    (in_parm : Nat) (s : State) : Option (State × Int) :=
  insert_timer
    (new_timer_callback now fresh in_timeslices in_trigger in_recurring in_callback in_parm
      s.next_timer_id)
    { s with next_timer_id := s.next_timer_id + 1 }

/-- The event-handle variant of `Timetracker::RegisterTimer_nb` (lines 181-221). -/
def RegisterTimer_nb_event (now : timeval) (fresh : timer_event) (in_timeslices : Int)
    (in_trigger : Option timeval) (in_recurring : Int) (in_event : Option Nat)
    (s : State) : Option (State × Int) :=
  insert_timer
    (new_timer_event now fresh in_timeslices in_trigger in_recurring in_event s.next_timer_id)
    { s with next_timer_id := s.next_timer_id + 1 }

/-- The closure variant of `Timetracker::RegisterTimer_nb` (lines 229-270). -/
def RegisterTimer_nb_func (now : timeval) (fresh : timer_event) (in_timeslices : Int)
    (in_trigger : Option timeval) (in_recurring : Int) (in_event : Option Nat)
    (s : State) : Option (State × Int) :=
  insert_timer
    (new_timer_func now fresh in_timeslices in_trigger in_recurring in_event s.next_timer_id)
    { s with next_timer_id := s.next_timer_id + 1 }

/-- The locked wrapper `Timetracker::RegisterTimer` of the function-pointer variant
(lines 133-140). -/
def RegisterTimer (now : timeval) (fresh : timer_event) (in_timeslices : Int)
    (in_trigger : Option timeval) (in_recurring : Int) (in_callback : Option Nat)
    (in_parm : Nat) (s : State) : Option (State × Int) :=
  RegisterTimer_nb now fresh in_timeslices in_trigger in_recurring in_callback in_parm s

/-- The locked wrapper `Timetracker::RegisterTimer` of the event-handle variant
(lines 175-179). -/
def RegisterTimer_event (now : timeval) (fresh : timer_event) (in_timeslices : Int)
    (in_trigger : Option timeval) (in_recurring : Int) (in_event : Option Nat)
    (s : State) : Option (State × Int) :=
  RegisterTimer_nb_event now fresh in_timeslices in_trigger in_recurring in_event s

/-- The locked wrapper `Timetracker::RegisterTimer` of the closure variant
(lines 223-227). -/
def RegisterTimer_func (now : timeval) (fresh : timer_event) (in_timeslices : Int)
    (in_trigger : Option timeval) (in_recurring : Int) (in_event : Option Nat)
    (s : State) : Option (State × Int) :=
  RegisterTimer_nb_func now fresh in_timeslices in_trigger in_recurring in_event s

/-! ## Cancellation -/

/-- The function `Timetracker::RemoveTimer` (lines 272-290). -/
def RemoveTimer (in_timerid : Int) (s : State) : Option (State × Int) :=
  match map_find in_timerid s.timer_map with
  | some p =>
    match map_find p s.heap with
    | some e =>
      some ({ s with heap := map_assign p { e with timer_cancelled := true } s.heap,
                     removed_timer_ids := s.removed_timer_ids ++ [in_timerid] }, 1)
    | none => none
  | none => some (s, 0)

/-! ## Dispatch -/

/-- The behaviour of the registered actions, by handle.  An action receives the
registry and returns it together with its integer outcome. -/
structure Actions where
  callback : Nat → timer_event → Nat → State → State × Int
  event : Nat → Int → State → State × Int
  event_func : Nat → Int → State → State × Int

/-- Outcomes of actions that do not touch the registry. -/
structure Outcomes where
  callback : Nat → timer_event → Nat → Int
  event : Nat → Int → Int
  event_func : Nat → Int → Int

/-- Actions that return their outcome and leave the registry alone. -/
def pure_actions (o : Outcomes) : Actions :=
  { callback := fun f e parm s => (s, o.callback f e parm)
    event := fun h id s => (s, o.event h id)
    event_func := fun g id s => (s, o.event_func g id) }

/-- Lines 80-87 of `Tick`: call the populated action variant; the outcome is 0
when none is populated. -/
def invoke (acts : Actions) (evt : timer_event) (s : State) : State × Int :=
  match evt.callback with
  | some f => acts.callback f evt evt.callback_parm s
  | none =>
    match evt.event with
    | some h => acts.event h evt.timer_id s
    | none =>
      match evt.event_func with
      | some g => acts.event_func g evt.timer_id s
      | none => (s, 0)

/-- The outcome `ret` of lines 80-87 for actions that do not touch the registry. -/
def outcome (o : Outcomes) (evt : timer_event) : Int :=
  match evt.callback with
  | some f => o.callback f evt evt.callback_parm
  | none =>
    match evt.event with
    | some h => o.event h evt.timer_id
    | none =>
      match evt.event_func with
      | some g => o.event_func g evt.timer_id
      | none => 0

/-- Lines 90-99 of `Tick`: the record after it has been rescheduled. -/
def reschedule (cur_tm : timeval) (evt : timer_event) : timer_event :=
  { evt with
    schedule_tm := { tv_sec := cur_tm.tv_sec, tv_usec := cur_tm.tv_usec }
    trigger_tm := timeslice_trigger cur_tm evt.timeslices }

/-- The loop of `Tick` over `action_timers` (lines 63-106).  The third argument
collects, in order, every record that reached the call of lines 80-87, as it was
at that moment, with the outcome `ret`. -/
def tick_loop (acts : Actions) (cur_tm : timeval) :
    List Nat → State → List (timer_event × Int) → Option (State × List (timer_event × Int))
  | [], s, log => some (s, log)
  | p :: rest, s, log =>
    match map_find p s.heap with
    | none => none
    | some evt =>
      if evt.timer_cancelled = true then
        tick_loop acts cur_tm rest
          { s with removed_timer_ids := s.removed_timer_ids ++ [evt.timer_id] } log
      else if tv_before cur_tm evt.trigger_tm = true then some (s, log)
      else
        let r := invoke acts evt s
        if 0 < r.2 then
          match map_find p r.1.heap with
          | none => none
          | some e2 =>
            if e2.timeslices ≠ -1 ∧ e2.recurring ≠ 0 then
              tick_loop acts cur_tm rest
                { r.1 with heap := map_assign p (reschedule cur_tm e2) r.1.heap }
                (log ++ [(evt, r.2)])
            else
              tick_loop acts cur_tm rest
                { r.1 with removed_timer_ids := r.1.removed_timer_ids ++ [evt.timer_id] }
                (log ++ [(evt, r.2)])
        else
          tick_loop acts cur_tm rest
            { r.1 with removed_timer_ids := r.1.removed_timer_ids ++ [evt.timer_id] }
            (log ++ [(evt, r.2)])

/-- Lines 115-120 of `Tick`: erase from `sorted_timers` the first address whose
record has `timer_id == x`. -/
def erase_timer_id (heap : List (Nat × timer_event)) (x : Int) : List Nat → Option (List Nat)
  | [] => some []
  | p :: ps =>
    match map_find p heap with
    | none => none
    | some e =>
      if e.timer_id = x then some ps
      else (erase_timer_id heap x ps).map (fun r => p :: r)

/-- Lines 112-124 of `Tick`: the removal of one queued id. -/
def cleanup_one (x : Int) (s : State) : Option State :=
  match map_find x s.timer_map with
  | none => some s
  | some p =>
    match erase_timer_id s.heap x s.sorted_timers, map_find p s.heap with
    | some st, some _ =>
      some { s with sorted_timers := st, heap := map_erase p s.heap,
                    timer_map := map_erase x s.timer_map }
    | _, _ => none

/-- Lines 111-125 of `Tick`: the removal of every queued id, in queue order. -/
def cleanup : List Int → State → Option State
  | [], s => some s
  | x :: xs, s => (cleanup_one x s).bind (cleanup xs)

/-- The function `Timetracker::Tick` (lines 46-131) at captured time `cur_tm`.
Returns the new state, the records fired with their outcomes, and the return
value. -/
def Tick (acts : Actions) (cur_tm : timeval) (s : State) :
    Option (State × List (timer_event × Int) × Int) :=
  (sort_timers { s with timestamp := { tv_sec := cur_tm.tv_sec, tv_usec := cur_tm.tv_usec } }).bind
    fun s1 =>
      (tick_loop acts cur_tm s1.sorted_timers s1 []).bind fun r =>
        (cleanup r.1.removed_timer_ids r.1).map fun s3 =>
          ({ s3 with removed_timer_ids := [] }, r.2, 1)

/-! ## Well-formed registries and runs of operations -/

/-- The two views of the registry agree: every binding of `timer_map` points to a
live record that carries the key as its `timer_id` and whose address is in
`sorted_timers`; every address in `sorted_timers` is live and is the one
`timer_map` binds to its record's id; no address occurs twice. -/
def WF (s : State) : Prop :=
  (∀ kv ∈ s.timer_map, map_find kv.1 s.timer_map = some kv.2 →
      kv.2 ∈ s.sorted_timers ∧
        (map_find kv.2 s.heap).map timer_event.timer_id = some kv.1) ∧
  (∀ p ∈ s.sorted_timers,
      (map_find p s.heap).bind (fun e => map_find e.timer_id s.timer_map) = some p) ∧
  s.sorted_timers.Nodup

instance (s : State) : Decidable (WF s) := by
  unfold WF; infer_instance

/-- Every key of `timer_map` is below the id counter. -/
def ids_below (s : State) : Prop :=
  ∀ kv ∈ s.timer_map, map_find kv.1 s.timer_map = some kv.2 → kv.1 < s.next_timer_id

instance (s : State) : Decidable (ids_below s) := by
  unfold ids_below; infer_instance

/-- Every id queued for removal is below the id counter. -/
def queue_below (s : State) : Prop :=
  ∀ x ∈ s.removed_timer_ids, x < s.next_timer_id

instance (s : State) : Decidable (queue_below s) := by
  unfold queue_below; infer_instance

/-- Every record of the registry whose id is queued for removal is cancelled. -/
def queue_cancelled (s : State) : Prop :=
  ∀ e ∈ records s, e.timer_id ∈ s.removed_timer_ids → e.timer_cancelled = true

instance (s : State) : Decidable (queue_cancelled s) := by
  unfold queue_cancelled; infer_instance

/-- The invariant of the registry states reached through the public operations. -/
def Inv (s : State) : Prop :=
  WF s ∧ ids_below s ∧ queue_below s ∧ queue_cancelled s

instance (s : State) : Decidable (Inv s) := by
  unfold Inv; infer_instance

/-- A call of one of the public operations, with the clock reading it takes.
Actions of a `tick` do not touch the registry. -/
inductive Op where
  | register (now : timeval) (fresh : timer_event) (in_timeslices : Int)
      (in_trigger : Option timeval) (in_recurring : Int) (in_callback : Option Nat)
      (in_parm : Nat)
  | register_event (now : timeval) (fresh : timer_event) (in_timeslices : Int)
      (in_trigger : Option timeval) (in_recurring : Int) (in_event : Option Nat)
  | register_func (now : timeval) (fresh : timer_event) (in_timeslices : Int)
      (in_trigger : Option timeval) (in_recurring : Int) (in_event : Option Nat)
  | remove (in_timerid : Int)
  | tick (o : Outcomes) (cur_tm : timeval)

/-- What a call returned; for a `Tick`, also the records it fired. -/
inductive Out where
  | registered (id : Int)
  | removed (ret : Int)
  | ticked (fired : List (timer_event × Int)) (ret : Int)

/-- One call of a public operation. -/
def step : Op → State → Option (State × Out)
  | Op.register now fresh n tr rec cb parm, s =>
    (RegisterTimer now fresh n tr rec cb parm s).map fun r => (r.1, Out.registered r.2)
  | Op.register_event now fresh n tr rec ev, s =>
    (RegisterTimer_event now fresh n tr rec ev s).map fun r => (r.1, Out.registered r.2)
  | Op.register_func now fresh n tr rec ev, s =>
    (RegisterTimer_func now fresh n tr rec ev s).map fun r => (r.1, Out.registered r.2)
  | Op.remove id, s =>
    (RemoveTimer id s).map fun r => (r.1, Out.removed r.2)
  | Op.tick o cur_tm, s =>
    (Tick (pure_actions o) cur_tm s).map fun r => (r.1, Out.ticked r.2.1 r.2.2)

/-- A sequence of calls, with what each returned. -/
def run : List Op → State → Option (State × List Out)
  | [], s => some (s, [])
  | op :: ops, s =>
    (step op s).bind fun r => (run ops r.1).map fun q => (q.1, r.2 :: q.2)

/-- The ids returned by the registration calls of a run, in call order. -/
def returned_ids : List Out → List Int
  | [] => []
  | Out.registered id :: outs => id :: returned_ids outs
  | _ :: outs => returned_ids outs

/-- The ids of the records fired by the `Tick` calls of a run, in firing order. -/
def fired_ids : List Out → List Int
  | [] => []
  | Out.ticked fired _ :: outs => fired.map (fun x => x.1.timer_id) ++ fired_ids outs
  | _ :: outs => fired_ids outs

/-! ## The dispatch loop on a list of records -/

/-- The test of line 89 for a record and the outcome of its action. -/
def keeps (ret : Int) (e : timer_event) : Prop :=
  0 < ret ∧ e.timeslices ≠ -1 ∧ e.recurring ≠ 0

instance (ret : Int) (e : timer_event) : Decidable (keeps ret e) := by
  unfold keeps; infer_instance

/-- The records the loop of `Tick` looks at before it stops: all up to, and
without, the first one that is neither cancelled nor due. -/
def visited (cur_tm : timeval) : List (Nat × timer_event) → List (Nat × timer_event)
  | [] => []
  | pe :: l =>
    if pe.2.timer_cancelled = true then pe :: visited cur_tm l
    else if tv_before cur_tm pe.2.trigger_tm = true then []
    else pe :: visited cur_tm l

/-- The heap after the loop of `Tick` has gone through the given records. -/
def loop_heap (o : Outcomes) (cur_tm : timeval) :
    List (Nat × timer_event) → List (Nat × timer_event) → List (Nat × timer_event)
  | [], h => h
  | pe :: l, h =>
    if pe.2.timer_cancelled = false ∧ keeps (outcome o pe.2) pe.2 then
      loop_heap o cur_tm l (map_assign pe.1 (reschedule cur_tm pe.2) h)
    else loop_heap o cur_tm l h

/-- The ids the loop of `Tick` queues for removal, in order. -/
def loop_queue (o : Outcomes) (l : List (Nat × timer_event)) : List Int :=
  (l.filter fun pe =>
    decide (¬ (pe.2.timer_cancelled = false ∧ keeps (outcome o pe.2) pe.2))).map
      fun pe => pe.2.timer_id

/-- The records the loop of `Tick` fires, with their outcomes, in order. -/
def loop_log (o : Outcomes) (l : List (Nat × timer_event)) : List (timer_event × Int) :=
  (l.filter fun pe => decide (pe.2.timer_cancelled = false)).map
    fun pe => (pe.2, outcome o pe.2)

/-- The addresses of a list paired with the records they point to; addresses
that are not live are left out. -/
def deref_list (heap : List (Nat × timer_event)) (ps : List Nat) : List (Nat × timer_event) :=
  ps.filterMap fun p => (map_find p heap).map fun e => (p, e)

/-- The working list `action_timers` of `Tick`: the registry after the stable
sort of line 58, each address with its record. -/
def sorted_records (s : State) : List (Nat × timer_event) :=
  stable_sort (fun a b => SortTimerEventsTrigger a.2 b.2) (deref_list s.heap s.sorted_timers)

/-- A record is due at `cur_tm`: its trigger time is not after `cur_tm` and it is
not cancelled. -/
def due (cur_tm : timeval) (e : timer_event) : Prop :=
  tv_le e.trigger_tm cur_tm ∧ e.timer_cancelled = false

instance (cur_tm : timeval) (e : timer_event) : Decidable (due cur_tm e) := by
  unfold due; infer_instance

/-- The state of the registry when the loop of `Tick` at `cur_tm` has ended and
the cleanup of lines 108-128 has not begun. -/
def after_loop (o : Outcomes) (cur_tm : timeval) (s : State) : State :=
  { s with
    timestamp := { tv_sec := cur_tm.tv_sec, tv_usec := cur_tm.tv_usec }
    sorted_timers := (sorted_records s).map Prod.fst
    heap := loop_heap o cur_tm (visited cur_tm (sorted_records s)) s.heap
    removed_timer_ids :=
      s.removed_timer_ids ++ loop_queue o (visited cur_tm (sorted_records s)) }

/-- State `s2` is state `s` without the records whose id is in `q`: their ids
are unbound in `timer_map` and their addresses gone from `sorted_timers`, while
every other binding, address and record is as it was. -/
def removes (q : List Int) (s s2 : State) : Prop :=
  (∀ id, map_find id s2.timer_map = if id ∈ q then none else map_find id s.timer_map) ∧
  (∀ p, p ∈ s2.sorted_timers ↔
    p ∈ s.sorted_timers ∧ ∀ e, map_find p s.heap = some e → e.timer_id ∉ q) ∧
  List.Sublist s2.sorted_timers s.sorted_timers ∧
  (∀ p ∈ s2.sorted_timers, map_find p s2.heap = map_find p s.heap) ∧
  (∀ p, map_find p s2.heap = none ∨ map_find p s2.heap = map_find p s.heap) ∧
  s2.next_timer_id = s.next_timer_id ∧
  s2.removed_timer_ids = s.removed_timer_ids ∧
  s2.timestamp = s.timestamp

/-! ## Sample registries -/

/-- Sample contents of a freshly allocated record. -/
def sample_fresh : timer_event :=
  { timer_id := 0, timer_cancelled := false, schedule_tm := { tv_sec := 0, tv_usec := 0 },
    trigger_tm := { tv_sec := 0, tv_usec := 0 }, timeslices := 0, recurring := 0,
    event := none, event_func := none, callback := none, callback_parm := 0 }

/-- Sample outcomes: every action returns 1. -/
def sample_outcomes : Outcomes :=
  { callback := fun _ _ _ => 1, event := fun _ _ => 1, event_func := fun _ _ => 1 }

/-- A sample record: id 0, recurring with an interval of 5 timeslices, scheduled at
100 s and due at 100.5 s, with an event handle. -/
def sample_record : timer_event :=
  { sample_fresh with
    timer_id := 0
    schedule_tm := { tv_sec := 100, tv_usec := 0 }
    trigger_tm := { tv_sec := 100, tv_usec := 500000 }
    timeslices := 5
    recurring := 1
    event := some 7 }

/-- A sample registry with three timers: id 0 is recurring with an interval of 5
timeslices and due at 100.5 s, id 1 is a one-shot due at 100.2 s, id 2 is an
absolute one-shot due at 200 s. -/
def sample_state : State :=
  { heap :=
      [(1, sample_record),
       (2, { sample_fresh with
             timer_id := 1
             schedule_tm := { tv_sec := 100, tv_usec := 0 }
             trigger_tm := { tv_sec := 100, tv_usec := 200000 }
             timeslices := 2
             recurring := 0
             event_func := some 8 }),
       (3, { sample_fresh with
             timer_id := 2
             schedule_tm := { tv_sec := 100, tv_usec := 0 }
             trigger_tm := { tv_sec := 200, tv_usec := 0 }
             timeslices := -1
             recurring := 1
             event_func := some 9 })]
    next_timer_id := 3
    timer_map := [(0, 1), (1, 2), (2, 3)]
    sorted_timers := [2, 1, 3]
    removed_timer_ids := []
    timestamp := { tv_sec := 100, tv_usec := 0 } }

/-- The registry after the stable sort of `sorted_timers`. -/
def resorted (s : State) : State :=
  { s with sorted_timers := (sorted_records s).map Prod.fst }

/-- The registry after lines 281-284 of `RemoveTimer`: the record `e` at address
`p` has its flag set and `id` is appended to the removal queue. -/
def cancel_at (p : Nat) (e : timer_event) (id : Int) (s : State) : State :=
  { s with heap := map_assign p { e with timer_cancelled := true } s.heap,
           removed_timer_ids := s.removed_timer_ids ++ [id] }

/-- The sample registry after `RemoveTimer(2)`: the absolute timer due at 200 s
is cancelled before it is due. -/
def sample_cancelled : State :=
  ((RemoveTimer 2 sample_state).map Prod.fst).getD sample_state

/-- What a registration call with result `r` has done when it took the registry
`s` and built the record `evt`: it returned the id counter; the records of the
new ordered sequence, all live, are in non-decreasing `trigger_tm` order; the
sequence is a permutation of the old one plus one fresh address `p`, which holds
`evt`; `timer_map` has gained the binding of the returned id, unbound before, to
`p`, and nothing else; and every record of the old heap is unchanged. -/
def adds_one_sorted (s : State) (evt : timer_event) (r : Option (State × Int)) : Prop :=
  ∃ s2 p, r = some (s2, s.next_timer_id) ∧
    (records s2).Pairwise (fun a b => tv_le a.trigger_tm b.trigger_tm) ∧
    (records s2).length = s2.sorted_timers.length ∧
    List.Perm s2.sorted_timers (s.sorted_timers ++ [p]) ∧
    List.Perm (records s2) (records s ++ [evt]) ∧
    map_find p s.heap = none ∧ map_find p s2.heap = some evt ∧
    map_find s.next_timer_id s.timer_map = none ∧
    (∀ id, map_find id s2.timer_map =
      if s.next_timer_id = id then some p else map_find id s.timer_map) ∧
    (∀ q e, map_find q s.heap = some e → map_find q s2.heap = some e)

/-- The sample registry with its ordered sequence out of order, as a `Tick` that
reschedules leaves it: the first record is due after the second. -/
def sample_unsorted : State :=
  { sample_state with sorted_timers := [1, 2, 3] }

/-- A timeval with normalised microseconds: `0 <= tv_usec < 1000000`. -/
def usec_normal (t : timeval) : Prop :=
  0 ≤ t.tv_usec ∧ t.tv_usec < 1000000

instance (t : timeval) : Decidable (usec_normal t) := by
  unfold usec_normal; infer_instance

/-- For each `Tick` of a run, in order, the records it fired, by id and
`trigger_tm`, in firing order. -/
def fired_per_tick : List Out → List (List (Int × timeval))
  | [] => []
  | Out.ticked fired _ :: outs =>
    fired.map (fun x => (x.1.timer_id, x.1.trigger_tm)) :: fired_per_tick outs
  | _ :: outs => fired_per_tick outs

/-- A registration call with the absolute trigger time `T` whose record is not
cancelled (the function-pointer variant leaves `timer_cancelled` as allocated). -/
def registers_at (T : timeval) : Op → Prop
  | Op.register _ fresh _ (some tr) _ _ _ => tr = T ∧ fresh.timer_cancelled = false
  | Op.register_event _ _ _ (some tr) _ _ => tr = T
  | Op.register_func _ _ _ (some tr) _ _ => tr = T
  | _ => False

/-- A sample registry with two timers due at 110 s: the recurring timer with id
1, rescheduled by an earlier `Tick`, stands before the one-shot timer with id 0
in the ordered sequence. -/
def sample_tied : State :=
  { heap :=
      [(1, { sample_fresh with
             timer_id := 0
             schedule_tm := { tv_sec := 100, tv_usec := 0 }
             trigger_tm := { tv_sec := 110, tv_usec := 0 }
             timeslices := -1
             event := some 7 }),
       (2, { sample_fresh with
             timer_id := 1
             schedule_tm := { tv_sec := 105, tv_usec := 0 }
             trigger_tm := { tv_sec := 110, tv_usec := 0 }
             timeslices := 50
             recurring := 1
             event := some 8 })]
    next_timer_id := 2
    timer_map := [(0, 1), (1, 2)]
    sorted_timers := [2, 1]
    removed_timer_ids := []
    timestamp := { tv_sec := 105, tv_usec := 0 } }

/-! ## Locks held by `Tick` -/

/-- The two mutexes of `Timetracker`: `time_mutex`, taken by `RegisterTimer`,
`RemoveTimer` and the sort of `Tick`, and `removed_id_mutex`. -/
inductive Mutex where
  | time_mutex
  | removed_id_mutex
deriving DecidableEq, Repr

/-- Modelled from the spec: the lockers of the missing header, on the list of
mutexes the calling thread holds.  A `local_locker` acquires its mutex where it
is constructed and releases it at the end of its scope; a `local_demand_locker`
acquires nothing where it is constructed, acquires its mutex at `lock()` and
releases it at `unlock()` (the registry section is released right after the
copy, and actions run with no lock held). -/
def acquire (m : Mutex) (held : List Mutex) : List Mutex :=
  held ++ [m]

/-- Modelled from the spec: the release of a mutex by a locker of the missing
header (`unlock()`, or the end of the scope of a `local_locker`). -/
def release (m : Mutex) (held : List Mutex) : List Mutex :=
  held.erase m

/-- Lines 111-125 of `Tick` with the mutexes `held` by the thread: the new state
and, for every id erased from `timer_map` and `sorted_timers` (lines 115-123),
the mutexes held at that moment. -/
def cleanup_erases (held : List Mutex) :
    List Int → State → Option (State × List (Int × List Mutex))
  | [], s => some (s, [])
  | x :: xs, s =>
    match map_find x s.timer_map with
    | none => cleanup_erases held xs s
    | some _ =>
      (cleanup_one x s).bind fun s1 =>
        (cleanup_erases held xs s1).map fun r => (r.1, (x, held) :: r.2)

/-- The function `Tick` with the mutexes `held` by the thread when it is called.
Line 47 constructs a `local_demand_locker` on `time_mutex`, line 57 locks it,
line 60 unlocks it; the loop takes `removed_id_mutex` around each `push_back`
(lines 68 and 102) and has released it when it ends; line 110 constructs a
`local_locker` on `removed_id_mutex` for the cleanup block.  Returns the new
state and the erases of the cleanup, each with the mutexes held. -/
def Tick_erases (acts : Actions) (cur_tm : timeval) (held : List Mutex) (s : State) :
    Option (State × List (Int × List Mutex)) :=
  let held_sort := acquire Mutex.time_mutex held
  (sort_timers { s with timestamp := { tv_sec := cur_tm.tv_sec, tv_usec := cur_tm.tv_usec } }).bind
    fun s1 =>
      let held_loop := release Mutex.time_mutex held_sort
      (tick_loop acts cur_tm s1.sorted_timers s1 []).bind fun r =>
        let held_cleanup := acquire Mutex.removed_id_mutex held_loop
        (cleanup_erases held_cleanup r.1.removed_timer_ids r.1).map fun q =>
          ({ q.1 with removed_timer_ids := [] }, q.2)

/-! ## Actions that cancel timers -/

/-- The ids an action passes to `RemoveTimer` when it is invoked, by handle. -/
structure Cancels where
  callback : Nat → timer_event → Nat → List Int
  event : Nat → Int → List Int
  event_func : Nat → Int → List Int

/-- The calls `RemoveTimer(id)` for the ids of a list, one after the other; the
return values are dropped.  (On a registry where the call is undefined the
registry is left as it is.) -/
def remove_all : List Int → State → State
  | [], s => s
  | id :: ids, s => remove_all ids (((RemoveTimer id s).map Prod.fst).getD s)

/-- Actions that call `RemoveTimer` on the registry for the ids of `c` and then
return the outcome of `o`. -/
def cancelling_actions (o : Outcomes) (c : Cancels) : Actions :=
  { callback := fun f e parm s => (remove_all (c.callback f e parm) s, o.callback f e parm)
    event := fun h id s => (remove_all (c.event h id) s, o.event h id)
    event_func := fun g id s => (remove_all (c.event_func g id) s, o.event_func g id) }

/-- The ids the action of a record passes to `RemoveTimer` when lines 80-87
invoke it. -/
def cancel_list (c : Cancels) (evt : timer_event) : List Int :=
  match evt.callback with
  | some f => c.callback f evt evt.callback_parm
  | none =>
    match evt.event with
    | some h => c.event h evt.timer_id
    | none =>
      match evt.event_func with
      | some g => c.event_func g evt.timer_id
      | none => []

/-- State `s2` has the views of `s`, and the records of `s` at their addresses
with the same id, where a flag may have been set and the schedule rewritten; the
removal queue has only grown. -/
def flags_only (s s2 : State) : Prop :=
  s2.timer_map = s.timer_map ∧ s2.sorted_timers = s.sorted_timers ∧
  (∀ p e, map_find p s.heap = some e →
    ∃ e2, map_find p s2.heap = some e2 ∧ e2.timer_id = e.timer_id ∧
      (e.timer_cancelled = true → e2.timer_cancelled = true)) ∧
  (∀ x ∈ s.removed_timer_ids, x ∈ s2.removed_timer_ids)

/-- What the loop of `Tick` with cancelling actions has done when it went through
the addresses `ps` from state `s` to state `s2` and fired `fired`: only flags
and schedules of records have changed; every record fired stood at an address
of `ps` and was not cancelled in `s`; and when a record fired at an address `pa`
has passed to `RemoveTimer` the id of the record at a later address `pb`, that
record was not fired and its id is queued for removal. -/
def loop_cancels_ok (c : Cancels) (ps : List Nat) (s s2 : State)
    (fired : List (timer_event × Int)) : Prop :=
  flags_only s s2 ∧
  (∀ x ∈ fired, ∃ p ∈ ps, ∃ e, map_find p s.heap = some e ∧
    e.timer_id = x.1.timer_id ∧ e.timer_cancelled = false) ∧
  (∀ pa pb ea eb, List.Sublist [pa, pb] ps → map_find pa s.heap = some ea →
    map_find pb s.heap = some eb →
    (∃ x ∈ fired, x.1.timer_id = ea.timer_id ∧ eb.timer_id ∈ cancel_list c x.1) →
    eb.timer_id ∉ fired.map (fun x => x.1.timer_id) ∧ eb.timer_id ∈ s2.removed_timer_ids)

/-- The record of the sample registry at address 2: the one-shot timer with id 1,
due at 100.2 s, with the closure handle 8. -/
def sample_oneshot : timer_event :=
  (map_find 2 sample_state.heap).getD sample_fresh

/-- Sample cancellations: the closure with handle 8 calls `RemoveTimer(0)`, no
other action cancels anything. -/
def sample_cancels : Cancels :=
  { callback := fun _ _ _ => []
    event := fun _ _ => []
    event_func := fun g _ => if g = 8 then [0] else [] }

/-- The ids of the records that the `Tick` calls of a run have rescheduled
(lines 89-99): the records fired with an outcome that passes the test of line
89. -/
def rescheduled_ids : List Out → List Int
  | [] => []
  | Out.ticked fired _ :: outs =>
    (fired.filter fun x => decide (keeps x.2 x.1)).map (fun x => x.1.timer_id) ++
      rescheduled_ids outs
  | _ :: outs => rescheduled_ids outs

/-- Ties stand in registration order: of two records of the ordered sequence
with the same `trigger_tm`, the one that stands first has the smaller id, unless
the id of one of them is in `R`. -/
def tie_order (R : List Int) (s : State) : Prop :=
  (records s).Pairwise fun a b =>
    a.trigger_tm = b.trigger_tm →
      a.timer_id < b.timer_id ∨ a.timer_id ∈ R ∨ b.timer_id ∈ R

/-- The ids that the actions of the records fired have passed to `RemoveTimer`,
in call order. -/
def cancelled_ids (c : Cancels) : List (timer_event × Int) → List Int
  | [] => []
  | x :: fired => cancel_list c x.1 ++ cancelled_ids c fired

/-- The record `e` after `RemoveTimer` calls: `timer_cancelled` is set when `b`
holds (line 281), and stays set when it was. -/
def flagged (e : timer_event) (b : Bool) : timer_event :=
  { e with timer_cancelled := e.timer_cancelled || b }

/-- What the loop of `Tick` with cancelling actions has done to each record when
it went through the addresses `ps` from state `s` to state `s2` and fired
`fired`.  A record that was not fired is as it was, with its flag set when an
action has passed its id to `RemoveTimer`; its id is queued for removal when it
was queued or an action has passed it to `RemoveTimer`, and only when one of
these holds or the record was cancelled.  A record that was fired stood at an
address of `ps`, not cancelled and not in the future; it has been rescheduled
when the test of line 89 passed, its flag is set when an action has passed its
id to `RemoveTimer`, and its id is queued for removal exactly when it was
queued, the test of line 89 failed, or an action has passed it to
`RemoveTimer`. -/
def loop_tracks (o : Outcomes) (c : Cancels) (cur_tm : timeval) (ps : List Nat)
    (s s2 : State) (fired : List (timer_event × Int)) : Prop :=
  (∀ p e, p ∈ s.sorted_timers → map_find p s.heap = some e →
    e.timer_id ∉ fired.map (fun x => x.1.timer_id) →
    map_find p s2.heap = some (flagged e (decide (e.timer_id ∈ cancelled_ids c fired))) ∧
    (e.timer_id ∈ s2.removed_timer_ids →
      e.timer_id ∈ s.removed_timer_ids ∨ e.timer_id ∈ cancelled_ids c fired ∨
        e.timer_cancelled = true) ∧
    (e.timer_id ∈ s.removed_timer_ids ∨ e.timer_id ∈ cancelled_ids c fired →
      e.timer_id ∈ s2.removed_timer_ids)) ∧
  (∀ x ∈ fired, ∃ p ∈ ps, map_find p s.heap = some x.1 ∧ x.1.timer_cancelled = false ∧
    tv_before cur_tm x.1.trigger_tm = false ∧ x.2 = outcome o x.1 ∧
    map_find p s2.heap =
      some (flagged (if keeps x.2 x.1 then reschedule cur_tm x.1 else x.1)
        (decide (x.1.timer_id ∈ cancelled_ids c fired))) ∧
    (x.1.timer_id ∈ s2.removed_timer_ids ↔
      x.1.timer_id ∈ s.removed_timer_ids ∨ ¬ keeps x.2 x.1 ∨
        x.1.timer_id ∈ cancelled_ids c fired))

/-- Sample cancellations: the action with event handle 7 calls `RemoveTimer` with
the id of its own timer, no other action cancels anything. -/
def sample_self_cancels : Cancels :=
  { callback := fun _ _ _ => []
    event := fun h id => if h = 7 then [id] else []
    event_func := fun _ _ => [] }

/-- Sample cancellations: the closure with handle 8 calls `RemoveTimer(2)`, no
other action cancels anything. -/
def sample_future_cancels : Cancels :=
  { callback := fun _ _ _ => []
    event := fun _ _ => []
    event_func := fun g _ => if g = 8 then [2] else [] }

/-! ## Association lists -/

theorem map_find_assign {κ α : Type} [DecidableEq κ] (k k2 : κ) (v : α)
    (m : List (κ × α)) :
    map_find k2 (map_assign k v m) = if k = k2 then some v else map_find k2 m := by
  induction m with
  | nil => simp [map_assign, map_find]
  | cons kv m ih =>
    obtain ⟨k1, v1⟩ := kv
    simp only [map_assign]
    split_ifs with h1 h2 h2
    · simp [map_find, h2]
    · subst h1
      simp [map_find, h2]
    · subst h2
      simp [map_find, h1, ih]
    · by_cases h3 : k1 = k2
      · simp [map_find, h3]
      · simp [map_find, h3, ih, h2]

theorem map_find_erase {κ α : Type} [DecidableEq κ] (k k2 : κ) (m : List (κ × α)) :
    map_find k2 (map_erase k m) = if k = k2 then none else map_find k2 m := by
  induction m with
  | nil => simp [map_erase, map_find]
  | cons kv m ih =>
    obtain ⟨k1, v1⟩ := kv
    unfold map_erase at ih ⊢
    by_cases h1 : k1 = k
    · subst h1
      rw [List.filter_cons_of_neg (by simp), ih]
      by_cases h2 : k1 = k2 <;> simp [map_find, h2]
    · rw [List.filter_cons_of_pos (by simpa using h1)]
      by_cases h3 : k1 = k2
      · subst h3
        have : ¬ k = k1 := fun h => h1 h.symm
        simp [map_find, this]
      · simp only [map_find, h3, if_false, ih]

theorem map_find_mem {κ α : Type} [DecidableEq κ] {k : κ} {v : α} {m : List (κ × α)}
    (h : map_find k m = some v) : (k, v) ∈ m := by
  induction m with
  | nil => simp [map_find] at h
  | cons kv m ih =>
    obtain ⟨k1, v1⟩ := kv
    by_cases h1 : k1 = k
    · subst h1
      simp [map_find] at h
      simp [h]
    · simp [map_find, h1] at h
      exact List.mem_cons_of_mem _ (ih h)

theorem mem_map_assign {κ α : Type} [DecidableEq κ] {k : κ} {v : α} {m : List (κ × α)}
    {kv : κ × α} (h : kv ∈ map_assign k v m) : kv = (k, v) ∨ kv ∈ m := by
  induction m with
  | nil => simpa [map_assign] using h
  | cons kv1 m ih =>
    obtain ⟨k1, v1⟩ := kv1
    by_cases h1 : k1 = k
    · simp only [map_assign, h1, if_true, List.mem_cons] at h
      rcases h with h | h
      · exact Or.inl h
      · exact Or.inr (List.mem_cons_of_mem _ h)
    · simp only [map_assign, h1, if_false, List.mem_cons] at h
      rcases h with h | h
      · exact Or.inr (by simp [h])
      · rcases ih h with h2 | h2
        · exact Or.inl h2
        · exact Or.inr (List.mem_cons_of_mem _ h2)

theorem mem_map_erase {κ α : Type} [DecidableEq κ] {k : κ} {m : List (κ × α)}
    {kv : κ × α} (h : kv ∈ map_erase k m) : kv ∈ m ∧ kv.1 ≠ k := by
  simpa [map_erase] using h

theorem le_foldr_max (l : List Nat) (x : Nat) (h : x ∈ l) : x ≤ l.foldr max 0 := by
  induction l with
  | nil => simp at h
  | cons a l ih =>
    simp only [List.foldr_cons, List.mem_cons] at h ⊢
    rcases h with h | h
    · subst h
      exact le_max_left _ _
    · exact le_trans (ih h) (le_max_right _ _)

theorem map_find_alloc {α : Type} (heap : List (Nat × α)) :
    map_find (alloc heap) heap = none := by
  cases h : map_find (alloc heap) heap with
  | none => rfl
  | some v =>
    have hm := map_find_mem h
    have : alloc heap ≤ (heap.map Prod.fst).foldr max 0 :=
      le_foldr_max _ _ (List.mem_map_of_mem Prod.fst hm)
    unfold alloc at this
    omega

/-! ## Well-formedness, unfolded -/

theorem WF_map {s : State} (h : WF s) {id : Int} {p : Nat}
    (hf : map_find id s.timer_map = some p) :
    p ∈ s.sorted_timers ∧ ∃ e, map_find p s.heap = some e ∧ e.timer_id = id := by
  have h1 := h.1 (id, p) (map_find_mem hf) hf
  simpa [Option.map_eq_some'] using h1

theorem WF_sorted {s : State} (h : WF s) {p : Nat} (hp : p ∈ s.sorted_timers) :
    ∃ e, map_find p s.heap = some e ∧ map_find e.timer_id s.timer_map = some p := by
  have h1 := h.2.1 p hp
  simpa [Option.bind_eq_some] using h1

theorem WF_intro {s : State}
    (h1 : ∀ id p, map_find id s.timer_map = some p →
      p ∈ s.sorted_timers ∧ ∃ e, map_find p s.heap = some e ∧ e.timer_id = id)
    (h2 : ∀ p ∈ s.sorted_timers,
      ∃ e, map_find p s.heap = some e ∧ map_find e.timer_id s.timer_map = some p)
    (h3 : s.sorted_timers.Nodup) : WF s := by
  refine ⟨?_, ?_, h3⟩
  · intro kv _ hf
    have := h1 kv.1 kv.2 hf
    simpa [Option.map_eq_some'] using this
  · intro p hp
    have := h2 p hp
    simpa [Option.bind_eq_some] using this

theorem ids_below_find {s : State} (h : ids_below s) {id : Int} {p : Nat}
    (hf : map_find id s.timer_map = some p) : id < s.next_timer_id :=
  h (id, p) (map_find_mem hf) hf

theorem ids_below_intro {s : State}
    (h : ∀ id p, map_find id s.timer_map = some p → id < s.next_timer_id) : ids_below s :=
  fun kv _ hf => h kv.1 kv.2 hf

theorem mem_records {s : State} {e : timer_event} :
    e ∈ records s ↔ ∃ p ∈ s.sorted_timers, map_find p s.heap = some e := by
  simp [records, List.mem_filterMap]

/-! ## Timevals and sorting -/

theorem tv_before_eq_false {a b : timeval} : tv_before a b = false ↔ tv_le b a := by
  unfold tv_before tv_le
  simp only [Bool.or_eq_false_iff, Bool.and_eq_false_iff, decide_eq_false_iff_not]
  constructor
  · intro h
    omega
  · intro h
    omega

theorem tv_le_trans {a b c : timeval} (h1 : tv_le a b) (h2 : tv_le b c) : tv_le a c := by
  unfold tv_le at *
  omega

theorem tv_le_total (a b : timeval) : tv_le a b ∨ tv_le b a := by
  unfold tv_le
  omega

theorem stable_sort_perm {α : Type} (comp : α → α → Bool) (l : List α) :
    List.Perm (stable_sort comp l) l :=
  List.perm_insertionSort _ l

theorem stable_sort_sorted (l : List (Nat × timer_event)) :
    (stable_sort (fun a b => SortTimerEventsTrigger a.2 b.2) l).Pairwise
      (fun a b => tv_le a.2.trigger_tm b.2.trigger_tm) := by
  have hiff : ∀ a b : Nat × timer_event,
      (SortTimerEventsTrigger b.2 a.2 = false) ↔ tv_le a.2.trigger_tm b.2.trigger_tm := by
    intro a b
    exact tv_before_eq_false
  haveI : IsTotal (Nat × timer_event) (fun a b => SortTimerEventsTrigger b.2 a.2 = false) :=
    ⟨fun a b => by
      rw [hiff, hiff]
      exact tv_le_total _ _⟩
  haveI : IsTrans (Nat × timer_event) (fun a b => SortTimerEventsTrigger b.2 a.2 = false) :=
    ⟨fun a b c h1 h2 => by
      rw [hiff] at *
      exact tv_le_trans h1 h2⟩
  have hs := List.sorted_insertionSort
    (fun a b : Nat × timer_event => SortTimerEventsTrigger b.2 a.2 = false) l
  unfold stable_sort
  exact List.Pairwise.imp (fun {a b} h => (hiff a b).1 h) hs

theorem deref_all_eq (heap : List (Nat × timer_event)) (ps : List Nat)
    (h : ∀ p ∈ ps, ∃ e, map_find p heap = some e) :
    deref_all heap ps = some (deref_list heap ps) := by
  induction ps with
  | nil => rfl
  | cons p ps ih =>
    obtain ⟨e, he⟩ := h p (List.mem_cons_self _ _)
    have ih2 := ih (fun q hq => h q (List.mem_cons_of_mem _ hq))
    simp [deref_all, deref_list, he, ih2, List.filterMap_cons]

theorem deref_list_fst (heap : List (Nat × timer_event)) (ps : List Nat)
    (h : ∀ p ∈ ps, ∃ e, map_find p heap = some e) :
    (deref_list heap ps).map Prod.fst = ps := by
  induction ps with
  | nil => rfl
  | cons p ps ih =>
    obtain ⟨e, he⟩ := h p (List.mem_cons_self _ _)
    have ih2 := ih (fun q hq => h q (List.mem_cons_of_mem _ hq))
    simp only [deref_list, List.filterMap_cons, he, Option.map_some', List.map_cons] at ih2 ⊢
    rw [ih2]

theorem deref_list_snd (heap : List (Nat × timer_event)) (ps : List Nat) :
    (deref_list heap ps).map Prod.snd = ps.filterMap (fun p => map_find p heap) := by
  induction ps with
  | nil => rfl
  | cons p ps ih =>
    simp only [deref_list, List.filterMap_cons] at ih ⊢
    cases he : map_find p heap with
    | none => simpa using ih
    | some e => simpa using ih

theorem mem_deref_list {heap : List (Nat × timer_event)} {ps : List Nat}
    {pe : Nat × timer_event} :
    pe ∈ deref_list heap ps ↔ pe.1 ∈ ps ∧ map_find pe.1 heap = some pe.2 := by
  obtain ⟨p, e⟩ := pe
  simp only [deref_list, List.mem_filterMap, Option.map_eq_some', Prod.mk.injEq]
  constructor
  · rintro ⟨q, hq, e2, he2, rfl, rfl⟩
    exact ⟨hq, he2⟩
  · rintro ⟨hp, he⟩
    exact ⟨p, hp, e, he, rfl, rfl⟩

theorem mem_sorted_records {s : State} {pe : Nat × timer_event} :
    pe ∈ sorted_records s ↔ pe.1 ∈ s.sorted_timers ∧ map_find pe.1 s.heap = some pe.2 := by
  unfold sorted_records
  rw [(stable_sort_perm _ _).mem_iff, mem_deref_list]

theorem sorted_records_fst_perm {s : State}
    (h : ∀ p ∈ s.sorted_timers, ∃ e, map_find p s.heap = some e) :
    List.Perm ((sorted_records s).map Prod.fst) s.sorted_timers := by
  have h1 := (stable_sort_perm (fun a b : Nat × timer_event =>
    SortTimerEventsTrigger a.2 b.2) (deref_list s.heap s.sorted_timers)).map Prod.fst
  rw [deref_list_fst _ _ h] at h1
  exact h1

theorem sorted_records_snd_perm (s : State) :
    List.Perm ((sorted_records s).map Prod.snd) (records s) := by
  have h1 := (stable_sort_perm (fun a b : Nat × timer_event =>
    SortTimerEventsTrigger a.2 b.2) (deref_list s.heap s.sorted_timers)).map Prod.snd
  rw [deref_list_snd] at h1
  exact h1

theorem sort_timers_eq (s : State)
    (h : ∀ p ∈ s.sorted_timers, ∃ e, map_find p s.heap = some e) :
    sort_timers s = some { s with sorted_timers := (sorted_records s).map Prod.fst } := by
  unfold sort_timers sorted_records
  rw [deref_all_eq _ _ h]
  rfl

/-! ## The dispatch loop with actions that do not touch the registry -/

theorem invoke_pure (o : Outcomes) (e : timer_event) (s : State) :
    invoke (pure_actions o) e s = (s, outcome o e) := by
  unfold invoke outcome pure_actions
  cases e.callback with
  | some f => rfl
  | none =>
    cases e.event with
    | some h => rfl
    | none =>
      cases e.event_func with
      | some g => rfl
      | none => rfl

theorem tick_loop_pure (o : Outcomes) (T : timeval) :
    ∀ (l : List (Nat × timer_event)) (s : State) (log : List (timer_event × Int)),
      (l.map Prod.fst).Nodup →
      (∀ pe ∈ l, map_find pe.1 s.heap = some pe.2) →
      tick_loop (pure_actions o) T (l.map Prod.fst) s log =
        some ({ s with heap := loop_heap o T (visited T l) s.heap,
                       removed_timer_ids :=
                         s.removed_timer_ids ++ loop_queue o (visited T l) },
              log ++ loop_log o (visited T l)) := by
  intro l
  induction l with
  | nil =>
    intro s log _ _
    simp [tick_loop, visited, loop_heap, loop_queue, loop_log]
  | cons pe l ih =>
    intro s log hnd hl
    obtain ⟨p, e⟩ := pe
    have he : map_find p s.heap = some e := hl (p, e) (List.mem_cons_self _ _)
    have hnd2 : (l.map Prod.fst).Nodup := (List.nodup_cons.1 hnd).2
    have hp : ∀ pe ∈ l, pe.1 ≠ p := by
      intro pe hpe heq
      have hm : pe.1 ∈ l.map Prod.fst := List.mem_map_of_mem Prod.fst hpe
      rw [heq] at hm
      exact (List.nodup_cons.1 hnd).1 hm
    have hl2 : ∀ pe ∈ l, map_find pe.1 s.heap = some pe.2 :=
      fun pe hpe => hl pe (List.mem_cons_of_mem _ hpe)
    simp only [List.map_cons, tick_loop, he]
    by_cases hc : e.timer_cancelled = true
    · have h1 := ih { s with removed_timer_ids := s.removed_timer_ids ++ [e.timer_id] }
        log hnd2 hl2
      simp only [hc, if_true, h1, visited, loop_heap, loop_queue, loop_log]
      simp [hc, List.filter_cons]
    · have hc2 : e.timer_cancelled = false := by simpa using hc
      by_cases hf : tv_before T e.trigger_tm = true
      · simp [hc, hf, visited, loop_heap, loop_queue, loop_log]
      · simp only [hc, hf, if_false, invoke_pure]
        by_cases hr : 0 < outcome o e
        · by_cases hk : e.timeslices ≠ -1 ∧ e.recurring ≠ 0
          · have hkeep : keeps (outcome o e) e := ⟨hr, hk⟩
            have h1 := ih { s with heap := map_assign p (reschedule T e) s.heap }
              (log ++ [(e, outcome o e)]) hnd2 (by
                intro pe hpe
                show map_find pe.1 (map_assign p (reschedule T e) s.heap) = some pe.2
                rw [map_find_assign, if_neg (fun h => hp pe hpe h.symm)]
                exact hl2 pe hpe)
            rw [if_pos hr]
            simp only [he]
            rw [if_pos hk, h1]
            simp only [visited, loop_heap, loop_queue, loop_log]
            simp [hc2, hf, hkeep, List.filter_cons, loop_heap]
          · have hkeep : ¬ keeps (outcome o e) e := fun h => hk h.2
            have h1 := ih { s with removed_timer_ids := s.removed_timer_ids ++ [e.timer_id] }
              (log ++ [(e, outcome o e)]) hnd2 hl2
            rw [if_pos hr]
            simp only [he]
            rw [if_neg hk, h1]
            simp only [visited, loop_heap, loop_queue, loop_log]
            simp [hc2, hf, hkeep, List.filter_cons, loop_heap]
        · have hkeep : ¬ keeps (outcome o e) e := fun h => hr h.1
          have h1 := ih { s with removed_timer_ids := s.removed_timer_ids ++ [e.timer_id] }
            (log ++ [(e, outcome o e)]) hnd2 hl2
          rw [if_neg hr, h1]
          simp only [visited, loop_heap, loop_queue, loop_log]
          simp [hc2, hf, hkeep, List.filter_cons, loop_heap]

theorem visited_sublist (T : timeval) (l : List (Nat × timer_event)) :
    List.Sublist (visited T l) l := by
  induction l with
  | nil => exact List.Sublist.refl _
  | cons pe l ih =>
    unfold visited
    split_ifs
    · exact ih.cons₂ _
    · exact List.nil_sublist _
    · exact ih.cons₂ _

theorem due_iff (T : timeval) (e : timer_event) :
    due T e ↔ (e.timer_cancelled = false ∧ tv_before T e.trigger_tm = false) := by
  unfold due
  rw [tv_before_eq_false]
  exact and_comm

/-- On a list sorted by trigger time the loop visits every due record: the
records it fires are the due ones, in list order. -/
theorem visited_filter_sorted (T : timeval) (l : List (Nat × timer_event))
    (hs : l.Pairwise (fun a b => tv_le a.2.trigger_tm b.2.trigger_tm)) :
    (visited T l).filter (fun pe => decide (pe.2.timer_cancelled = false)) =
      l.filter (fun pe => decide (due T pe.2)) := by
  induction l with
  | nil => rfl
  | cons pe l ih =>
    have ih2 := ih (List.Pairwise.of_cons hs)
    have hrel : ∀ a ∈ l, tv_le pe.2.trigger_tm a.2.trigger_tm :=
      fun a ha => List.rel_of_pairwise_cons hs ha
    unfold visited
    by_cases hc : pe.2.timer_cancelled = true
    · have hnd : ¬ due T pe.2 := by
        rw [due_iff]
        simp [hc]
      rw [if_pos hc, List.filter_cons_of_neg (by simp [hc]),
        List.filter_cons_of_neg (by simpa using hnd), ih2]
    · have hc2 : pe.2.timer_cancelled = false := by simpa using hc
      by_cases hf : tv_before T pe.2.trigger_tm = true
      · have hnd : ¬ due T pe.2 := by
          rw [due_iff]
          simp [hf]
        have hrest : l.filter (fun pe => decide (due T pe.2)) = [] := by
          rw [List.filter_eq_nil_iff]
          intro a ha
          have h1 := hrel a ha
          have h2 : ¬ tv_le pe.2.trigger_tm T := by
            rw [← tv_before_eq_false]
            simp [hf]
          have h3 : ¬ tv_le a.2.trigger_tm T := fun h => h2 (tv_le_trans h1 h)
          simp [due, h3]
        simp [hc, hf, List.filter_cons, hnd, hrest]
      · have hd : due T pe.2 := by
          rw [due_iff]
          exact ⟨hc2, by simpa using hf⟩
        rw [if_neg hc, if_neg hf, List.filter_cons_of_pos (by simp [hc2]),
          List.filter_cons_of_pos (by simpa using hd), ih2]

theorem loop_log_sorted (o : Outcomes) (T : timeval) (l : List (Nat × timer_event))
    (hs : l.Pairwise (fun a b => tv_le a.2.trigger_tm b.2.trigger_tm)) :
    loop_log o (visited T l) =
      (l.filter (fun pe => decide (due T pe.2))).map (fun pe => (pe.2, outcome o pe.2)) := by
  unfold loop_log
  rw [visited_filter_sorted T l hs]

theorem find_loop_heap_of_not_mem (o : Outcomes) (T : timeval) (q : Nat) :
    ∀ (v : List (Nat × timer_event)) (h : List (Nat × timer_event)),
      q ∉ v.map Prod.fst → map_find q (loop_heap o T v h) = map_find q h := by
  intro v
  induction v with
  | nil => intro h _; rfl
  | cons pe v ih =>
    intro h hq
    have hq1 : pe.1 ≠ q := fun heq => hq (by simp [heq])
    have hq2 : q ∉ v.map Prod.fst := fun hm => hq (by simp at hm ⊢; exact Or.inr hm)
    unfold loop_heap
    split_ifs
    · rw [ih _ hq2, map_find_assign, if_neg hq1]
    · exact ih _ hq2

theorem find_loop_heap_of_mem (o : Outcomes) (T : timeval) (q : Nat) (e : timer_event) :
    ∀ (v : List (Nat × timer_event)) (h : List (Nat × timer_event)),
      (v.map Prod.fst).Nodup → (q, e) ∈ v →
      map_find q (loop_heap o T v h) =
        if e.timer_cancelled = false ∧ keeps (outcome o e) e then some (reschedule T e)
        else map_find q h := by
  intro v
  induction v with
  | nil => intro h _ hm; simp at hm
  | cons pe v ih =>
    intro h hnd hm
    have hnd2 : (v.map Prod.fst).Nodup := (List.nodup_cons.1 hnd).2
    have hnot : pe.1 ∉ v.map Prod.fst := (List.nodup_cons.1 hnd).1
    rcases List.mem_cons.1 hm with heq | hm2
    · subst heq
      unfold loop_heap
      split_ifs with hk
      · rw [find_loop_heap_of_not_mem o T q v _ hnot, map_find_assign, if_pos rfl]
      · rw [find_loop_heap_of_not_mem o T q v _ hnot]
    · have hne : pe.1 ≠ q := by
        intro heq
        apply hnot
        rw [heq]
        exact List.mem_map_of_mem Prod.fst hm2
      unfold loop_heap
      split_ifs with hk1 hk2 hk2
      · rw [ih _ hnd2 hm2, if_pos hk2]
      · rw [ih _ hnd2 hm2, if_neg hk2, map_find_assign, if_neg hne]
      · rw [ih _ hnd2 hm2, if_pos hk2]
      · rw [ih _ hnd2 hm2, if_neg hk2]

/-- The loop only rewrites the schedule of live records: an address keeps its
record, or its record is replaced by the rescheduled one. -/
theorem find_loop_heap_cases (o : Outcomes) (T : timeval) (q : Nat)
    (v : List (Nat × timer_event)) (h : List (Nat × timer_event))
    (hnd : (v.map Prod.fst).Nodup) (hl : ∀ pe ∈ v, map_find pe.1 h = some pe.2) :
    map_find q (loop_heap o T v h) = map_find q h ∨
      ∃ e, (q, e) ∈ v ∧ e.timer_cancelled = false ∧ keeps (outcome o e) e ∧
        map_find q h = some e ∧
        map_find q (loop_heap o T v h) = some (reschedule T e) := by
  by_cases hq : q ∈ v.map Prod.fst
  · obtain ⟨pe, hpe, rfl⟩ := List.mem_map.1 hq
    have h1 := find_loop_heap_of_mem o T pe.1 pe.2 v h hnd hpe
    by_cases hk : pe.2.timer_cancelled = false ∧ keeps (outcome o pe.2) pe.2
    · rw [if_pos hk] at h1
      exact Or.inr ⟨pe.2, hpe, hk.1, hk.2, hl pe hpe, h1⟩
    · rw [if_neg hk] at h1
      exact Or.inl h1
  · exact Or.inl (find_loop_heap_of_not_mem o T q _ h hq)

/-! ## The cleanup phase -/

theorem erase_timer_id_eq (heap : List (Nat × timer_event)) (x : Int) (p : Nat)
    (hp : ∃ e, map_find p heap = some e ∧ e.timer_id = x) :
    ∀ ps : List Nat, p ∈ ps →
      (∀ q ∈ ps, ∃ e, map_find q heap = some e ∧ (e.timer_id = x → q = p)) →
      erase_timer_id heap x ps = some (ps.erase p) := by
  intro ps
  induction ps with
  | nil => intro h _; simp at h
  | cons q ps ih =>
    intro hmem hall
    obtain ⟨e, he, hq⟩ := hall q (List.mem_cons_self _ _)
    simp only [erase_timer_id, he]
    by_cases hx : e.timer_id = x
    · have hqp := hq hx
      subst hqp
      simp [hx]
    · have hne : q ≠ p := by
        intro hqp
        subst hqp
        obtain ⟨e2, he2, hx2⟩ := hp
        rw [he] at he2
        cases he2
        exact hx hx2
      have hmem2 : p ∈ ps := by
        rcases List.mem_cons.1 hmem with h | h
        · exact absurd h.symm hne
        · exact h
      rw [if_neg hx, ih hmem2 (fun r hr => hall r (List.mem_cons_of_mem _ hr))]
      simp [List.erase_cons, hne]

theorem cleanup_one_eq {s : State} (h : WF s) (x : Int) (p : Nat)
    (hf : map_find x s.timer_map = some p) :
    cleanup_one x s =
      some { s with sorted_timers := s.sorted_timers.erase p,
                    heap := map_erase p s.heap,
                    timer_map := map_erase x s.timer_map } := by
  obtain ⟨hps, e, he, hid⟩ := WF_map h hf
  have h1 : erase_timer_id s.heap x s.sorted_timers = some (s.sorted_timers.erase p) := by
    apply erase_timer_id_eq s.heap x p ⟨e, he, hid⟩ _ hps
    intro q hq
    obtain ⟨e2, he2, hm2⟩ := WF_sorted h hq
    refine ⟨e2, he2, fun hx => ?_⟩
    rw [hx, hf] at hm2
    exact (Option.some.inj hm2).symm
  simp only [cleanup_one, hf, h1, he]

theorem cleanup_one_none {s : State} (x : Int) (hf : map_find x s.timer_map = none) :
    cleanup_one x s = some s := by
  simp only [cleanup_one, hf]

theorem removes_nil (s : State) : removes [] s s := by
  refine ⟨fun id => by simp, fun p => by simp, List.Sublist.refl _, fun _ _ => rfl,
    fun _ => Or.inr rfl, rfl, rfl, rfl⟩

theorem removes_absent {s : State} (x : Int) (h : WF s)
    (hf : map_find x s.timer_map = none) : removes [x] s s := by
  refine ⟨fun id => ?_, fun p => ?_, List.Sublist.refl _, fun _ _ => rfl,
    fun _ => Or.inr rfl, rfl, rfl, rfl⟩
  · by_cases hid : id = x
    · subst hid
      simp [hf]
    · simp [hid]
  · constructor
    · intro hp
      refine ⟨hp, fun e he => ?_⟩
      obtain ⟨e2, he2, hm2⟩ := WF_sorted h hp
      rw [he] at he2
      cases he2
      intro hx
      simp only [List.mem_singleton] at hx
      rw [hx, hf] at hm2
      cases hm2
    · exact fun hp => hp.1

theorem removes_present {s : State} (x : Int) (p : Nat) (h : WF s)
    (hf : map_find x s.timer_map = some p) :
    removes [x] s { s with sorted_timers := s.sorted_timers.erase p,
                           heap := map_erase p s.heap,
                           timer_map := map_erase x s.timer_map } := by
  obtain ⟨hps, e, he, hid⟩ := WF_map h hf
  have hnd : s.sorted_timers.Nodup := h.2.2
  refine ⟨fun id => ?_, fun q => ?_, List.erase_sublist _ _, fun q hq => ?_,
    fun q => ?_, rfl, rfl, rfl⟩
  · show map_find id (map_erase x s.timer_map) = _
    rw [map_find_erase]
    by_cases hid2 : x = id
    · simp [hid2]
    · have : ¬ id = x := fun h => hid2 h.symm
      simp [hid2, this]
  · show q ∈ s.sorted_timers.erase p ↔ _
    rw [hnd.mem_erase_iff]
    constructor
    · rintro ⟨hqp, hq⟩
      refine ⟨hq, fun e2 he2 hx => ?_⟩
      simp only [List.mem_singleton] at hx
      obtain ⟨e3, he3, hm3⟩ := WF_sorted h hq
      rw [he2] at he3
      cases he3
      rw [hx, hf] at hm3
      exact hqp (Option.some.inj hm3).symm
    · rintro ⟨hq, hall⟩
      refine ⟨fun hqp => ?_, hq⟩
      subst hqp
      exact hall e he (by simp [hid])
  · show map_find q (map_erase p s.heap) = _
    have hq2 : q ∈ s.sorted_timers.erase p := hq
    rw [hnd.mem_erase_iff] at hq2
    rw [map_find_erase, if_neg (fun h => hq2.1 h.symm)]
  · show map_find q (map_erase p s.heap) = none ∨ map_find q (map_erase p s.heap) = _
    rw [map_find_erase]
    by_cases hpq : p = q
    · exact Or.inl (by simp [hpq])
    · exact Or.inr (by simp [hpq])

theorem WF_cleanup_one {s : State} (x : Int) (p : Nat) (h : WF s)
    (hf : map_find x s.timer_map = some p) :
    WF { s with sorted_timers := s.sorted_timers.erase p,
                heap := map_erase p s.heap,
                timer_map := map_erase x s.timer_map } := by
  obtain ⟨hps, e, he, hid⟩ := WF_map h hf
  have hnd : s.sorted_timers.Nodup := h.2.2
  apply WF_intro
  · intro id q hq
    have hq1 : map_find id (map_erase x s.timer_map) = some q := hq
    rw [map_find_erase] at hq1
    by_cases hx : x = id
    · simp [hx] at hq1
    · rw [if_neg hx] at hq1
      obtain ⟨hqs, e2, he2, hid2⟩ := WF_map h hq1
      have hqp : q ≠ p := by
        intro hqp
        subst hqp
        rw [he] at he2
        cases he2
        exact hx (hid.symm.trans hid2)
      refine ⟨?_, e2, ?_, hid2⟩
      · show q ∈ s.sorted_timers.erase p
        rw [hnd.mem_erase_iff]
        exact ⟨hqp, hqs⟩
      · show map_find q (map_erase p s.heap) = some e2
        rw [map_find_erase, if_neg (fun h => hqp h.symm)]
        exact he2
  · intro q hq
    have hq1 : q ∈ s.sorted_timers.erase p := hq
    rw [hnd.mem_erase_iff] at hq1
    obtain ⟨e2, he2, hm2⟩ := WF_sorted h hq1.2
    refine ⟨e2, ?_, ?_⟩
    · show map_find q (map_erase p s.heap) = some e2
      rw [map_find_erase, if_neg (fun h => hq1.1 h.symm)]
      exact he2
    · show map_find e2.timer_id (map_erase x s.timer_map) = some q
      have hx : ¬ x = e2.timer_id := by
        intro hx
        rw [← hx, hf] at hm2
        exact hq1.1 (Option.some.inj hm2).symm
      rw [map_find_erase, if_neg hx]
      exact hm2
  · exact hnd.erase p

theorem removes_trans {x : Int} {xs : List Int} {s s1 s2 : State}
    (h1 : removes [x] s s1) (h2 : removes xs s1 s2) : removes (x :: xs) s s2 := by
  obtain ⟨a1, a2, a3, a4, a5, a6, a7, a8⟩ := h1
  obtain ⟨b1, b2, b3, b4, b5, b6, b7, b8⟩ := h2
  refine ⟨fun id => ?_, fun p => ?_, b3.trans a3, fun p hp => ?_, fun p => ?_,
    b6.trans a6, b7.trans a7, b8.trans a8⟩
  · rw [b1, a1]
    by_cases hx : id = x
    · simp [hx]
    · by_cases hxs : id ∈ xs <;> simp [hx, hxs]
  · rw [b2, a2]
    constructor
    · rintro ⟨⟨hp, hx⟩, hxs⟩
      refine ⟨hp, fun e he => ?_⟩
      have hp1 : p ∈ s1.sorted_timers := (a2 p).2 ⟨hp, hx⟩
      have he1 : map_find p s1.heap = some e := by rw [a4 p hp1]; exact he
      have := hx e he
      have := hxs e he1
      simp only [List.mem_singleton] at *
      simp [*]
    · rintro ⟨hp, hall⟩
      have hx : ∀ e, map_find p s.heap = some e → e.timer_id ∉ [x] := by
        intro e he
        have := hall e he
        simp only [List.mem_cons, not_or] at this
        simpa using this.1
      refine ⟨⟨hp, hx⟩, fun e he1 => ?_⟩
      have hp1 : p ∈ s1.sorted_timers := (a2 p).2 ⟨hp, hx⟩
      rw [a4 p hp1] at he1
      have := hall e he1
      simp only [List.mem_cons, not_or] at this
      exact this.2
  · rw [b4 p hp, a4 p (b3.subset hp)]
  · rcases b5 p with h | h
    · exact Or.inl h
    · rcases a5 p with h3 | h3
      · exact Or.inl (h.trans h3)
      · exact Or.inr (h.trans h3)

/-- The cleanup phase on a well-formed registry ends, erases exactly the records
whose id is queued, and leaves a well-formed registry. -/
theorem cleanup_spec : ∀ (q : List Int) (s : State), WF s →
    ∃ s2, cleanup q s = some s2 ∧ WF s2 ∧ removes q s s2 := by
  intro q
  induction q with
  | nil => intro s h; exact ⟨s, rfl, h, removes_nil s⟩
  | cons x xs ih =>
    intro s h
    cases hf : map_find x s.timer_map with
    | none =>
      obtain ⟨s2, hc, hw, hr⟩ := ih s h
      refine ⟨s2, ?_, hw, removes_trans (removes_absent x h hf) hr⟩
      show (cleanup_one x s).bind (cleanup xs) = some s2
      rw [cleanup_one_none x hf]
      exact hc
    | some p =>
      obtain ⟨s2, hc, hw, hr⟩ := ih _ (WF_cleanup_one x p h hf)
      refine ⟨s2, ?_, hw, removes_trans (removes_present x p h hf) hr⟩
      show (cleanup_one x s).bind (cleanup xs) = some s2
      rw [cleanup_one_eq h x p hf]
      exact hc

/-! ## One `Tick` with actions that do not touch the registry -/

theorem WF_live {s : State} (h : WF s) :
    ∀ p ∈ s.sorted_timers, ∃ e, map_find p s.heap = some e := by
  intro p hp
  obtain ⟨e, he, _⟩ := WF_sorted h hp
  exact ⟨e, he⟩

theorem sorted_records_nodup {s : State} (h : WF s) :
    ((sorted_records s).map Prod.fst).Nodup :=
  (sorted_records_fst_perm (WF_live h)).nodup_iff.2 h.2.2

theorem visited_nodup {s : State} (h : WF s) (T : timeval) :
    ((visited T (sorted_records s)).map Prod.fst).Nodup :=
  ((visited_sublist T (sorted_records s)).map Prod.fst).nodup (sorted_records_nodup h)

theorem visited_find {s : State} (T : timeval) :
    ∀ pe ∈ visited T (sorted_records s), map_find pe.1 s.heap = some pe.2 := by
  intro pe hpe
  exact (mem_sorted_records.1 ((visited_sublist T _).subset hpe)).2

/-- What the loop of `Tick` leaves at an address: the record as it was, or the
rescheduled record when the loop fired it and line 89 kept it. -/
theorem find_after_loop {s : State} (h : WF s) (o : Outcomes) (T : timeval) (q : Nat) :
    map_find q (after_loop o T s).heap = map_find q s.heap ∨
      ∃ e, (q, e) ∈ visited T (sorted_records s) ∧ e.timer_cancelled = false ∧
        keeps (outcome o e) e ∧ map_find q s.heap = some e ∧
        map_find q (after_loop o T s).heap = some (reschedule T e) :=
  find_loop_heap_cases o T q _ s.heap (visited_nodup h T) (visited_find T)

theorem find_after_loop_id {s : State} (h : WF s) (o : Outcomes) (T : timeval) (q : Nat)
    (e : timer_event) (he : map_find q s.heap = some e) :
    ∃ e2, map_find q (after_loop o T s).heap = some e2 ∧ e2.timer_id = e.timer_id ∧
      e2.timer_cancelled = e.timer_cancelled ∧ e2.timeslices = e.timeslices ∧
      e2.recurring = e.recurring := by
  rcases find_after_loop h o T q with h1 | ⟨e1, _, _, _, h2, h3⟩
  · exact ⟨e, h1.trans he, rfl, rfl, rfl, rfl⟩
  · rw [he] at h2
    cases h2
    exact ⟨reschedule T e, h3, rfl, rfl, rfl, rfl⟩

theorem mem_after_loop_sorted {s : State} (h : WF s) (o : Outcomes) (T : timeval) (p : Nat) :
    p ∈ (after_loop o T s).sorted_timers ↔ p ∈ s.sorted_timers :=
  (sorted_records_fst_perm (WF_live h)).mem_iff

theorem WF_after_loop {s : State} (h : WF s) (o : Outcomes) (T : timeval) :
    WF (after_loop o T s) := by
  apply WF_intro
  · intro id p hf
    have hf1 : map_find id s.timer_map = some p := hf
    obtain ⟨hp, e, he, hid⟩ := WF_map h hf1
    obtain ⟨e2, he2, hid2, _⟩ := find_after_loop_id h o T p e he
    exact ⟨(mem_after_loop_sorted h o T p).2 hp, e2, he2, hid2.trans hid⟩
  · intro p hp
    obtain ⟨e, he, hm⟩ := WF_sorted h ((mem_after_loop_sorted h o T p).1 hp)
    obtain ⟨e2, he2, hid2, _⟩ := find_after_loop_id h o T p e he
    refine ⟨e2, he2, ?_⟩
    show map_find e2.timer_id s.timer_map = some p
    rw [hid2]
    exact hm
  · exact sorted_records_nodup h

/-- On a well-formed registry `Tick` returns 1; it fires the records of
`loop_log`, and its final state is the state after the loop without the records
whose id is queued, with an empty queue. -/
theorem Tick_pure_eq {s : State} (h : WF s) (o : Outcomes) (T : timeval) :
    ∃ s3, Tick (pure_actions o) T s =
        some ({ s3 with removed_timer_ids := [] },
          loop_log o (visited T (sorted_records s)), 1) ∧
      WF s3 ∧ removes (after_loop o T s).removed_timer_ids (after_loop o T s) s3 := by
  obtain ⟨s3, hc, hw, hr⟩ :=
    cleanup_spec (after_loop o T s).removed_timer_ids (after_loop o T s) (WF_after_loop h o T)
  refine ⟨s3, ?_, hw, hr⟩
  have hsort := sort_timers_eq
    { s with timestamp := { tv_sec := T.tv_sec, tv_usec := T.tv_usec } } (WF_live h)
  have hloop := tick_loop_pure o T (sorted_records s)
    { s with timestamp := { tv_sec := T.tv_sec, tv_usec := T.tv_usec },
             sorted_timers := (sorted_records s).map Prod.fst } []
    (sorted_records_nodup h) (fun pe hpe => (mem_sorted_records.1 hpe).2)
  unfold Tick
  rw [hsort]
  simp only [Option.some_bind]
  have hsr : sorted_records
      { s with timestamp := { tv_sec := T.tv_sec, tv_usec := T.tv_usec } } =
      sorted_records s := rfl
  rw [hsr, hloop]
  simp only [Option.some_bind, List.nil_append]
  change (cleanup (after_loop o T s).removed_timer_ids (after_loop o T s)).map _ = _
  rw [hc]
  rfl

theorem sorted_records_ids_nodup {s : State} (h : WF s) :
    ((sorted_records s).map (fun pe => pe.2.timer_id)).Nodup := by
  have hnd : (sorted_records s).Nodup := List.Nodup.of_map _ (sorted_records_nodup h)
  refine List.Nodup.map_on ?_ hnd
  intro a ha b hb hab
  obtain ⟨ha1, ha2⟩ := mem_sorted_records.1 ha
  obtain ⟨hb1, hb2⟩ := mem_sorted_records.1 hb
  obtain ⟨ea, hea, hma⟩ := WF_sorted h ha1
  obtain ⟨eb, heb, hmb⟩ := WF_sorted h hb1
  rw [ha2] at hea
  rw [hb2] at heb
  cases hea
  cases heb
  rw [hab, hmb] at hma
  have hfst : b.1 = a.1 := Option.some.inj hma
  have hsnd : a.2 = b.2 := by
    rw [← hfst, hb2] at ha2
    exact (Option.some.inj ha2).symm
  exact Prod.ext hfst.symm hsnd

/-- The records `Tick` fires on a well-formed registry: the due records of the
sorted working list, in its order, each with the outcome of its action. -/
theorem Tick_pure_log {s : State} (h : WF s) (o : Outcomes) (T : timeval) :
    ∃ s2, Tick (pure_actions o) T s =
      some (s2, ((sorted_records s).filter (fun pe => decide (due T pe.2))).map
        (fun pe => (pe.2, outcome o pe.2)), 1) := by
  obtain ⟨s3, h1, _, _⟩ := Tick_pure_eq h o T
  have hlog : loop_log o (visited T (sorted_records s)) = _ :=
    loop_log_sorted o T (sorted_records s) (stable_sort_sorted _)
  rw [hlog] at h1
  exact ⟨_, h1⟩

/-- C1 (ordering).  On a well-formed registry, with actions that do not touch
the registry, one `Tick` at captured time `T` returns 1 and fires exactly the
records of the registry whose `trigger_tm` is not after `T` (lexicographically on
seconds and microseconds) and which are not cancelled; no id is fired twice; the
records are fired in non-decreasing `trigger_tm` order; and each is logged with
the outcome of its action. -/
theorem C1_tick_fires_due_in_order (o : Outcomes) (T : timeval) (s : State) (h : WF s) :
    ∃ s2 log, Tick (pure_actions o) T s = some (s2, log, 1) ∧
      (∀ r, r ∈ log.map Prod.fst ↔
        (r ∈ records s ∧ tv_le r.trigger_tm T ∧ r.timer_cancelled = false)) ∧
      (log.map (fun x => x.1.timer_id)).Nodup ∧
      (log.map Prod.fst).Pairwise (fun a b => tv_le a.trigger_tm b.trigger_tm) ∧
      (∀ x ∈ log, x.2 = outcome o x.1) := by
  obtain ⟨s2, h1⟩ := Tick_pure_log h o T
  refine ⟨s2, _, h1, ?_, ?_, ?_, ?_⟩
  · intro r
    simp only [List.map_map, List.mem_map, List.mem_filter, Function.comp, decide_eq_true_eq]
    constructor
    · rintro ⟨pe, ⟨hpe, hd⟩, rfl⟩
      obtain ⟨hp, he⟩ := mem_sorted_records.1 hpe
      exact ⟨mem_records.2 ⟨pe.1, hp, he⟩, hd.1, hd.2⟩
    · rintro ⟨hr, hle, hc⟩
      obtain ⟨p, hp, he⟩ := mem_records.1 hr
      exact ⟨(p, r), ⟨mem_sorted_records.2 ⟨hp, he⟩, ⟨hle, hc⟩⟩, rfl⟩
  · rw [List.map_map]
    exact ((List.filter_sublist _).map _).nodup (sorted_records_ids_nodup h)
  · rw [List.map_map]
    have hs := stable_sort_sorted (deref_list s.heap s.sorted_timers)
    have hf : ((sorted_records s).filter (fun pe => decide (due T pe.2))).Pairwise
        (fun a b => tv_le a.2.trigger_tm b.2.trigger_tm) := hs.sublist (List.filter_sublist _)
    exact List.pairwise_map.2 hf
  · intro x hx
    obtain ⟨pe, _, rfl⟩ := List.mem_map.1 hx
    rfl

/-- C1, at the sample registry and captured time 100.5 s. -/
theorem C1_tick_fires_due_in_order_witness :
    WF sample_state ∧
    ∃ s2 log, Tick (pure_actions sample_outcomes) { tv_sec := 100, tv_usec := 500000 }
        sample_state = some (s2, log, 1) ∧
      (∀ r, r ∈ log.map Prod.fst ↔
        (r ∈ records sample_state ∧ tv_le r.trigger_tm { tv_sec := 100, tv_usec := 500000 } ∧
          r.timer_cancelled = false)) ∧
      (log.map (fun x => x.1.timer_id)).Nodup ∧
      (log.map Prod.fst).Pairwise (fun a b => tv_le a.trigger_tm b.trigger_tm) ∧
      (∀ x ∈ log, x.2 = outcome sample_outcomes x.1) :=
  ⟨by decide, C1_tick_fires_due_in_order sample_outcomes { tv_sec := 100, tv_usec := 500000 }
    sample_state (by decide)⟩

/-! ## Registration keeps the invariant -/

theorem WF_resort {s : State} (h : WF s) :
    WF (resorted s) := by
  have hperm := sorted_records_fst_perm (WF_live h)
  apply WF_intro
  · intro id p hf
    obtain ⟨hp, e, he, hid⟩ := WF_map h (show map_find id s.timer_map = some p from hf)
    exact ⟨hperm.mem_iff.2 hp, e, he, hid⟩
  · intro p hp
    exact WF_sorted h (hperm.mem_iff.1 hp)
  · exact sorted_records_nodup h

theorem alloc_not_mem {s : State} (h : WF s) : alloc s.heap ∉ s.sorted_timers := by
  intro hp
  obtain ⟨e, he, _⟩ := WF_sorted h hp
  rw [map_find_alloc] at he
  cases he

theorem find_inserted_heap (evt : timer_event) (s : State) (q : Nat) :
    map_find q (inserted evt s).heap =
      if alloc s.heap = q then some evt else map_find q s.heap :=
  map_find_assign _ _ _ _

theorem find_inserted_map (evt : timer_event) (s : State) (id : Int) :
    map_find id (inserted evt s).timer_map =
      if evt.timer_id = id then some (alloc s.heap) else map_find id s.timer_map :=
  map_find_assign _ _ _ _

theorem WF_inserted {s : State} (h : WF s) (evt : timer_event)
    (hnew : map_find evt.timer_id s.timer_map = none) : WF (inserted evt s) := by
  have hfresh := map_find_alloc s.heap
  apply WF_intro
  · intro id p hf
    rw [find_inserted_map] at hf
    by_cases hid : evt.timer_id = id
    · rw [if_pos hid] at hf
      cases hf
      refine ⟨?_, evt, ?_, hid⟩
      · show alloc s.heap ∈ s.sorted_timers ++ [alloc s.heap]
        simp
      · rw [find_inserted_heap, if_pos rfl]
    · rw [if_neg hid] at hf
      obtain ⟨hp, e, he, hid2⟩ := WF_map h hf
      have hne : alloc s.heap ≠ p := by
        intro heq
        rw [← heq, hfresh] at he
        cases he
      refine ⟨?_, e, ?_, hid2⟩
      · show p ∈ s.sorted_timers ++ [alloc s.heap]
        simp [hp]
      · rw [find_inserted_heap, if_neg hne]
        exact he
  · intro p hp
    have hp1 : p ∈ s.sorted_timers ++ [alloc s.heap] := hp
    rcases List.mem_append.1 hp1 with hp2 | hp2
    · obtain ⟨e, he, hm⟩ := WF_sorted h hp2
      have hne : alloc s.heap ≠ p := by
        intro heq
        rw [← heq, hfresh] at he
        cases he
      have hid : evt.timer_id ≠ e.timer_id := by
        intro heq
        rw [← heq, hnew] at hm
        cases hm
      refine ⟨e, ?_, ?_⟩
      · rw [find_inserted_heap, if_neg hne]
        exact he
      · rw [find_inserted_map, if_neg hid]
        exact hm
    · have hpe : p = alloc s.heap := by simpa using hp2
      subst hpe
      refine ⟨evt, ?_, ?_⟩
      · rw [find_inserted_heap, if_pos rfl]
      · rw [find_inserted_map, if_pos rfl]
  · show (s.sorted_timers ++ [alloc s.heap]).Nodup
    rw [List.nodup_append]
    refine ⟨h.2.2, List.nodup_singleton _, ?_⟩
    intro a ha hb
    have : a = alloc s.heap := by simpa using hb
    subst this
    exact alloc_not_mem h ha

theorem mem_records_inserted (s : State) (evt e : timer_event) :
    e ∈ records (inserted evt s) ↔ e ∈ records s ∨ e = evt := by
  have hfresh := map_find_alloc s.heap
  rw [mem_records, mem_records]
  constructor
  · rintro ⟨p, hp, he⟩
    have hp1 : p ∈ s.sorted_timers ++ [alloc s.heap] := hp
    rw [find_inserted_heap] at he
    by_cases hpa : alloc s.heap = p
    · rw [if_pos hpa] at he
      exact Or.inr (Option.some.inj he).symm
    · rw [if_neg hpa] at he
      rcases List.mem_append.1 hp1 with hp2 | hp2
      · exact Or.inl ⟨p, hp2, he⟩
      · exact absurd (by simpa using hp2 : p = alloc s.heap).symm hpa
  · rintro (⟨p, hp, he⟩ | rfl)
    · have hne : alloc s.heap ≠ p := by
        intro heq
        rw [← heq, hfresh] at he
        cases he
      refine ⟨p, ?_, ?_⟩
      · show p ∈ s.sorted_timers ++ [alloc s.heap]
        simp [hp]
      · rw [find_inserted_heap, if_neg hne]
        exact he
    · refine ⟨alloc s.heap, ?_, ?_⟩
      · show alloc s.heap ∈ s.sorted_timers ++ [alloc s.heap]
        simp
      · rw [find_inserted_heap, if_pos rfl]

theorem mem_records_resort {s : State} (h : WF s) (e : timer_event) :
    e ∈ records (resorted s) ↔ e ∈ records s := by
  have hperm := sorted_records_fst_perm (WF_live h)
  rw [mem_records, mem_records]
  constructor
  · rintro ⟨p, hp, he⟩
    exact ⟨p, hperm.mem_iff.1 hp, he⟩
  · rintro ⟨p, hp, he⟩
    exact ⟨p, hperm.mem_iff.2 hp, he⟩

/-- The common part of the three registration variants on a well-formed registry
whose keys are below the id counter: the call returns the id counter, advances
it by one, and stores the new record at a fresh address, bound to the returned
id and entered in `sorted_timers`; everything else is as before. -/
theorem insert_timer_wf {s : State} (hwf : WF s) (hib : ids_below s) (evt : timer_event)
    (hid : evt.timer_id = s.next_timer_id) :
    ∃ s2, insert_timer evt { s with next_timer_id := s.next_timer_id + 1 } =
        some (s2, s.next_timer_id) ∧
      WF s2 ∧ ids_below s2 ∧ s2.next_timer_id = s.next_timer_id + 1 ∧
      s2.removed_timer_ids = s.removed_timer_ids ∧
      (∀ e, e ∈ records s2 ↔ e ∈ records s ∨ e = evt) ∧
      (∀ id, map_find id s2.timer_map =
        if s.next_timer_id = id then some (alloc s.heap) else map_find id s.timer_map) ∧
      (∀ q, map_find q s2.heap = if alloc s.heap = q then some evt else map_find q s.heap) ∧
      List.Perm s2.sorted_timers (s.sorted_timers ++ [alloc s.heap]) := by
  have hwf0 : WF { s with next_timer_id := s.next_timer_id + 1 } := hwf
  have hnew : map_find evt.timer_id s.timer_map = none := by
    cases hf : map_find evt.timer_id s.timer_map with
    | none => rfl
    | some p =>
      have := ids_below_find hib hf
      omega
  have hwi : WF (inserted evt { s with next_timer_id := s.next_timer_id + 1 }) :=
    WF_inserted hwf0 evt hnew
  have hsort := sort_timers_eq _ (WF_live hwi)
  have hrec : ∀ e, e ∈ records
      (resorted (inserted evt { s with next_timer_id := s.next_timer_id + 1 })) ↔
        e ∈ records s ∨ e = evt := by
    intro e
    rw [mem_records_resort hwi, mem_records_inserted]
    rfl
  refine ⟨_, ?_, WF_resort hwi, ?_, rfl, rfl, hrec, ?_, ?_, ?_⟩
  · unfold insert_timer
    rw [hsort, hid]
    rfl
  · apply ids_below_intro
    intro id p hf
    have hf1 : map_find id
        (inserted evt { s with next_timer_id := s.next_timer_id + 1 }).timer_map = some p := hf
    rw [find_inserted_map] at hf1
    show id < s.next_timer_id + 1
    by_cases hx : evt.timer_id = id
    · omega
    · rw [if_neg hx] at hf1
      have := ids_below_find hib hf1
      omega
  · intro id
    show map_find id (inserted evt { s with next_timer_id := s.next_timer_id + 1 }).timer_map = _
    rw [find_inserted_map, hid]
  · intro q
    show map_find q (inserted evt { s with next_timer_id := s.next_timer_id + 1 }).heap = _
    rw [find_inserted_heap]
  · exact sorted_records_fst_perm (WF_live hwi)

/-- Registration keeps the invariant. -/
theorem insert_timer_spec {s : State} (h : Inv s) (evt : timer_event)
    (hid : evt.timer_id = s.next_timer_id) :
    ∃ s2, insert_timer evt { s with next_timer_id := s.next_timer_id + 1 } =
        some (s2, s.next_timer_id) ∧
      Inv s2 ∧ s2.next_timer_id = s.next_timer_id + 1 ∧
      (∀ e, e ∈ records s2 ↔ e ∈ records s ∨ e = evt) := by
  obtain ⟨hwf, hib, hqb, hqc⟩ := h
  obtain ⟨s2, h1, h2, h3, h4, h5, h6, _⟩ := insert_timer_wf hwf hib evt hid
  refine ⟨s2, h1, ⟨h2, h3, ?_, ?_⟩, h4, h6⟩
  · intro x hx
    rw [h5] at hx
    have := hqb x hx
    omega
  · intro e he hq
    rw [h5] at hq
    rcases (h6 e).1 he with h7 | h7
    · exact hqc e h7 hq
    · subst h7
      have := hqb _ hq
      omega

/-! ## Cancellation keeps the invariant -/

theorem records_id_unique {s : State} (h : WF s) {e1 e2 : timer_event}
    (h1 : e1 ∈ records s) (h2 : e2 ∈ records s) (hid : e1.timer_id = e2.timer_id) :
    e1 = e2 := by
  obtain ⟨p1, hp1, he1⟩ := mem_records.1 h1
  obtain ⟨p2, hp2, he2⟩ := mem_records.1 h2
  obtain ⟨a1, ha1, hm1⟩ := WF_sorted h hp1
  obtain ⟨a2, ha2, hm2⟩ := WF_sorted h hp2
  rw [he1] at ha1
  rw [he2] at ha2
  cases ha1
  cases ha2
  rw [hid, hm2] at hm1
  have hp : p2 = p1 := Option.some.inj hm1
  rw [hp, he1] at he2
  exact Option.some.inj he2

theorem records_id_below {s : State} (h : WF s) (hb : ids_below s) {e : timer_event}
    (he : e ∈ records s) : e.timer_id < s.next_timer_id := by
  obtain ⟨p, hp, hf⟩ := mem_records.1 he
  obtain ⟨a, ha, hm⟩ := WF_sorted h hp
  rw [hf] at ha
  cases ha
  exact ids_below_find hb hm

theorem RemoveTimer_absent (id : Int) (s : State)
    (hf : map_find id s.timer_map = none) : RemoveTimer id s = some (s, 0) := by
  simp only [RemoveTimer, hf]

theorem RemoveTimer_present {s : State} (h : WF s) (id : Int) (p : Nat)
    (hf : map_find id s.timer_map = some p) :
    ∃ e, map_find p s.heap = some e ∧ e.timer_id = id ∧ p ∈ s.sorted_timers ∧
      RemoveTimer id s = some (cancel_at p e id s, 1) := by
  obtain ⟨hp, e, he, hid⟩ := WF_map h hf
  refine ⟨e, he, hid, hp, ?_⟩
  simp only [RemoveTimer, hf, he]
  rfl

theorem find_cancel_at (p : Nat) (e : timer_event) (id : Int) (s : State) (q : Nat) :
    map_find q (cancel_at p e id s).heap =
      if p = q then some { e with timer_cancelled := true } else map_find q s.heap :=
  map_find_assign _ _ _ _

theorem mem_records_cancel_at {s : State} {p : Nat} {e : timer_event} {id : Int}
    {e2 : timer_event} :
    e2 ∈ records (cancel_at p e id s) ↔
      (∃ q ∈ s.sorted_timers, q ≠ p ∧ map_find q s.heap = some e2) ∨
        (p ∈ s.sorted_timers ∧ e2 = { e with timer_cancelled := true }) := by
  rw [mem_records]
  constructor
  · rintro ⟨q, hq, hf⟩
    rw [find_cancel_at] at hf
    by_cases hpq : p = q
    · rw [if_pos hpq] at hf
      subst hpq
      exact Or.inr ⟨hq, (Option.some.inj hf).symm⟩
    · rw [if_neg hpq] at hf
      exact Or.inl ⟨q, hq, fun h => hpq h.symm, hf⟩
  · rintro (⟨q, hq, hne, hf⟩ | ⟨hp, rfl⟩)
    · refine ⟨q, hq, ?_⟩
      rw [find_cancel_at, if_neg (fun h => hne h.symm)]
      exact hf
    · refine ⟨p, hp, ?_⟩
      rw [find_cancel_at, if_pos rfl]

theorem Inv_cancel_at {s : State} (h : Inv s) {id : Int} {p : Nat} {e : timer_event}
    (hf : map_find id s.timer_map = some p) (he : map_find p s.heap = some e)
    (hid : e.timer_id = id) : Inv (cancel_at p e id s) := by
  obtain ⟨hwf, hib, hqb, hqc⟩ := h
  refine ⟨?_, ?_, ?_, ?_⟩
  · apply WF_intro
    · intro id2 q hf2
      obtain ⟨hq, e2, he2, hid2⟩ := WF_map hwf (show map_find id2 s.timer_map = some q from hf2)
      by_cases hpq : p = q
      · subst hpq
        rw [he] at he2
        cases he2
        exact ⟨hq, { e with timer_cancelled := true }, by rw [find_cancel_at, if_pos rfl], hid2⟩
      · exact ⟨hq, e2, by rw [find_cancel_at, if_neg hpq]; exact he2, hid2⟩
    · intro q hq
      obtain ⟨e2, he2, hm2⟩ := WF_sorted hwf (show q ∈ s.sorted_timers from hq)
      by_cases hpq : p = q
      · subst hpq
        rw [he] at he2
        cases he2
        exact ⟨{ e with timer_cancelled := true }, by rw [find_cancel_at, if_pos rfl], hm2⟩
      · exact ⟨e2, by rw [find_cancel_at, if_neg hpq]; exact he2, hm2⟩
    · exact hwf.2.2
  · exact hib
  · intro x hx
    have hx1 : x ∈ s.removed_timer_ids ++ [id] := hx
    rcases List.mem_append.1 hx1 with h1 | h1
    · exact hqb x h1
    · have : x = id := by simpa using h1
      subst this
      exact ids_below_find hib hf
  · intro e2 he2 hq2
    rcases mem_records_cancel_at.1 he2 with ⟨q, hq, hne, hfq⟩ | ⟨_, rfl⟩
    · have hq3 : e2.timer_id ∈ s.removed_timer_ids ++ [id] := hq2
      rcases List.mem_append.1 hq3 with h1 | h1
      · exact hqc e2 (mem_records.2 ⟨q, hq, hfq⟩) h1
      · have hx : e2.timer_id = id := by simpa using h1
        obtain ⟨e3, he3, hm3⟩ := WF_sorted hwf hq
        rw [hfq] at he3
        cases he3
        rw [hx, hf] at hm3
        exact absurd (Option.some.inj hm3).symm hne
    · rfl

/-- `RemoveTimer` on a registry that satisfies the invariant: it returns 0 and
changes nothing when the id is not a key of `timer_map`; else it returns 1, sets
the flag of the record bound to the id and queues the id. -/
theorem RemoveTimer_spec {s : State} (h : Inv s) (id : Int) :
    (map_find id s.timer_map = none ∧ RemoveTimer id s = some (s, 0)) ∨
      ∃ p e, map_find id s.timer_map = some p ∧ map_find p s.heap = some e ∧
        e.timer_id = id ∧ p ∈ s.sorted_timers ∧
        RemoveTimer id s = some (cancel_at p e id s, 1) ∧ Inv (cancel_at p e id s) := by
  cases hf : map_find id s.timer_map with
  | none => exact Or.inl ⟨rfl, RemoveTimer_absent id s hf⟩
  | some p =>
    obtain ⟨e, he, hid, hp, hr⟩ := RemoveTimer_present h.1 id p hf
    exact Or.inr ⟨p, e, rfl, he, hid, hp, hr, Inv_cancel_at h hf he hid⟩

/-! ## The state after one `Tick` -/

/-- The final state of `Tick` on a well-formed registry, through lookups: `Q` is
the removal queue at the start of the cleanup phase. -/
theorem Tick_pure_final {s : State} (h : WF s) (o : Outcomes) (T : timeval) :
    ∃ s2, Tick (pure_actions o) T s =
        some (s2, loop_log o (visited T (sorted_records s)), 1) ∧
      WF s2 ∧ s2.removed_timer_ids = [] ∧ s2.next_timer_id = s.next_timer_id ∧
      (∀ id, map_find id s2.timer_map =
        if id ∈ s.removed_timer_ids ++ loop_queue o (visited T (sorted_records s)) then none
        else map_find id s.timer_map) ∧
      (∀ p, p ∈ s2.sorted_timers ↔
        p ∈ s.sorted_timers ∧ ∀ e, map_find p s.heap = some e →
          e.timer_id ∉ s.removed_timer_ids ++ loop_queue o (visited T (sorted_records s))) ∧
      (∀ p ∈ s2.sorted_timers, map_find p s2.heap = map_find p (after_loop o T s).heap) ∧
      List.Sublist s2.sorted_timers ((sorted_records s).map Prod.fst) := by
  obtain ⟨s3, ht, hw, a1, a2, a3, a4, _, a6, _, _⟩ := Tick_pure_eq h o T
  refine ⟨_, ht, hw, rfl, a6, a1, fun p => ?_, a4, a3⟩
  show p ∈ s3.sorted_timers ↔ _
  rw [a2 p, mem_after_loop_sorted h o T p]
  constructor
  · rintro ⟨hp, hall⟩
    refine ⟨hp, fun e he => ?_⟩
    obtain ⟨e2, he2, hid2, _⟩ := find_after_loop_id h o T p e he
    rw [← hid2]
    exact hall e2 he2
  · rintro ⟨hp, hall⟩
    refine ⟨hp, fun e2 he2 => ?_⟩
    obtain ⟨e, he, _⟩ := WF_sorted h hp
    obtain ⟨e3, he3, hid3, _⟩ := find_after_loop_id h o T p e he
    rw [he2] at he3
    cases he3
    rw [hid3]
    exact hall e he

theorem mem_loop_log {o : Outcomes} {l : List (Nat × timer_event)} {x : timer_event × Int} :
    x ∈ loop_log o l ↔
      ∃ p, (p, x.1) ∈ l ∧ x.1.timer_cancelled = false ∧ x.2 = outcome o x.1 := by
  unfold loop_log
  simp only [List.mem_map, List.mem_filter, decide_eq_true_eq]
  constructor
  · rintro ⟨pe, ⟨hpe, hc⟩, rfl⟩
    exact ⟨pe.1, hpe, hc, rfl⟩
  · rintro ⟨p, hp, hc, ho⟩
    exact ⟨(p, x.1), ⟨hp, hc⟩, by rw [← ho]⟩

theorem mem_loop_queue {o : Outcomes} {l : List (Nat × timer_event)} {id : Int} :
    id ∈ loop_queue o l ↔
      ∃ pe ∈ l, pe.2.timer_id = id ∧
        ¬ (pe.2.timer_cancelled = false ∧ keeps (outcome o pe.2) pe.2) := by
  unfold loop_queue
  simp only [List.mem_map, List.mem_filter, decide_eq_true_eq]
  constructor
  · rintro ⟨pe, ⟨hpe, hc⟩, rfl⟩
    exact ⟨pe, hpe, rfl, hc⟩
  · rintro ⟨pe, hpe, hid, hc⟩
    exact ⟨pe, ⟨hpe, hc⟩, hid⟩

theorem sorted_records_id_inj {s : State} (h : WF s) {a b : Nat × timer_event}
    (ha : a ∈ sorted_records s) (hb : b ∈ sorted_records s)
    (hid : a.2.timer_id = b.2.timer_id) : a = b := by
  obtain ⟨ha1, ha2⟩ := mem_sorted_records.1 ha
  obtain ⟨hb1, hb2⟩ := mem_sorted_records.1 hb
  obtain ⟨ea, hea, hma⟩ := WF_sorted h ha1
  obtain ⟨eb, heb, hmb⟩ := WF_sorted h hb1
  rw [ha2] at hea
  rw [hb2] at heb
  cases hea
  cases heb
  rw [hid, hmb] at hma
  have hfst : b.1 = a.1 := Option.some.inj hma
  have hsnd : a.2 = b.2 := by
    rw [← hfst, hb2] at ha2
    exact (Option.some.inj ha2).symm
  exact Prod.ext hfst.symm hsnd

/-- `Tick` keeps the invariant; every record left in the registry was there
before, with the same id and flag; every record fired was in the registry and
not cancelled. -/
theorem Tick_pure_inv {s : State} (h : Inv s) (o : Outcomes) (T : timeval) :
    ∃ s2 log, Tick (pure_actions o) T s = some (s2, log, 1) ∧ Inv s2 ∧
      s2.next_timer_id = s.next_timer_id ∧
      (∀ e2 ∈ records s2, ∃ e ∈ records s, e2.timer_id = e.timer_id ∧
        e2.timer_cancelled = e.timer_cancelled) ∧
      (∀ x ∈ log, x.1 ∈ records s ∧ x.1.timer_cancelled = false) := by
  obtain ⟨hwf, hib, hqb, hqc⟩ := h
  obtain ⟨s2, ht, hw2, hq2, hn2, b1, b2, b3, _⟩ := Tick_pure_final hwf o T
  refine ⟨s2, _, ht, ⟨hw2, ?_, ?_, ?_⟩, hn2, ?_, ?_⟩
  · apply ids_below_intro
    intro id p hf
    rw [b1, hn2] at *
    split_ifs at hf with hq
    exact ids_below_find hib hf
  · intro x hx
    rw [hq2] at hx
    simp at hx
  · intro e _ hx
    rw [hq2] at hx
    simp at hx
  · intro e2 he2
    obtain ⟨p, hp, hf⟩ := mem_records.1 he2
    rw [b3 p hp] at hf
    obtain ⟨hp1, _⟩ := (b2 p).1 hp
    obtain ⟨e, he, _⟩ := WF_sorted hwf hp1
    obtain ⟨e3, he3, hid3, hc3, _⟩ := find_after_loop_id hwf o T p e he
    rw [hf] at he3
    cases he3
    exact ⟨e, mem_records.2 ⟨p, hp1, he⟩, hid3, hc3⟩
  · intro x hx
    obtain ⟨p, hp, hc, _⟩ := mem_loop_log.1 hx
    obtain ⟨hp1, hp2⟩ := mem_sorted_records.1 ((visited_sublist T _).subset hp)
    exact ⟨mem_records.2 ⟨p, hp1, hp2⟩, hc⟩

/-! ## Runs of operations -/

theorem Inv_Timetracker (now : timeval) : Inv (Timetracker now) := by
  refine ⟨⟨?_, ?_, ?_⟩, ?_, ?_, ?_⟩
  · intro kv hkv
    simp [Timetracker] at hkv
  · intro p hp
    simp [Timetracker] at hp
  · simp [Timetracker]
  · intro kv hkv
    simp [Timetracker] at hkv
  · intro x hx
    simp [Timetracker] at hx
  · intro e he
    simp [Timetracker, records] at he

theorem returned_ids_cons (out : Out) (outs : List Out) :
    returned_ids (out :: outs) = returned_ids [out] ++ returned_ids outs := by
  cases out <;> simp [returned_ids]

theorem fired_ids_cons (out : Out) (outs : List Out) :
    fired_ids (out :: outs) = fired_ids [out] ++ fired_ids outs := by
  cases out <;> simp [fired_ids]

/-- One call of a public operation on a registry that satisfies the invariant:
the call returns, the invariant is kept, a registration returns the id counter
and advances it by one while the other calls leave it alone, every record of the
new registry is new or was there with the same id (and is cancelled if it was),
and every record fired was in the registry and not cancelled. -/
theorem step_spec (op : Op) {s : State} (h : Inv s) :
    ∃ s2 out, step op s = some (s2, out) ∧ Inv s2 ∧
      (∀ e2 ∈ records s2, s.next_timer_id ≤ e2.timer_id ∨
        ∃ e ∈ records s, e2.timer_id = e.timer_id ∧
          (e.timer_cancelled = true → e2.timer_cancelled = true)) ∧
      (returned_ids [out] = [] ∧ s2.next_timer_id = s.next_timer_id ∨
        returned_ids [out] = [s.next_timer_id] ∧ s2.next_timer_id = s.next_timer_id + 1) ∧
      (∀ x ∈ fired_ids [out], ∃ e ∈ records s, e.timer_id = x ∧ e.timer_cancelled = false) := by
  have hreg : ∀ evt : timer_event, evt.timer_id = s.next_timer_id →
      ∃ s2, insert_timer evt { s with next_timer_id := s.next_timer_id + 1 } =
          some (s2, s.next_timer_id) ∧ Inv s2 ∧
        (∀ e2 ∈ records s2, s.next_timer_id ≤ e2.timer_id ∨
          ∃ e ∈ records s, e2.timer_id = e.timer_id ∧
            (e.timer_cancelled = true → e2.timer_cancelled = true)) ∧
        s2.next_timer_id = s.next_timer_id + 1 := by
    intro evt hid
    obtain ⟨s2, h1, h2, h3, h5⟩ := insert_timer_spec h evt hid
    refine ⟨s2, h1, h2, fun e2 he2 => ?_, h3⟩
    rcases (h5 e2).1 he2 with h6 | h6
    · exact Or.inr ⟨e2, h6, rfl, fun hc => hc⟩
    · subst h6
      exact Or.inl (le_of_eq hid.symm)
  cases op with
  | register now fresh n tr rec cb parm =>
    obtain ⟨s2, h1, h2, h3, h4⟩ :=
      hreg (new_timer_callback now fresh n tr rec cb parm s.next_timer_id) rfl
    refine ⟨s2, Out.registered s.next_timer_id, ?_, h2, h3, Or.inr ⟨rfl, h4⟩, ?_⟩
    · simp only [step, RegisterTimer, RegisterTimer_nb, h1, Option.map_some']
    · intro x hx
      simp [fired_ids] at hx
  | register_event now fresh n tr rec ev =>
    obtain ⟨s2, h1, h2, h3, h4⟩ :=
      hreg (new_timer_event now fresh n tr rec ev s.next_timer_id) rfl
    refine ⟨s2, Out.registered s.next_timer_id, ?_, h2, h3, Or.inr ⟨rfl, h4⟩, ?_⟩
    · simp only [step, RegisterTimer_event, RegisterTimer_nb_event, h1, Option.map_some']
    · intro x hx
      simp [fired_ids] at hx
  | register_func now fresh n tr rec ev =>
    obtain ⟨s2, h1, h2, h3, h4⟩ :=
      hreg (new_timer_func now fresh n tr rec ev s.next_timer_id) rfl
    refine ⟨s2, Out.registered s.next_timer_id, ?_, h2, h3, Or.inr ⟨rfl, h4⟩, ?_⟩
    · simp only [step, RegisterTimer_func, RegisterTimer_nb_func, h1, Option.map_some']
    · intro x hx
      simp [fired_ids] at hx
  | remove id =>
    rcases RemoveTimer_spec h id with ⟨_, hr⟩ | ⟨p, e, hf, he, hid, hp, hr, hinv⟩
    · refine ⟨s, Out.removed 0, ?_, h, fun e2 he2 => Or.inr ⟨e2, he2, rfl, fun hc => hc⟩,
        Or.inl ⟨rfl, rfl⟩, ?_⟩
      · simp only [step, hr, Option.map_some']
      · intro x hx
        simp [fired_ids] at hx
    · refine ⟨cancel_at p e id s, Out.removed 1, ?_, hinv, fun e2 he2 => ?_,
        Or.inl ⟨rfl, rfl⟩, ?_⟩
      · simp only [step, hr, Option.map_some']
      · right
        rcases mem_records_cancel_at.1 he2 with ⟨q, hq, _, hfq⟩ | ⟨hp2, rfl⟩
        · exact ⟨e2, mem_records.2 ⟨q, hq, hfq⟩, rfl, fun hc => hc⟩
        · exact ⟨e, mem_records.2 ⟨p, hp, he⟩, rfl, fun _ => rfl⟩
      · intro x hx
        simp [fired_ids] at hx
  | tick o T =>
    obtain ⟨s2, log, ht, hinv, hn, hrec, hlog⟩ := Tick_pure_inv h o T
    refine ⟨s2, Out.ticked log 1, ?_, hinv, fun e2 he2 => ?_, Or.inl ⟨rfl, hn⟩, ?_⟩
    · simp only [step, ht, Option.map_some']
    · obtain ⟨e, he, hid, hc⟩ := hrec e2 he2
      exact Or.inr ⟨e, he, hid, fun hh => by rw [hc]; exact hh⟩
    · intro x hx
      simp only [fired_ids, List.append_nil, List.mem_map] at hx
      obtain ⟨y, hy, rfl⟩ := hx
      obtain ⟨h1, h2⟩ := hlog y hy
      exact ⟨y.1, h1, rfl, h2⟩

/-- From a registry that satisfies the invariant every run of operations returns
and ends in a registry that satisfies the invariant; the ids returned by its
registrations count upwards from the id counter. -/
theorem run_spec : ∀ (ops : List Op) (s : State), Inv s →
    ∃ s2 outs, run ops s = some (s2, outs) ∧ Inv s2 ∧
      returned_ids outs =
        (List.range (returned_ids outs).length).map
          (fun i : Nat => s.next_timer_id + (i : Int)) ∧
      s2.next_timer_id = s.next_timer_id + ((returned_ids outs).length : Int) := by
  intro ops
  induction ops with
  | nil =>
    intro s h
    exact ⟨s, [], rfl, h, by simp [returned_ids], by simp [returned_ids]⟩
  | cons op ops ih =>
    intro s h
    obtain ⟨s1, out, hs, hinv1, _, hret, _⟩ := step_spec op h
    obtain ⟨s2, outs, hr, hinv2, hids, hn⟩ := ih s1 hinv1
    refine ⟨s2, out :: outs, ?_, hinv2, ?_, ?_⟩
    · simp only [run, hs, Option.some_bind, hr, Option.map_some']
    · rw [returned_ids_cons]
      rcases hret with ⟨h1, h2⟩ | ⟨h1, h2⟩
      · rw [h1, List.nil_append, ← h2]
        exact hids
      · rw [h1, List.singleton_append, List.length_cons, List.range_succ_eq_map,
          List.map_cons, List.map_map]
        have : returned_ids outs = List.map ((fun i : Nat => s.next_timer_id + (i : Int)) ∘ Nat.succ)
            (List.range (returned_ids outs).length) := by
          rw [h2] at hids
          rw [hids]
          simp only [List.length_map, List.length_range]
          apply List.map_congr_left
          intro i _
          simp only [Function.comp, Nat.succ_eq_add_one, Nat.cast_add, Nat.cast_one]
          ring
        rw [← this]
        simp
    · rw [returned_ids_cons, hn]
      rcases hret with ⟨h1, h2⟩ | ⟨h1, h2⟩
      · rw [h1, h2]
        simp
      · rw [h1, h2]
        simp only [List.singleton_append, List.length_cons, Nat.cast_add, Nat.cast_one]
        ring

/-- C5 (id uniqueness and monotonicity).  For every sequence of calls of the
three `RegisterTimer` variants, `RemoveTimer` and `Tick` on a new `Timetracker`,
every call returns, and the ids returned by the registrations are 0, 1, 2, ... in
call order: strictly increasing, each the previous one plus one, none returned
twice. -/
theorem C5_returned_ids_count_up (now0 : timeval) (ops : List Op) :
    ∃ s outs, run ops (Timetracker now0) = some (s, outs) ∧
      returned_ids outs =
        (List.range (returned_ids outs).length).map (fun i : Nat => (i : Int)) ∧
      (returned_ids outs).Pairwise (fun a b => a < b) ∧
      (returned_ids outs).Nodup ∧
      s.next_timer_id = ((returned_ids outs).length : Int) := by
  obtain ⟨s, outs, hr, _, hids, hn⟩ := run_spec ops (Timetracker now0) (Inv_Timetracker now0)
  have hz : (Timetracker now0).next_timer_id = 0 := rfl
  rw [hz] at hids hn
  simp only [zero_add] at hids hn
  have hpw : (returned_ids outs).Pairwise (fun a b => a < b) := by
    rw [hids, List.pairwise_map]
    exact List.Pairwise.imp (fun {a b} hab => by exact_mod_cast hab)
      (List.pairwise_lt_range _)
  refine ⟨s, outs, hr, hids, hpw, ?_, hn⟩
  exact hpw.imp (fun {a b} hab => ne_of_lt hab)

theorem records_ids_nodup {s : State} (h : WF s) :
    ((records s).map timer_event.timer_id).Nodup := by
  have hp := (sorted_records_snd_perm s).map timer_event.timer_id
  rw [List.map_map] at hp
  exact hp.nodup_iff.1 (sorted_records_ids_nodup h)

theorem records_length {s : State} (h : WF s) :
    (records s).length = s.sorted_timers.length := by
  have h1 := congrArg List.length (deref_list_snd s.heap s.sorted_timers)
  have h2 := congrArg List.length (deref_list_fst s.heap s.sorted_timers (WF_live h))
  simp only [List.length_map] at h1 h2
  unfold records
  rw [← h1, h2]

/-- C10 (view consistency).  For every sequence of calls of the three
`RegisterTimer` variants, `RemoveTimer` and `Tick` on a new `Timetracker`, every
call returns, and in the state reached: the ids that are keys of `timer_map` are
the `timer_id`s of the records of `sorted_timers`; no id occurs twice among these
records and every address of `sorted_timers` is live; and the address
`timer_map` binds to an id is in `sorted_timers` and holds a record with this
id. -/
theorem C10_views_consistent (now0 : timeval) (ops : List Op) :
    ∃ s outs, run ops (Timetracker now0) = some (s, outs) ∧
      (∀ id, (∃ p, map_find id s.timer_map = some p) ↔
        id ∈ (records s).map timer_event.timer_id) ∧
      ((records s).map timer_event.timer_id).Nodup ∧
      s.sorted_timers.Nodup ∧
      (records s).length = s.sorted_timers.length ∧
      (∀ id p, map_find id s.timer_map = some p →
        p ∈ s.sorted_timers ∧ ∃ e, map_find p s.heap = some e ∧ e.timer_id = id) ∧
      (∀ p ∈ s.sorted_timers,
        ∃ e, map_find p s.heap = some e ∧ map_find e.timer_id s.timer_map = some p) := by
  obtain ⟨s, outs, hr, hinv, _, _⟩ := run_spec ops (Timetracker now0) (Inv_Timetracker now0)
  have hwf := hinv.1
  refine ⟨s, outs, hr, fun id => ?_, records_ids_nodup hwf, hwf.2.2, records_length hwf,
    fun id p hf => WF_map hwf hf, fun p hp => WF_sorted hwf hp⟩
  rw [List.mem_map]
  constructor
  · rintro ⟨p, hf⟩
    obtain ⟨hp, e, he, hid⟩ := WF_map hwf hf
    exact ⟨e, mem_records.2 ⟨p, hp, he⟩, hid⟩
  · rintro ⟨e, he, rfl⟩
    obtain ⟨p, hp, hf⟩ := mem_records.1 he
    obtain ⟨e2, he2, hm⟩ := WF_sorted hwf hp
    rw [hf] at he2
    cases he2
    exact ⟨p, hm⟩

theorem run_cancelled (id : Int) : ∀ (ops : List Op) (s : State), Inv s →
    id < s.next_timer_id →
    (∀ e ∈ records s, e.timer_id = id → e.timer_cancelled = true) →
    ∃ s2 outs, run ops s = some (s2, outs) ∧ Inv s2 ∧ id ∉ fired_ids outs ∧
      (∀ e ∈ records s2, e.timer_id = id → e.timer_cancelled = true) := by
  intro ops
  induction ops with
  | nil =>
    intro s h _ hc
    exact ⟨s, [], rfl, h, by simp [fired_ids], hc⟩
  | cons op ops ih =>
    intro s h hlt hc
    obtain ⟨s1, out, hs, hinv1, hrec, hret, hfired⟩ := step_spec op h
    have hlt1 : id < s1.next_timer_id := by
      rcases hret with ⟨_, h2⟩ | ⟨_, h2⟩ <;> omega
    have hc1 : ∀ e ∈ records s1, e.timer_id = id → e.timer_cancelled = true := by
      intro e2 he2 hid
      rcases hrec e2 he2 with h1 | ⟨e, he, hid2, himp⟩
      · omega
      · exact himp (hc e he (hid2.symm.trans hid))
    obtain ⟨s2, outs, hr, hinv2, hnf, hc2⟩ := ih s1 hinv1 hlt1 hc1
    refine ⟨s2, out :: outs, ?_, hinv2, ?_, hc2⟩
    · simp only [run, hs, Option.some_bind, hr, Option.map_some']
    · rw [fired_ids_cons, List.mem_append]
      rintro (h1 | h1)
      · obtain ⟨e, he, hid, hnc⟩ := hfired id h1
        have := hc e he hid
        rw [hnc] at this
        cases this
      · exact hnf h1

/-- C2 (cancellation safety).  On a registry that satisfies the invariant, once
`RemoveTimer(id)` has returned 1, the record with this id is cancelled, and
after every sequence of later calls of `RegisterTimer`, `RemoveTimer` and `Tick`
(all of which return) no `Tick` of the sequence has fired a record with this id;
and every record whose flag was set is, as long as it is in the registry, still
flagged. -/
theorem C2_cancelled_never_fires (s : State) (h : Inv s) (id : Int) (s1 : State)
    (hrem : RemoveTimer id s = some (s1, 1)) (ops : List Op) :
    (∃ e ∈ records s1, e.timer_id = id ∧ e.timer_cancelled = true) ∧
    ∃ s2 outs, run ops s1 = some (s2, outs) ∧ id ∉ fired_ids outs ∧
      (∀ e ∈ records s1, e.timer_cancelled = true →
        ∀ e2 ∈ records s2, e2.timer_id = e.timer_id → e2.timer_cancelled = true) := by
  rcases RemoveTimer_spec h id with ⟨_, hr⟩ | ⟨p, e, hf, he, hid, hp, hr, hinv⟩
  · rw [hr] at hrem
    cases hrem
  · rw [hr] at hrem
    cases hrem
    subst hid
    have hmem : ({ e with timer_cancelled := true } : timer_event) ∈
        records (cancel_at p e e.timer_id s) :=
      mem_records_cancel_at.2 (Or.inr ⟨hp, rfl⟩)
    have hflag : ∀ e1 ∈ records (cancel_at p e e.timer_id s), e1.timer_cancelled = true →
        ∀ e2 ∈ records (cancel_at p e e.timer_id s), e2.timer_id = e1.timer_id →
          e2.timer_cancelled = true := by
      intro e1 he1 hc1 e2 he2 hid2
      rw [records_id_unique hinv.1 he2 he1 hid2]
      exact hc1
    have hlt : e.timer_id < (cancel_at p e e.timer_id s).next_timer_id :=
      @records_id_below _ hinv.1 hinv.2.1 { e with timer_cancelled := true } hmem
    obtain ⟨s2, outs, hrun, _, hnf, _⟩ := run_cancelled e.timer_id ops _ hinv hlt
      (fun e2 he2 hid2 => hflag _ hmem rfl e2 he2 hid2)
    refine ⟨⟨_, hmem, rfl, rfl⟩, s2, outs, hrun, hnf, ?_⟩
    intro e1 he1 hc1 e2 he2 hid2
    obtain ⟨s3, outs3, hrun3, _, _, hc3⟩ := run_cancelled e1.timer_id ops _ hinv
      (records_id_below hinv.1 hinv.2.1 he1) (fun e4 he4 hid4 => hflag e1 he1 hc1 e4 he4 hid4)
    rw [hrun] at hrun3
    cases hrun3
    exact hc3 e2 he2 hid2

/-- C2, at the sample registry: timer 0 is cancelled when it is due, then a `Tick`
at 100.5 s, a registration and a `Tick` at 300 s follow. -/
theorem C2_cancelled_never_fires_witness :
    (∃ e ∈ records (cancel_at 1 sample_record 0 sample_state),
      e.timer_id = 0 ∧ e.timer_cancelled = true) ∧
    ∃ s2 outs,
      run [Op.tick sample_outcomes { tv_sec := 100, tv_usec := 500000 },
            Op.register_func { tv_sec := 101, tv_usec := 0 } sample_fresh 3 none 1 (some 4),
            Op.tick sample_outcomes { tv_sec := 300, tv_usec := 0 }]
          (cancel_at 1 sample_record 0 sample_state) = some (s2, outs) ∧
        (0 : Int) ∉ fired_ids outs ∧
        (∀ e ∈ records (cancel_at 1 sample_record 0 sample_state), e.timer_cancelled = true →
          ∀ e2 ∈ records s2, e2.timer_id = e.timer_id → e2.timer_cancelled = true) :=
  C2_cancelled_never_fires sample_state (by decide) 0
    (cancel_at 1 sample_record 0 sample_state) (by decide) _

/-! ## The result of `RemoveTimer` -/

/-- C6 (`RemoveTimer` result).  On a well-formed registry `RemoveTimer(id)`
returns 1 or 0, and 1 exactly when `id` is a key of `timer_map`.  When it returns
1 the record bound to `id` has its `timer_cancelled` set, `id` is appended to the
removal queue, and `timer_map`, `sorted_timers`, the id counter and every other
record are as before.  When it returns 0 the whole state is unchanged. -/
theorem C6_RemoveTimer_result (s : State) (h : WF s) (id : Int) :
    ∃ s2 ret, RemoveTimer id s = some (s2, ret) ∧ (ret = 1 ∨ ret = 0) ∧
      (ret = 1 ↔ ∃ p, map_find id s.timer_map = some p) ∧
      (ret = 1 → ∃ p e, map_find id s.timer_map = some p ∧ map_find p s.heap = some e ∧
        map_find p s2.heap = some { e with timer_cancelled := true } ∧
        (∀ q, q ≠ p → map_find q s2.heap = map_find q s.heap) ∧
        s2.removed_timer_ids = s.removed_timer_ids ++ [id] ∧
        s2.timer_map = s.timer_map ∧ s2.sorted_timers = s.sorted_timers ∧
        s2.next_timer_id = s.next_timer_id) ∧
      (ret = 0 → s2 = s) := by
  cases hf : map_find id s.timer_map with
  | none =>
    refine ⟨s, 0, RemoveTimer_absent id s hf, Or.inr rfl, ?_, ?_, fun _ => rfl⟩
    · constructor
      · intro h0
        cases h0
      · rintro ⟨p, hp⟩
        cases hp
    · intro h0
      cases h0
  | some p =>
    obtain ⟨e, he, _, _, hr⟩ := RemoveTimer_present h id p hf
    refine ⟨cancel_at p e id s, 1, hr, Or.inl rfl, ?_, ?_, ?_⟩
    · exact ⟨fun _ => ⟨p, rfl⟩, fun _ => rfl⟩
    · intro _
      refine ⟨p, e, rfl, he, ?_, fun q hq => ?_, rfl, rfl, rfl, rfl⟩
      · rw [find_cancel_at, if_pos rfl]
      · rw [find_cancel_at, if_neg (fun hpq => hq hpq.symm)]
    · intro h0
      cases h0

/-- C6, at the sample registry and id 1. -/
theorem C6_RemoveTimer_result_witness :
    WF sample_state ∧
    ∃ s2 ret, RemoveTimer 1 sample_state = some (s2, ret) ∧ (ret = 1 ∨ ret = 0) ∧
      (ret = 1 ↔ ∃ p, map_find (1 : Int) sample_state.timer_map = some p) ∧
      (ret = 1 → ∃ p e, map_find (1 : Int) sample_state.timer_map = some p ∧
        map_find p sample_state.heap = some e ∧
        map_find p s2.heap = some { e with timer_cancelled := true } ∧
        (∀ q, q ≠ p → map_find q s2.heap = map_find q sample_state.heap) ∧
        s2.removed_timer_ids = sample_state.removed_timer_ids ++ [1] ∧
        s2.timer_map = sample_state.timer_map ∧
        s2.sorted_timers = sample_state.sorted_timers ∧
        s2.next_timer_id = sample_state.next_timer_id) ∧
      (ret = 0 → s2 = sample_state) :=
  ⟨by decide, C6_RemoveTimer_result sample_state (by decide) 1⟩

/-! ## Registration with a relative interval -/

/-- The instant `timeslice_trigger` denotes, for an interval that is not negative
and a base time with normalised microseconds: the base plus the interval, and one
second more when the microseconds add up to exactly 999999. -/
theorem timeslice_trigger_micros (base : timeval) (n : Int) (hn : 0 ≤ n)
    (h0 : 0 ≤ base.tv_usec) (h1 : base.tv_usec < 1000000) :
    tv_micros (timeslice_trigger base n) =
      tv_micros base + n * 100000 +
        (if base.tv_usec + n % 10 * 100000 = 999999 then 1000000 else 0) := by
  have hd : Int.tdiv n 10 = n / 10 := Int.tdiv_eq_ediv hn (by decide)
  have hm : Int.tmod n 10 = n % 10 := Int.tmod_eq_emod hn (by decide)
  have hk : Int.tdiv 1000000 10 = 100000 := by decide
  unfold timeslice_trigger SERVER_TIMESLICES_SEC tv_micros
  simp only [hd, hm, hk]
  have hm0 : 0 ≤ n % 10 := Int.emod_nonneg n (by decide)
  have hm1 : n % 10 < 10 := Int.emod_lt_of_pos n (by decide)
  by_cases hc : 999999 ≤ base.tv_usec + n % 10 * 100000
  · rw [if_pos hc]
    have hmm : Int.tmod (base.tv_usec + n % 10 * 100000) 1000000 =
        (base.tv_usec + n % 10 * 100000) % 1000000 :=
      Int.tmod_eq_emod (by omega) (by decide)
    simp only [hmm]
    split_ifs with h9 <;> omega
  · rw [if_neg hc]
    have h9 : ¬ base.tv_usec + n % 10 * 100000 = 999999 := by omega
    rw [if_neg h9]
    dsimp only
    omega

/-- What every registration does on a well-formed registry whose keys are below
the id counter, whatever the record: it returns the id counter, advances it by
one, and the record is in both views under this id. -/
theorem insert_timer_registers {s : State} (hwf : WF s) (hib : ids_below s)
    (evt : timer_event) (hid : evt.timer_id = s.next_timer_id) :
    ∃ s2, insert_timer evt { s with next_timer_id := s.next_timer_id + 1 } =
        some (s2, s.next_timer_id) ∧
      s2.next_timer_id = s.next_timer_id + 1 ∧
      ∃ p, map_find s.next_timer_id s2.timer_map = some p ∧ p ∈ s2.sorted_timers ∧
        map_find p s2.heap = some evt ∧ evt ∈ records s2 := by
  obtain ⟨s2, h1, _, _, h3, _, h5, h6, h7, h8⟩ := insert_timer_wf hwf hib evt hid
  refine ⟨s2, h1, h3, alloc s.heap, ?_, ?_, ?_, (h5 evt).2 (Or.inr rfl)⟩
  · rw [h6, if_pos rfl]
  · rw [h8.mem_iff]
    simp
  · rw [h7, if_pos rfl]

/-- C7, as stated, fails: on a new `Timetracker` the event-handle variant called
with a null trigger and the interval -5 returns id 0, advances the id counter
from 0 to 1, and enters a record with `timeslices = -5` in `timer_map` and
`sorted_timers`, both empty before. -/
theorem C7_negative_interval_accepted :
    (RegisterTimer_nb_event { tv_sec := 100, tv_usec := 0 } sample_fresh (-5) none 0 (some 7)
        (Timetracker { tv_sec := 100, tv_usec := 0 })).map
      (fun r => (r.2, r.1.next_timer_id, r.1.timer_map, r.1.sorted_timers)) =
      some (0, 1, [(0, 1)], [1]) ∧
    (RegisterTimer_nb_event { tv_sec := 100, tv_usec := 0 } sample_fresh (-5) none 0 (some 7)
        (Timetracker { tv_sec := 100, tv_usec := 0 })).map
      (fun r => (records r.1).map timer_event.timeslices) = some [-5] ∧
    (Timetracker { tv_sec := 100, tv_usec := 0 }).next_timer_id = 0 ∧
    (Timetracker { tv_sec := 100, tv_usec := 0 }).timer_map = [] ∧
    (Timetracker { tv_sec := 100, tv_usec := 0 }).sorted_timers = [] := by
  decide

/-- C7, amended: a registration with a null trigger and a negative interval is
not rejected.  On a well-formed registry whose keys are below the id counter
(every reachable registry is such) each of the three
variants of `RegisterTimer_nb` returns the id counter, advances it by one, and
enters in `timer_map` and `sorted_timers` a record with this id whose
`timeslices` is the negative interval. -/
theorem C7_negative_interval_registers (s : State) (hwf : WF s) (hib : ids_below s)
    (now : timeval)
    (fresh : timer_event) (n : Int) (rec : Int) (cb : Option Nat) (parm : Nat)
    (ev : Option Nat) (hn : n < 0) :
    (∃ s2 p e, RegisterTimer_nb now fresh n none rec cb parm s = some (s2, s.next_timer_id) ∧
      s2.next_timer_id = s.next_timer_id + 1 ∧
      map_find s.next_timer_id s2.timer_map = some p ∧ p ∈ s2.sorted_timers ∧
      map_find p s2.heap = some e ∧ e.timer_id = s.next_timer_id ∧ e.timeslices = n ∧
      e.timeslices < 0) ∧
    (∃ s2 p e, RegisterTimer_nb_event now fresh n none rec ev s = some (s2, s.next_timer_id) ∧
      s2.next_timer_id = s.next_timer_id + 1 ∧
      map_find s.next_timer_id s2.timer_map = some p ∧ p ∈ s2.sorted_timers ∧
      map_find p s2.heap = some e ∧ e.timer_id = s.next_timer_id ∧ e.timeslices = n ∧
      e.timeslices < 0) ∧
    (∃ s2 p e, RegisterTimer_nb_func now fresh n none rec ev s = some (s2, s.next_timer_id) ∧
      s2.next_timer_id = s.next_timer_id + 1 ∧
      map_find s.next_timer_id s2.timer_map = some p ∧ p ∈ s2.sorted_timers ∧
      map_find p s2.heap = some e ∧ e.timer_id = s.next_timer_id ∧ e.timeslices = n ∧
      e.timeslices < 0) := by
  refine ⟨?_, ?_, ?_⟩
  · obtain ⟨s2, h1, h2, p, h3, h4, h5, _⟩ := insert_timer_registers hwf hib
      (new_timer_callback now fresh n none rec cb parm s.next_timer_id) rfl
    exact ⟨s2, p, _, h1, h2, h3, h4, h5, rfl, rfl, hn⟩
  · obtain ⟨s2, h1, h2, p, h3, h4, h5, _⟩ := insert_timer_registers hwf hib
      (new_timer_event now fresh n none rec ev s.next_timer_id) rfl
    exact ⟨s2, p, _, h1, h2, h3, h4, h5, rfl, rfl, hn⟩
  · obtain ⟨s2, h1, h2, p, h3, h4, h5, _⟩ := insert_timer_registers hwf hib
      (new_timer_func now fresh n none rec ev s.next_timer_id) rfl
    exact ⟨s2, p, _, h1, h2, h3, h4, h5, rfl, rfl, hn⟩

/-- C7 amended, at the sample registry and the interval -5. -/
theorem C7_negative_interval_registers_witness :
    WF sample_state ∧ ids_below sample_state ∧ (-5 : Int) < 0 ∧
    (∃ s2 p e, RegisterTimer_nb { tv_sec := 100, tv_usec := 0 } sample_fresh (-5) none 0
        (some 3) 0 sample_state = some (s2, sample_state.next_timer_id) ∧
      s2.next_timer_id = sample_state.next_timer_id + 1 ∧
      map_find sample_state.next_timer_id s2.timer_map = some p ∧ p ∈ s2.sorted_timers ∧
      map_find p s2.heap = some e ∧ e.timer_id = sample_state.next_timer_id ∧
      e.timeslices = -5 ∧ e.timeslices < 0) ∧
    (∃ s2 p e, RegisterTimer_nb_event { tv_sec := 100, tv_usec := 0 } sample_fresh (-5) none 0
        (some 7) sample_state = some (s2, sample_state.next_timer_id) ∧
      s2.next_timer_id = sample_state.next_timer_id + 1 ∧
      map_find sample_state.next_timer_id s2.timer_map = some p ∧ p ∈ s2.sorted_timers ∧
      map_find p s2.heap = some e ∧ e.timer_id = sample_state.next_timer_id ∧
      e.timeslices = -5 ∧ e.timeslices < 0) ∧
    (∃ s2 p e, RegisterTimer_nb_func { tv_sec := 100, tv_usec := 0 } sample_fresh (-5) none 0
        (some 7) sample_state = some (s2, sample_state.next_timer_id) ∧
      s2.next_timer_id = sample_state.next_timer_id + 1 ∧
      map_find sample_state.next_timer_id s2.timer_map = some p ∧ p ∈ s2.sorted_timers ∧
      map_find p s2.heap = some e ∧ e.timer_id = sample_state.next_timer_id ∧
      e.timeslices = -5 ∧ e.timeslices < 0) :=
  ⟨by decide, by decide, by decide,
    C7_negative_interval_registers sample_state (by decide) (by decide)
      { tv_sec := 100, tv_usec := 0 } sample_fresh (-5) 0 (some 3) 0 (some 7) (by decide)⟩

/-- C8 fails on the code: at clock reading 100.899999 s the event-handle and the
closure variant, called with a null trigger and an interval of 1 timeslice, create
a record whose trigger time is 101.999999 s, one second after now + interval,
which is 100.999999 s. -/
theorem C8_relative_trigger_one_second_late :
    (RegisterTimer_nb_event { tv_sec := 100, tv_usec := 899999 } sample_fresh 1 none 0 (some 7)
        (Timetracker { tv_sec := 100, tv_usec := 0 })).map
      (fun r => (records r.1).map (fun e => (e.trigger_tm, tv_micros e.trigger_tm))) =
      some [({ tv_sec := 101, tv_usec := 999999 }, 101999999)] ∧
    (RegisterTimer_nb_func { tv_sec := 100, tv_usec := 899999 } sample_fresh 1 none 0 (some 7)
        (Timetracker { tv_sec := 100, tv_usec := 0 })).map
      (fun r => (records r.1).map (fun e => (e.trigger_tm, tv_micros e.trigger_tm))) =
      some [({ tv_sec := 101, tv_usec := 999999 }, 101999999)] ∧
    tv_micros { tv_sec := 100, tv_usec := 899999 } + 1 * (1000000 / SERVER_TIMESLICES_SEC) =
      100999999 := by
  decide

/-- C9 fails on the code: at clock reading 100.0 s, with a null trigger and an
interval of 5 timeslices, the function-pointer variant creates a record due at
100.000005 s, the event-handle and the closure variant one due at 100.5 s. -/
theorem C9_callback_variant_differs :
    (new_timer_callback { tv_sec := 100, tv_usec := 0 } sample_fresh 5 none 1 (some 3) 0
      0).trigger_tm = { tv_sec := 100, tv_usec := 5 } ∧
    (new_timer_event { tv_sec := 100, tv_usec := 0 } sample_fresh 5 none 1 (some 7)
      0).trigger_tm = { tv_sec := 100, tv_usec := 500000 } ∧
    (new_timer_func { tv_sec := 100, tv_usec := 0 } sample_fresh 5 none 1 (some 7)
      0).trigger_tm = { tv_sec := 100, tv_usec := 500000 } ∧
    (RegisterTimer_nb { tv_sec := 100, tv_usec := 0 } sample_fresh 5 none 1 (some 3) 0
        (Timetracker { tv_sec := 100, tv_usec := 0 })).map
      (fun r => (records r.1).map timer_event.trigger_tm) =
      some [{ tv_sec := 100, tv_usec := 5 }] ∧
    (RegisterTimer_nb_event { tv_sec := 100, tv_usec := 0 } sample_fresh 5 none 1 (some 7)
        (Timetracker { tv_sec := 100, tv_usec := 0 })).map
      (fun r => (records r.1).map timer_event.trigger_tm) =
      some [{ tv_sec := 100, tv_usec := 500000 }] := by
  decide

/-- C4 fails on the code: a recurring timer with an interval of 1 timeslice,
registered at 100.0 s and fired with outcome 1 by a `Tick` at captured time
100.899999 s, is left with `schedule_tm` 100.899999 s and `trigger_tm`
101.999999 s, which is 1000000 microseconds after the captured time plus one
timeslice. -/
theorem C4_reschedule_one_second_late :
    (run [Op.register_event { tv_sec := 100, tv_usec := 0 } sample_fresh 1 none 1 (some 7),
          Op.tick sample_outcomes { tv_sec := 100, tv_usec := 899999 }]
        (Timetracker { tv_sec := 100, tv_usec := 0 })).map
      (fun r => ((fired_ids r.2), (records r.1).map (fun e => (e.schedule_tm, e.trigger_tm,
        tv_micros e.trigger_tm -
          (tv_micros { tv_sec := 100, tv_usec := 899999 } +
            1 * (1000000 / SERVER_TIMESLICES_SEC)))))) =
      some ([0], [({ tv_sec := 100, tv_usec := 899999 }, { tv_sec := 101, tv_usec := 999999 },
        1000000)]) := by
  decide

/-! ## Cancellation followed by a `Tick` -/

theorem WF_cancel_at {s : State} (hwf : WF s) {id : Int} {p : Nat} {e : timer_event}
    (he : map_find p s.heap = some e) : WF (cancel_at p e id s) := by
  apply WF_intro
  · intro id2 q hf2
    obtain ⟨hq, e2, he2, hid2⟩ := WF_map hwf (show map_find id2 s.timer_map = some q from hf2)
    by_cases hpq : p = q
    · subst hpq
      rw [he] at he2
      cases he2
      exact ⟨hq, { e with timer_cancelled := true }, by rw [find_cancel_at, if_pos rfl], hid2⟩
    · exact ⟨hq, e2, by rw [find_cancel_at, if_neg hpq]; exact he2, hid2⟩
  · intro q hq
    obtain ⟨e2, he2, hm2⟩ := WF_sorted hwf (show q ∈ s.sorted_timers from hq)
    by_cases hpq : p = q
    · subst hpq
      rw [he] at he2
      cases he2
      exact ⟨{ e with timer_cancelled := true }, by rw [find_cancel_at, if_pos rfl], hm2⟩
    · exact ⟨e2, by rw [find_cancel_at, if_neg hpq]; exact he2, hm2⟩
  · exact hwf.2.2

/-- The records fired by a `Tick` on a well-formed registry were in the registry,
at an address of `sorted_timers`, and not cancelled. -/
theorem fired_of_mem_log {s : State} {o : Outcomes} {T : timeval} {x : timer_event × Int}
    (hx : x ∈ loop_log o (visited T (sorted_records s))) :
    ∃ p, (p, x.1) ∈ visited T (sorted_records s) ∧ p ∈ s.sorted_timers ∧
      map_find p s.heap = some x.1 ∧ x.1.timer_cancelled = false ∧ x.2 = outcome o x.1 := by
  obtain ⟨p, hp, hc, ho⟩ := mem_loop_log.1 hx
  obtain ⟨hp1, hp2⟩ := mem_sorted_records.1 ((visited_sublist T _).subset hp)
  exact ⟨p, hp, hp1, hp2, hc, ho⟩

/-- After a `Tick` on a well-formed registry no id of the removal queue, old or
queued by the loop, is left in either view. -/
theorem Tick_pure_removed {s : State} (h : WF s) (o : Outcomes) (T : timeval) :
    ∃ s2, Tick (pure_actions o) T s =
        some (s2, loop_log o (visited T (sorted_records s)), 1) ∧
      WF s2 ∧ s2.removed_timer_ids = [] ∧
      ∀ id, id ∈ s.removed_timer_ids ++ loop_queue o (visited T (sorted_records s)) →
        map_find id s2.timer_map = none ∧ ∀ e ∈ records s2, e.timer_id ≠ id := by
  obtain ⟨s2, ht, hw2, hq2, _, b1, b2, b3, _⟩ := Tick_pure_final h o T
  refine ⟨s2, ht, hw2, hq2, fun id hid => ⟨by rw [b1, if_pos hid], fun e2 he2 heq => ?_⟩⟩
  obtain ⟨q, hq1, hf⟩ := mem_records.1 he2
  rw [b3 q hq1] at hf
  obtain ⟨hq3, hall⟩ := (b2 q).1 hq1
  obtain ⟨e3, he3, _⟩ := WF_sorted h hq3
  obtain ⟨e4, he4, hid4, _⟩ := find_after_loop_id h o T q e3 he3
  rw [hf] at he4
  cases he4
  apply hall e3 he3
  rw [← hid4, heq]
  exact hid

/-- C11 (cancel before due).  On a well-formed registry, once `RemoveTimer(id)`
has returned 1, the very next `Tick`, at any captured time (also one before the
trigger time of the record, where the loop stops before it reaches the record),
returns 1, does not fire a record with this id, and leaves the id unbound in
`timer_map` and carried by no record of `sorted_timers`. -/
theorem C11_cancelled_gone_after_next_tick (s : State) (hwf : WF s) (id : Int) (s1 : State)
    (hrem : RemoveTimer id s = some (s1, 1)) (o : Outcomes) (T : timeval) :
    ∃ s2 log, Tick (pure_actions o) T s1 = some (s2, log, 1) ∧
      id ∉ log.map (fun x => x.1.timer_id) ∧
      map_find id s2.timer_map = none ∧
      (∀ e ∈ records s2, e.timer_id ≠ id) := by
  cases hf : map_find id s.timer_map with
  | none =>
    rw [RemoveTimer_absent id s hf] at hrem
    cases hrem
  | some p =>
    obtain ⟨e, he, hid, hp, hr⟩ := RemoveTimer_present hwf id p hf
    rw [hr] at hrem
    cases hrem
    have hwf1 : WF (cancel_at p e id s) := WF_cancel_at hwf he
    obtain ⟨s2, ht, _, _, hrm⟩ := Tick_pure_removed hwf1 o T
    have hq : id ∈ (cancel_at p e id s).removed_timer_ids ++
        loop_queue o (visited T (sorted_records (cancel_at p e id s))) := by
      apply List.mem_append_left
      show id ∈ s.removed_timer_ids ++ [id]
      simp
    refine ⟨s2, _, ht, ?_, (hrm id hq).1, (hrm id hq).2⟩
    intro hmem
    obtain ⟨x, hx, hxid⟩ := List.mem_map.1 hmem
    obtain ⟨q, _, hq1, hq2, hc, _⟩ := fired_of_mem_log hx
    obtain ⟨e3, he3, hm3⟩ := WF_sorted hwf1 hq1
    rw [hq2] at he3
    cases he3
    have hm4 : map_find x.1.timer_id s.timer_map = some q := hm3
    rw [hxid, hf] at hm4
    have hpq : p = q := Option.some.inj hm4
    subst hpq
    rw [find_cancel_at, if_pos rfl] at hq2
    have : x.1 = { e with timer_cancelled := true } := (Option.some.inj hq2).symm
    rw [this] at hc
    cases hc

/-- C11, at the sample registry: the timer with id 2, due at 200 s, is cancelled
and a `Tick` at 100 s follows, whose loop stops at the first record. -/
theorem C11_cancelled_gone_after_next_tick_witness :
    WF sample_state ∧ RemoveTimer 2 sample_state = some (sample_cancelled, 1) ∧
    ∃ s2 log, Tick (pure_actions sample_outcomes) { tv_sec := 100, tv_usec := 0 }
        sample_cancelled = some (s2, log, 1) ∧
      (2 : Int) ∉ log.map (fun x => x.1.timer_id) ∧
      map_find (2 : Int) s2.timer_map = none ∧
      (∀ e ∈ records s2, e.timer_id ≠ 2) :=
  ⟨by decide, by decide,
    C11_cancelled_gone_after_next_tick sample_state (by decide) 2 sample_cancelled (by decide)
      sample_outcomes { tv_sec := 100, tv_usec := 0 }⟩

/-! ## Records a `Tick` does not touch -/

theorem visited_not_future (T : timeval) :
    ∀ (l : List (Nat × timer_event)) (pe : Nat × timer_event), pe ∈ visited T l →
      pe.2.timer_cancelled = true ∨ tv_before T pe.2.trigger_tm = false := by
  intro l
  induction l with
  | nil => intro pe h; simp [visited] at h
  | cons a l ih =>
    intro pe h
    unfold visited at h
    by_cases hc : a.2.timer_cancelled = true
    · rw [if_pos hc] at h
      rcases List.mem_cons.1 h with h1 | h1
      · subst h1
        exact Or.inl hc
      · exact ih pe h1
    · rw [if_neg hc] at h
      by_cases hf : tv_before T a.2.trigger_tm = true
      · rw [if_pos hf] at h
        simp at h
      · rw [if_neg hf] at h
        rcases List.mem_cons.1 h with h1 | h1
        · subst h1
          exact Or.inr (by simpa using hf)
        · exact ih pe h1

/-! ## Where records are erased -/

/-- The three phases of `Tick` on a well-formed registry: the sort, the loop,
which ends in `after_loop`, and the cleanup of the queue the loop has left. -/
theorem Tick_pure_phases {s : State} (h : WF s) (o : Outcomes) (T : timeval) :
    sort_timers { s with timestamp := { tv_sec := T.tv_sec, tv_usec := T.tv_usec } } =
        some (resorted { s with timestamp := { tv_sec := T.tv_sec, tv_usec := T.tv_usec } }) ∧
      tick_loop (pure_actions o) T
          (resorted { s with timestamp := { tv_sec := T.tv_sec, tv_usec := T.tv_usec } }).sorted_timers
          (resorted { s with timestamp := { tv_sec := T.tv_sec, tv_usec := T.tv_usec } }) [] =
        some (after_loop o T s, loop_log o (visited T (sorted_records s))) ∧
      ∃ s3, cleanup (after_loop o T s).removed_timer_ids (after_loop o T s) = some s3 ∧
        Tick (pure_actions o) T s =
          some ({ s3 with removed_timer_ids := [] },
            loop_log o (visited T (sorted_records s)), 1) := by
  have hsort := sort_timers_eq
    { s with timestamp := { tv_sec := T.tv_sec, tv_usec := T.tv_usec } } (WF_live h)
  have hloop := tick_loop_pure o T (sorted_records s)
    { s with timestamp := { tv_sec := T.tv_sec, tv_usec := T.tv_usec },
             sorted_timers := (sorted_records s).map Prod.fst } []
    (sorted_records_nodup h) (fun pe hpe => (mem_sorted_records.1 hpe).2)
  obtain ⟨s3, hc, _, _⟩ :=
    cleanup_spec (after_loop o T s).removed_timer_ids (after_loop o T s) (WF_after_loop h o T)
  refine ⟨hsort, ?_, s3, hc, ?_⟩
  · rw [List.nil_append] at hloop
    exact hloop
  · unfold Tick
    rw [hsort]
    simp only [Option.some_bind]
    have hsr : sorted_records
        { s with timestamp := { tv_sec := T.tv_sec, tv_usec := T.tv_usec } } =
        sorted_records s := rfl
    rw [hsr, hloop]
    simp only [Option.some_bind, List.nil_append]
    change (cleanup (after_loop o T s).removed_timer_ids (after_loop o T s)).map _ = _
    rw [hc]
    rfl

/-- C15 (deferred removal).  On a well-formed registry whose keys are below the id
counter: `RemoveTimer(id)` returns and leaves `timer_map` and `sorted_timers` as
they were, contents and order; every address keeps its record, but for the
record with this id, whose `timer_cancelled` is set; a registration keeps every
binding of `timer_map`, every address of `sorted_timers` and every record; and
when the loop of `Tick` has ended the bindings of `timer_map` and the addresses
of `sorted_timers` are all still there, each address with a live record of the
same id: whatever `Tick` erases is erased by the cleanup of lines 108-128. -/
theorem C15_only_cleanup_erases (s : State) (hwf : WF s) (hib : ids_below s) (id : Int) :
    (∃ s2 ret, RemoveTimer id s = some (s2, ret) ∧
      s2.timer_map = s.timer_map ∧ s2.sorted_timers = s.sorted_timers ∧
      (∀ p e, map_find p s.heap = some e →
        map_find p s2.heap = some e ∨
          (e.timer_id = id ∧ map_find p s2.heap = some { e with timer_cancelled := true })) ∧
      (∀ p, map_find p s.heap = none → map_find p s2.heap = none)) ∧
    (∀ evt : timer_event, evt.timer_id = s.next_timer_id →
      ∃ s2, insert_timer evt { s with next_timer_id := s.next_timer_id + 1 } =
          some (s2, s.next_timer_id) ∧
        (∀ k p, map_find k s.timer_map = some p → map_find k s2.timer_map = some p) ∧
        (∀ p ∈ s.sorted_timers, p ∈ s2.sorted_timers) ∧
        (∀ p e, map_find p s.heap = some e → map_find p s2.heap = some e)) ∧
    (∀ (o : Outcomes) (T : timeval), ∃ s1 sl log s3,
      sort_timers { s with timestamp := { tv_sec := T.tv_sec, tv_usec := T.tv_usec } } =
        some s1 ∧
      tick_loop (pure_actions o) T s1.sorted_timers s1 [] = some (sl, log) ∧
      cleanup sl.removed_timer_ids sl = some s3 ∧
      Tick (pure_actions o) T s = some ({ s3 with removed_timer_ids := [] }, log, 1) ∧
      sl.timer_map = s.timer_map ∧ List.Perm sl.sorted_timers s.sorted_timers ∧
      (∀ p e, map_find p s.heap = some e →
        ∃ e2, map_find p sl.heap = some e2 ∧ e2.timer_id = e.timer_id)) := by
  refine ⟨?_, ?_, ?_⟩
  · cases hf : map_find id s.timer_map with
    | none =>
      exact ⟨s, 0, RemoveTimer_absent id s hf, rfl, rfl, fun p e he => Or.inl he,
        fun p hp => hp⟩
    | some p =>
      obtain ⟨e, he, hid, _, hr⟩ := RemoveTimer_present hwf id p hf
      refine ⟨cancel_at p e id s, 1, hr, rfl, rfl, fun q e2 he2 => ?_, fun q hq => ?_⟩
      · rw [find_cancel_at]
        by_cases hpq : p = q
        · subst hpq
          rw [he] at he2
          cases he2
          exact Or.inr ⟨hid, by rw [if_pos rfl]⟩
        · exact Or.inl (by rw [if_neg hpq]; exact he2)
      · rw [find_cancel_at]
        by_cases hpq : p = q
        · subst hpq
          rw [he] at hq
          cases hq
        · rw [if_neg hpq]
          exact hq
  · intro evt hid
    obtain ⟨s2, h1, _, _, _, _, _, h6, h7, h8⟩ := insert_timer_wf hwf hib evt hid
    refine ⟨s2, h1, fun k p hk => ?_, fun p hp => ?_, fun p e he => ?_⟩
    · rw [h6]
      have hlt := ids_below_find hib hk
      have hne : ¬ s.next_timer_id = k := by omega
      rw [if_neg hne]
      exact hk
    · rw [h8.mem_iff]
      simp [hp]
    · rw [h7]
      have hne : ¬ alloc s.heap = p := by
        intro heq
        rw [← heq, map_find_alloc] at he
        cases he
      rw [if_neg hne]
      exact he
  · intro o T
    obtain ⟨h1, h2, s3, h3, h4⟩ := Tick_pure_phases hwf o T
    refine ⟨_, _, _, s3, h1, h2, h3, h4, rfl, sorted_records_fst_perm (WF_live hwf), ?_⟩
    intro p e he
    obtain ⟨e2, he2, hid2, _⟩ := find_after_loop_id hwf o T p e he
    exact ⟨e2, he2, hid2⟩

/-- C15, at the sample registry and id 1. -/
theorem C15_only_cleanup_erases_witness :
    WF sample_state ∧ ids_below sample_state ∧
    (∃ s2 ret, RemoveTimer 1 sample_state = some (s2, ret) ∧
      s2.timer_map = sample_state.timer_map ∧
      s2.sorted_timers = sample_state.sorted_timers ∧
      (∀ p e, map_find p sample_state.heap = some e →
        map_find p s2.heap = some e ∨
          (e.timer_id = 1 ∧ map_find p s2.heap = some { e with timer_cancelled := true })) ∧
      (∀ p, map_find p sample_state.heap = none → map_find p s2.heap = none)) ∧
    (∀ evt : timer_event, evt.timer_id = sample_state.next_timer_id →
      ∃ s2, insert_timer evt
          { sample_state with next_timer_id := sample_state.next_timer_id + 1 } =
          some (s2, sample_state.next_timer_id) ∧
        (∀ k p, map_find k sample_state.timer_map = some p →
          map_find k s2.timer_map = some p) ∧
        (∀ p ∈ sample_state.sorted_timers, p ∈ s2.sorted_timers) ∧
        (∀ p e, map_find p sample_state.heap = some e → map_find p s2.heap = some e)) ∧
    (∀ (o : Outcomes) (T : timeval), ∃ s1 sl log s3,
      sort_timers
          { sample_state with timestamp := { tv_sec := T.tv_sec, tv_usec := T.tv_usec } } =
        some s1 ∧
      tick_loop (pure_actions o) T s1.sorted_timers s1 [] = some (sl, log) ∧
      cleanup sl.removed_timer_ids sl = some s3 ∧
      Tick (pure_actions o) T sample_state =
        some ({ s3 with removed_timer_ids := [] }, log, 1) ∧
      sl.timer_map = sample_state.timer_map ∧
      List.Perm sl.sorted_timers sample_state.sorted_timers ∧
      (∀ p e, map_find p sample_state.heap = some e →
        ∃ e2, map_find p sl.heap = some e2 ∧ e2.timer_id = e.timer_id)) :=
  ⟨by decide, by decide,
    C15_only_cleanup_erases sample_state (by decide) (by decide) 1⟩

/-! ## Registration keeps the sequence sorted -/

theorem deref_list_map_fst (heap : List (Nat × timer_event)) :
    ∀ l : List (Nat × timer_event), (∀ pe ∈ l, map_find pe.1 heap = some pe.2) →
      deref_list heap (l.map Prod.fst) = l := by
  intro l
  induction l with
  | nil => intro _; rfl
  | cons pe l ih =>
    intro h
    have h1 := h pe (List.mem_cons_self _ _)
    have h2 := ih (fun a ha => h a (List.mem_cons_of_mem _ ha))
    unfold deref_list at h2 ⊢
    simp only [List.map_cons, List.filterMap_cons, h1, Option.map_some', h2]

theorem deref_list_resorted (s : State) :
    deref_list (resorted s).heap (resorted s).sorted_timers = sorted_records s :=
  deref_list_map_fst s.heap (sorted_records s) (fun _ hpe => (mem_sorted_records.1 hpe).2)

theorem records_eq_deref (s : State) :
    records s = (deref_list s.heap s.sorted_timers).map Prod.snd :=
  (deref_list_snd s.heap s.sorted_timers).symm

theorem records_resorted (s : State) :
    records (resorted s) = (sorted_records s).map Prod.snd := by
  rw [records_eq_deref, deref_list_resorted]

theorem records_resorted_sorted (s : State) :
    (records (resorted s)).Pairwise (fun a b => tv_le a.trigger_tm b.trigger_tm) := by
  rw [records_resorted]
  exact List.pairwise_map.2 (stable_sort_sorted _)

theorem records_inserted {s : State} (h : WF s) (evt : timer_event) :
    records (inserted evt s) = records s ++ [evt] := by
  have hfresh := map_find_alloc s.heap
  have hold : ∀ ps : List Nat, (∀ p ∈ ps, ∃ e, map_find p s.heap = some e) →
      ps.filterMap (fun p => map_find p (inserted evt s).heap) =
        ps.filterMap (fun p => map_find p s.heap) := by
    intro ps hps
    apply List.filterMap_congr
    intro p hp
    obtain ⟨e, he⟩ := hps p hp
    rw [find_inserted_heap]
    have hne : alloc s.heap ≠ p := by
      intro heq
      rw [← heq, hfresh] at he
      cases he
    rw [if_neg hne]
  show (s.sorted_timers ++ [alloc s.heap]).filterMap
      (fun p => map_find p (inserted evt s).heap) = _
  rw [List.filterMap_append, hold _ (WF_live h)]
  simp [records, find_inserted_heap]

theorem insert_timer_eq {s : State} (hwf : WF s) (hib : ids_below s) (evt : timer_event)
    (hid : evt.timer_id = s.next_timer_id) :
    map_find evt.timer_id s.timer_map = none ∧
    WF (inserted evt { s with next_timer_id := s.next_timer_id + 1 }) ∧
    insert_timer evt { s with next_timer_id := s.next_timer_id + 1 } =
      some (resorted (inserted evt { s with next_timer_id := s.next_timer_id + 1 }),
        s.next_timer_id) := by
  have hwf0 : WF { s with next_timer_id := s.next_timer_id + 1 } := hwf
  have hnew : map_find evt.timer_id s.timer_map = none := by
    cases hf : map_find evt.timer_id s.timer_map with
    | none => rfl
    | some p =>
      have := ids_below_find hib hf
      omega
  have hwi : WF (inserted evt { s with next_timer_id := s.next_timer_id + 1 }) :=
    WF_inserted hwf0 evt hnew
  refine ⟨hnew, hwi, ?_⟩
  unfold insert_timer
  rw [sort_timers_eq _ (WF_live hwi), hid]
  rfl

/-- The common part of the three registration variants keeps the ordered
sequence sorted and adds exactly one record. -/
theorem insert_timer_adds_one_sorted {s : State} (hwf : WF s) (hib : ids_below s)
    (evt : timer_event) (hid : evt.timer_id = s.next_timer_id) :
    adds_one_sorted s evt (insert_timer evt { s with next_timer_id := s.next_timer_id + 1 }) := by
  obtain ⟨hnew, hwi, heq⟩ := insert_timer_eq hwf hib evt hid
  have hwf0 : WF { s with next_timer_id := s.next_timer_id + 1 } := hwf
  have hfresh := map_find_alloc s.heap
  refine ⟨_, alloc s.heap, heq, records_resorted_sorted _, records_length (WF_resort hwi),
    sorted_records_fst_perm (WF_live hwi), ?_, hfresh, ?_, ?_, ?_, ?_⟩
  · rw [records_resorted]
    have h1 := sorted_records_snd_perm
      (inserted evt { s with next_timer_id := s.next_timer_id + 1 })
    rw [records_inserted hwf0] at h1
    exact h1
  · show map_find (alloc s.heap)
      (inserted evt { s with next_timer_id := s.next_timer_id + 1 }).heap = some evt
    rw [find_inserted_heap]
    exact if_pos rfl
  · rw [← hid]
    exact hnew
  · intro id
    show map_find id
      (inserted evt { s with next_timer_id := s.next_timer_id + 1 }).timer_map = _
    rw [find_inserted_map, hid]
  · intro q e he
    show map_find q (inserted evt { s with next_timer_id := s.next_timer_id + 1 }).heap = some e
    rw [find_inserted_heap]
    have hne : alloc s.heap ≠ q := by
      intro h
      rw [← h, hfresh] at he
      cases he
    show (if alloc s.heap = q then some evt else map_find q s.heap) = some e
    rw [if_neg hne]
    exact he

/-- C20 (registration keeps the sequence sorted and adds exactly one record).
On a well-formed registry whose keys are below the id counter, whatever the
order of its ordered sequence, each of the three `RegisterTimer_nb` variants
returns the id counter and leaves the records of the ordered sequence in
non-decreasing `trigger_tm` order (lexicographic on seconds and microseconds);
the sequence is a permutation of the previous one plus the one new record;
`timer_map` gains exactly the new id; and no pre-existing record is changed. -/
theorem C20_registration_sorted_adds_one (s : State) (hwf : WF s) (hib : ids_below s)
    (now : timeval) (fresh : timer_event) (n : Int) (tr : Option timeval) (rec : Int)
    (cb : Option Nat) (parm : Nat) (ev : Option Nat) :
    adds_one_sorted s (new_timer_callback now fresh n tr rec cb parm s.next_timer_id)
      (RegisterTimer_nb now fresh n tr rec cb parm s) ∧
    adds_one_sorted s (new_timer_event now fresh n tr rec ev s.next_timer_id)
      (RegisterTimer_nb_event now fresh n tr rec ev s) ∧
    adds_one_sorted s (new_timer_func now fresh n tr rec ev s.next_timer_id)
      (RegisterTimer_nb_func now fresh n tr rec ev s) :=
  ⟨insert_timer_adds_one_sorted hwf hib _ rfl, insert_timer_adds_one_sorted hwf hib _ rfl,
    insert_timer_adds_one_sorted hwf hib _ rfl⟩

/-- C20, at the sample registry with its ordered sequence out of order, with a
relative interval of 3 timeslices at 100.1 s. -/
theorem C20_registration_sorted_adds_one_witness :
    WF sample_unsorted ∧ ids_below sample_unsorted ∧
    ¬ (records sample_unsorted).Pairwise (fun a b => tv_le a.trigger_tm b.trigger_tm) ∧
    adds_one_sorted sample_unsorted
      (new_timer_callback { tv_sec := 100, tv_usec := 100000 } sample_fresh 3 none 1 (some 3) 0
        sample_unsorted.next_timer_id)
      (RegisterTimer_nb { tv_sec := 100, tv_usec := 100000 } sample_fresh 3 none 1 (some 3) 0
        sample_unsorted) ∧
    adds_one_sorted sample_unsorted
      (new_timer_event { tv_sec := 100, tv_usec := 100000 } sample_fresh 3 none 1 (some 7)
        sample_unsorted.next_timer_id)
      (RegisterTimer_nb_event { tv_sec := 100, tv_usec := 100000 } sample_fresh 3 none 1 (some 7)
        sample_unsorted) ∧
    adds_one_sorted sample_unsorted
      (new_timer_func { tv_sec := 100, tv_usec := 100000 } sample_fresh 3 none 1 (some 7)
        sample_unsorted.next_timer_id)
      (RegisterTimer_nb_func { tv_sec := 100, tv_usec := 100000 } sample_fresh 3 none 1 (some 7)
        sample_unsorted) :=
  ⟨by decide, by decide, by decide,
    C20_registration_sorted_adds_one sample_unsorted (by decide) (by decide)
      { tv_sec := 100, tv_usec := 100000 } sample_fresh 3 none 1 (some 3) 0 (some 7)⟩

/-! ## Normalised microseconds -/

theorem timeslice_trigger_normal (base : timeval) (n : Int) (hb : usec_normal base)
    (hn : 0 ≤ n) : usec_normal (timeslice_trigger base n) := by
  obtain ⟨h0, h1⟩ := hb
  have hm : Int.tmod n 10 = n % 10 := Int.tmod_eq_emod hn (by decide)
  have hk : Int.tdiv 1000000 10 = 100000 := by decide
  have hm0 : 0 ≤ n % 10 := Int.emod_nonneg n (by decide)
  have hm1 : n % 10 < 10 := Int.emod_lt_of_pos n (by decide)
  unfold timeslice_trigger SERVER_TIMESLICES_SEC usec_normal
  simp only [hm, hk]
  by_cases hc : 999999 ≤ base.tv_usec + n % 10 * 100000
  · rw [if_pos hc]
    have hmm : Int.tmod (base.tv_usec + n % 10 * 100000) 1000000 =
        (base.tv_usec + n % 10 * 100000) % 1000000 :=
      Int.tmod_eq_emod (by omega) (by decide)
    simp only [hmm]
    constructor
    · exact Int.emod_nonneg _ (by decide)
    · exact Int.emod_lt_of_pos _ (by decide)
  · rw [if_neg hc]
    dsimp only
    constructor <;> omega

theorem new_timer_event_normal (now : timeval) (fresh : timer_event) (n : Int)
    (tr : Option timeval) (rec : Int) (ev : Option Nat) (id : Int) (hnow : usec_normal now)
    (htr : ∀ t, tr = some t → usec_normal t) (hn : tr = none → 0 ≤ n) :
    usec_normal (new_timer_event now fresh n tr rec ev id).trigger_tm ∧
      usec_normal (new_timer_func now fresh n tr rec ev id).trigger_tm := by
  cases tr with
  | none =>
    exact ⟨timeslice_trigger_normal now n hnow (hn rfl),
      timeslice_trigger_normal now n hnow (hn rfl)⟩
  | some t => exact ⟨htr t rfl, htr t rfl⟩

/-- C19 (normalised microseconds).  On a well-formed registry whose keys are
below the id counter: when the clock reading and the absolute trigger, if one is
supplied, have `0 <= tv_usec < 1000000` and the relative interval, if one is
used, is not negative, the record that the event-handle variant and the closure
variant of `RegisterTimer_nb` enter in the registry has
`0 <= trigger_tm.tv_usec < 1000000`; and when the captured time has normalised
microseconds and no record has a negative interval (`timeslices` is -1 or not
negative), every record that `Tick` leaves in the registry is as it was or is
the rescheduled record, with `0 <= trigger_tm.tv_usec < 1000000`. -/
theorem C19_trigger_usec_normalised (s : State) (hwf : WF s) (hib : ids_below s)
    (now : timeval) (fresh : timer_event) (n : Int) (tr : Option timeval) (rec : Int)
    (ev : Option Nat) (hnow : usec_normal now) (htr : ∀ t, tr = some t → usec_normal t)
    (hn : tr = none → 0 ≤ n) (o : Outcomes) (T : timeval) (hT : usec_normal T)
    (hts : ∀ e ∈ records s, e.timeslices = -1 ∨ 0 ≤ e.timeslices) :
    (∃ s2 p e, RegisterTimer_nb_event now fresh n tr rec ev s = some (s2, s.next_timer_id) ∧
      map_find s.next_timer_id s2.timer_map = some p ∧ map_find p s2.heap = some e ∧
      e ∈ records s2 ∧ usec_normal e.trigger_tm) ∧
    (∃ s2 p e, RegisterTimer_nb_func now fresh n tr rec ev s = some (s2, s.next_timer_id) ∧
      map_find s.next_timer_id s2.timer_map = some p ∧ map_find p s2.heap = some e ∧
      e ∈ records s2 ∧ usec_normal e.trigger_tm) ∧
    (∃ s2 log, Tick (pure_actions o) T s = some (s2, log, 1) ∧
      ∀ p ∈ s2.sorted_timers, ∀ e2, map_find p s2.heap = some e2 →
        map_find p s.heap = some e2 ∨
          ∃ e, map_find p s.heap = some e ∧ e2 = reschedule T e ∧
            (e, outcome o e) ∈ log ∧ usec_normal e2.trigger_tm) := by
  obtain ⟨hne, hnf⟩ := new_timer_event_normal now fresh n tr rec ev s.next_timer_id hnow htr hn
  refine ⟨?_, ?_, ?_⟩
  · obtain ⟨s2, h1, _, p, h3, _, h5, h6⟩ := insert_timer_registers hwf hib
      (new_timer_event now fresh n tr rec ev s.next_timer_id) rfl
    exact ⟨s2, p, _, h1, h3, h5, h6, hne⟩
  · obtain ⟨s2, h1, _, p, h3, _, h5, h6⟩ := insert_timer_registers hwf hib
      (new_timer_func now fresh n tr rec ev s.next_timer_id) rfl
    exact ⟨s2, p, _, h1, h3, h5, h6, hnf⟩
  · obtain ⟨s2, ht, _, _, _, _, _, b3, _⟩ := Tick_pure_final hwf o T
    refine ⟨s2, _, ht, fun p hp e2 he2 => ?_⟩
    rw [b3 p hp] at he2
    rcases find_after_loop hwf o T p with h1 | ⟨e, hv, hc, hk, h2, h3⟩
    · rw [h1] at he2
      exact Or.inl he2
    · rw [h3] at he2
      have he2eq : e2 = reschedule T e := (Option.some.inj he2).symm
      subst he2eq
      obtain ⟨hp1, _⟩ := mem_sorted_records.1 ((visited_sublist T _).subset hv)
      have hrec : e ∈ records s := mem_records.2 ⟨p, hp1, h2⟩
      have hnn : 0 ≤ e.timeslices := by
        rcases hts e hrec with h4 | h4
        · exact absurd h4 hk.2.1
        · exact h4
      refine Or.inr ⟨e, h2, rfl, mem_loop_log.2 ⟨p, hv, hc, rfl⟩, ?_⟩
      exact timeslice_trigger_normal T e.timeslices hT hnn

/-- C19, at the sample registry: a relative registration of 9 timeslices at
100.999999 s, and a `Tick` at 100.999999 s that reschedules the timer with id 0. -/
theorem C19_trigger_usec_normalised_witness :
    WF sample_state ∧ ids_below sample_state ∧
    usec_normal { tv_sec := 100, tv_usec := 999999 } ∧
    (∀ e ∈ records sample_state, e.timeslices = -1 ∨ 0 ≤ e.timeslices) ∧
    (∃ s2 p e, RegisterTimer_nb_event { tv_sec := 100, tv_usec := 999999 } sample_fresh 9 none
        1 (some 7) sample_state = some (s2, sample_state.next_timer_id) ∧
      map_find sample_state.next_timer_id s2.timer_map = some p ∧
      map_find p s2.heap = some e ∧ e ∈ records s2 ∧ usec_normal e.trigger_tm) ∧
    (∃ s2 p e, RegisterTimer_nb_func { tv_sec := 100, tv_usec := 999999 } sample_fresh 9 none
        1 (some 7) sample_state = some (s2, sample_state.next_timer_id) ∧
      map_find sample_state.next_timer_id s2.timer_map = some p ∧
      map_find p s2.heap = some e ∧ e ∈ records s2 ∧ usec_normal e.trigger_tm) ∧
    (∃ s2 log, Tick (pure_actions sample_outcomes) { tv_sec := 100, tv_usec := 999999 }
        sample_state = some (s2, log, 1) ∧
      ∀ p ∈ s2.sorted_timers, ∀ e2, map_find p s2.heap = some e2 →
        map_find p sample_state.heap = some e2 ∨
          ∃ e, map_find p sample_state.heap = some e ∧
            e2 = reschedule { tv_sec := 100, tv_usec := 999999 } e ∧
            (e, outcome sample_outcomes e) ∈ log ∧ usec_normal e2.trigger_tm) :=
  ⟨by decide, by decide, by decide, by decide,
    C19_trigger_usec_normalised sample_state (by decide) (by decide)
      { tv_sec := 100, tv_usec := 999999 } sample_fresh 9 none 1 (some 7) (by decide)
      (fun t ht => by cases ht) (fun _ => by decide) sample_outcomes
      { tv_sec := 100, tv_usec := 999999 } (by decide) (by decide)⟩

/-! ## Ties: the stable sort keeps the order of the sequence -/

theorem tv_le_refl (a : timeval) : tv_le a a := by
  unfold tv_le
  omega

theorem deref_pair_sublist {heap : List (Nat × timer_event)} {ps : List Nat} {pa pb : Nat}
    {ea eb : timer_event} (h : List.Sublist [pa, pb] ps) (ha : map_find pa heap = some ea)
    (hb : map_find pb heap = some eb) :
    List.Sublist [(pa, ea), (pb, eb)] (deref_list heap ps) := by
  have h1 := List.Sublist.filterMap (fun p => (map_find p heap).map fun e => (p, e)) h
  simpa [deref_list, List.filterMap_cons, ha, hb] using h1

theorem sorted_records_stable {s : State} {a b : Nat × timer_event}
    (hab : tv_le a.2.trigger_tm b.2.trigger_tm)
    (h : List.Sublist [a, b] (deref_list s.heap s.sorted_timers)) :
    List.Sublist [a, b] (sorted_records s) := by
  unfold sorted_records stable_sort
  apply List.pair_sublist_insertionSort _ h
  exact tv_before_eq_false.2 hab

theorem log_pair_sublist {s : State} (o : Outcomes) (T : timeval) {a b : Nat × timer_event}
    (h : List.Sublist [a, b] (sorted_records s)) (ha : due T a.2) (hb : due T b.2) :
    List.Sublist [(a.2, outcome o a.2), (b.2, outcome o b.2)]
      (((sorted_records s).filter (fun pe => decide (due T pe.2))).map
        (fun pe => (pe.2, outcome o pe.2))) := by
  have h1 := List.Sublist.filter (fun pe : Nat × timer_event => decide (due T pe.2)) h
  rw [List.filter_cons_of_pos (by simpa using ha),
    List.filter_cons_of_pos (by simpa using hb), List.filter_nil] at h1
  exact h1.map (fun pe => (pe.2, outcome o pe.2))

/-- Two due records of a well-formed registry, the first before the second in
`sorted_timers` and not due after it, are fired in this order. -/
theorem Tick_pure_pair {s : State} (hwf : WF s) (o : Outcomes) (T : timeval) {pa pb : Nat}
    {ea eb : timer_event} (hsub : List.Sublist [pa, pb] s.sorted_timers)
    (hea : map_find pa s.heap = some ea) (heb : map_find pb s.heap = some eb)
    (hle : tv_le ea.trigger_tm eb.trigger_tm) (hda : due T ea) (hdb : due T eb) :
    ∃ s2 log, Tick (pure_actions o) T s = some (s2, log, 1) ∧ WF s2 ∧
      List.Sublist [(ea, outcome o ea), (eb, outcome o eb)] log ∧
      (log.map (fun x => x.1.timer_id)).Nodup := by
  obtain ⟨s2, h1, hw2, _⟩ := Tick_pure_final hwf o T
  have hlog : loop_log o (visited T (sorted_records s)) = _ :=
    loop_log_sorted o T (sorted_records s) (stable_sort_sorted _)
  rw [hlog] at h1
  refine ⟨s2, _, h1, hw2, ?_, ?_⟩
  swap
  · rw [List.map_map]
    exact ((List.filter_sublist _).map _).nodup (sorted_records_ids_nodup hwf)
  have h2 : List.Sublist [(pa, ea), (pb, eb)] (sorted_records s) :=
    @sorted_records_stable s (pa, ea) (pb, eb) hle (deref_pair_sublist hsub hea heb)
  exact @log_pair_sublist s o T (pa, ea) (pb, eb) h2 hda hdb

/-- C16, as stated, fails: the timer with id 0 is registered with the absolute
trigger 110 s, the recurring timer with id 1 with an interval of 50 timeslices
at 100 s; the `Tick` at 105 s fires id 1 and reschedules it to 110 s; the `Tick`
at 110 s then fires two records with the same `trigger_tm`, id 1 before id 0. -/
theorem C16_rescheduled_tie_fires_later_id_first :
    (run [Op.register_event { tv_sec := 100, tv_usec := 0 } sample_fresh 0
            (some { tv_sec := 110, tv_usec := 0 }) 0 (some 7),
          Op.register_event { tv_sec := 100, tv_usec := 0 } sample_fresh 50 none 1 (some 8),
          Op.tick sample_outcomes { tv_sec := 105, tv_usec := 0 },
          Op.tick sample_outcomes { tv_sec := 110, tv_usec := 0 }]
        (Timetracker { tv_sec := 100, tv_usec := 0 })).map
      (fun r => (returned_ids r.2, fired_per_tick r.2)) =
      some ([0, 1],
        [[(1, { tv_sec := 105, tv_usec := 0 })],
         [(1, { tv_sec := 110, tv_usec := 0 }), (0, { tv_sec := 110, tv_usec := 0 })]]) := by
  decide

/-! ## Two registrations with the same absolute trigger time -/

theorem step_registers_at {T : timeval} {op : Op} (h : registers_at T op) :
    ∃ f : Int → timer_event,
      (∀ id, (f id).timer_id = id ∧ (f id).trigger_tm = T ∧ (f id).timer_cancelled = false) ∧
      ∀ s : State, step op s =
        (insert_timer (f s.next_timer_id) { s with next_timer_id := s.next_timer_id + 1 }).map
          (fun r => (r.1, Out.registered r.2)) := by
  cases op with
  | register now fresh n tr rec cb parm =>
    cases tr with
    | none => exact absurd h (by simp [registers_at])
    | some t =>
      obtain ⟨h1, h2⟩ : t = T ∧ fresh.timer_cancelled = false := h
      subst h1
      exact ⟨fun id => new_timer_callback now fresh n (some t) rec cb parm id,
        fun id => ⟨rfl, rfl, h2⟩, fun s => rfl⟩
  | register_event now fresh n tr rec ev =>
    cases tr with
    | none => exact absurd h (by simp [registers_at])
    | some t =>
      have h1 : t = T := h
      subst h1
      exact ⟨fun id => new_timer_event now fresh n (some t) rec ev id,
        fun id => ⟨rfl, rfl, rfl⟩, fun s => rfl⟩
  | register_func now fresh n tr rec ev =>
    cases tr with
    | none => exact absurd h (by simp [registers_at])
    | some t =>
      have h1 : t = T := h
      subst h1
      exact ⟨fun id => new_timer_func now fresh n (some t) rec ev id,
        fun id => ⟨rfl, rfl, rfl⟩, fun s => rfl⟩
  | remove id => exact absurd h (by simp [registers_at])
  | tick o T2 => exact absurd h (by simp [registers_at])

/-- C13 (equal trigger times fire in registration order).  On a well-formed
registry whose keys are below the id counter, two registrations one after the
other, by any of the three variants, with the same absolute trigger time `T`
and records that are not cancelled, followed by a `Tick` at captured time `T`:
the three calls return, the registrations return the id counter and the id
counter plus one, and the `Tick` fires both records, each once, the one with the
smaller id first. -/
theorem C13_equal_triggers_fire_in_registration_order (s : State) (hwf : WF s)
    (hib : ids_below s) (T : timeval) (opA opB : Op) (hA : registers_at T opA)
    (hB : registers_at T opB) (o : Outcomes) :
    ∃ s3 log, run [opA, opB, Op.tick o T] s =
        some (s3, [Out.registered s.next_timer_id, Out.registered (s.next_timer_id + 1),
          Out.ticked log 1]) ∧
      List.Sublist [s.next_timer_id, s.next_timer_id + 1] (log.map (fun x => x.1.timer_id)) ∧
      (log.map (fun x => x.1.timer_id)).Nodup := by
  obtain ⟨fA, hfA, hstepA⟩ := step_registers_at hA
  obtain ⟨fB, hfB, hstepB⟩ := step_registers_at hB
  obtain ⟨hA1, hA2, hA3⟩ := hfA s.next_timer_id
  -- the first registration
  obtain ⟨s1, hins1, hwf1, hib1, hn1, _, _, _, hheap1, hperm1⟩ :=
    insert_timer_wf hwf hib (fA s.next_timer_id) hA1
  have hpA : alloc s.heap ∈ s1.sorted_timers := by
    rw [hperm1.mem_iff]
    simp
  have hfindA : map_find (alloc s.heap) s1.heap = some (fA s.next_timer_id) := by
    rw [hheap1, if_pos rfl]
  -- the second registration
  obtain ⟨hB1, hB2, hB3⟩ := hfB s1.next_timer_id
  obtain ⟨_, hwi, hins2⟩ := insert_timer_eq hwf1 hib1 (fB s1.next_timer_id) hB1
  have hne : alloc s1.heap ≠ alloc s.heap := by
    intro heq
    rw [← heq, map_find_alloc] at hfindA
    cases hfindA
  have hsub1 : List.Sublist [alloc s.heap, alloc s1.heap]
      (inserted (fB s1.next_timer_id)
        { s1 with next_timer_id := s1.next_timer_id + 1 }).sorted_timers := by
    show List.Sublist ([alloc s.heap] ++ [alloc s1.heap]) (s1.sorted_timers ++ [alloc s1.heap])
    exact List.Sublist.append (List.singleton_sublist.2 hpA) (List.Sublist.refl _)
  have hfA2 : map_find (alloc s.heap)
      (inserted (fB s1.next_timer_id)
        { s1 with next_timer_id := s1.next_timer_id + 1 }).heap =
      some (fA s.next_timer_id) := by
    rw [find_inserted_heap]
    show (if alloc s1.heap = alloc s.heap then _ else map_find (alloc s.heap) s1.heap) = _
    rw [if_neg hne]
    exact hfindA
  have hfB2 : map_find (alloc s1.heap)
      (inserted (fB s1.next_timer_id)
        { s1 with next_timer_id := s1.next_timer_id + 1 }).heap =
      some (fB s1.next_timer_id) := by
    rw [find_inserted_heap]
    exact if_pos rfl
  have hle : tv_le (fA s.next_timer_id).trigger_tm (fB s1.next_timer_id).trigger_tm := by
    rw [hA2, hB2]
    exact tv_le_refl _
  have hsub2 := @sorted_records_stable _ (alloc s.heap, fA s.next_timer_id)
    (alloc s1.heap, fB s1.next_timer_id) hle (deref_pair_sublist hsub1 hfA2 hfB2)
  have hsub3 : List.Sublist [alloc s.heap, alloc s1.heap]
      (resorted (inserted (fB s1.next_timer_id)
        { s1 with next_timer_id := s1.next_timer_id + 1 })).sorted_timers :=
    hsub2.map Prod.fst
  -- the Tick
  have hdA : due T (fA s.next_timer_id) := ⟨by rw [hA2]; exact tv_le_refl _, hA3⟩
  have hdB : due T (fB s1.next_timer_id) := ⟨by rw [hB2]; exact tv_le_refl _, hB3⟩
  obtain ⟨s3, log, ht, _, hlog, hnd⟩ := Tick_pure_pair (WF_resort hwi) o T hsub3 hfA2 hfB2 hle
    hdA hdB
  have e1 : step opA s = some (s1, Out.registered s.next_timer_id) := by
    rw [hstepA, hins1]
    rfl
  have e2 : step opB s1 = some (resorted (inserted (fB s1.next_timer_id)
      { s1 with next_timer_id := s1.next_timer_id + 1 }),
      Out.registered (s.next_timer_id + 1)) := by
    rw [hstepB, hins2, hn1]
    rfl
  have e3 : step (Op.tick o T) (resorted (inserted (fB s1.next_timer_id)
      { s1 with next_timer_id := s1.next_timer_id + 1 })) = some (s3, Out.ticked log 1) := by
    simp only [step, ht, Option.map_some']
  refine ⟨s3, log, ?_, ?_, hnd⟩
  · simp only [run, e1, e2, e3, Option.some_bind, Option.map_some']
  · have h5 := hlog.map (fun x : timer_event × Int => x.1.timer_id)
    simp only [List.map_cons, List.map_nil, hA1, hB1] at h5
    rw [hn1] at h5
    exact h5

/-- C13, at the sample registry: the event-handle variant and then the
function-pointer variant register a timer for 150 s, and a `Tick` at 150 s
follows. -/
theorem C13_equal_triggers_fire_in_registration_order_witness :
    WF sample_state ∧ ids_below sample_state ∧
    ∃ s3 log,
      run [Op.register_event { tv_sec := 101, tv_usec := 0 } sample_fresh 0
              (some { tv_sec := 150, tv_usec := 0 }) 0 (some 7),
            Op.register { tv_sec := 102, tv_usec := 0 } sample_fresh 0
              (some { tv_sec := 150, tv_usec := 0 }) 0 (some 3) 0,
            Op.tick sample_outcomes { tv_sec := 150, tv_usec := 0 }] sample_state =
        some (s3, [Out.registered sample_state.next_timer_id,
          Out.registered (sample_state.next_timer_id + 1), Out.ticked log 1]) ∧
      List.Sublist [sample_state.next_timer_id, sample_state.next_timer_id + 1]
        (log.map (fun x => x.1.timer_id)) ∧
      (log.map (fun x => x.1.timer_id)).Nodup :=
  ⟨by decide, by decide,
    C13_equal_triggers_fire_in_registration_order sample_state (by decide) (by decide)
      { tv_sec := 150, tv_usec := 0 }
      (Op.register_event { tv_sec := 101, tv_usec := 0 } sample_fresh 0
        (some { tv_sec := 150, tv_usec := 0 }) 0 (some 7))
      (Op.register { tv_sec := 102, tv_usec := 0 } sample_fresh 0
        (some { tv_sec := 150, tv_usec := 0 }) 0 (some 3) 0)
      rfl ⟨rfl, rfl⟩ sample_outcomes⟩

/-- C14 fails on the code: a recurring timer with an interval of 1 timeslice is
registered by the event-handle variant at t0 = 100.899999 s, its action always
returns 1, and N = 1 `Tick` follows at t0 plus one timeslice, 100.999999 s.  The
registration has set `trigger_tm` to 101.999999 s, so the `Tick` fires nothing
and the `trigger_tm` is still 101.999999 s. -/
theorem C14_first_pass_fires_nothing :
    (run [Op.register_event { tv_sec := 100, tv_usec := 899999 } sample_fresh 1 none 1 (some 7),
          Op.tick sample_outcomes { tv_sec := 100, tv_usec := 999999 }]
        (Timetracker { tv_sec := 100, tv_usec := 0 })).map
      (fun r => (fired_per_tick r.2, (records r.1).map timer_event.trigger_tm)) =
      some ([[]], [{ tv_sec := 101, tv_usec := 999999 }]) ∧
    tv_micros { tv_sec := 100, tv_usec := 899999 } + 1 * (1000000 / SERVER_TIMESLICES_SEC) =
      tv_micros { tv_sec := 100, tv_usec := 999999 } := by
  decide

/-! ## The locks held when `Tick` erases -/

theorem cleanup_erases_fst (held : List Mutex) :
    ∀ (q : List Int) (s : State),
      (cleanup_erases held q s).map Prod.fst = cleanup q s := by
  intro q
  induction q with
  | nil => intro s; rfl
  | cons x xs ih =>
    intro s
    unfold cleanup_erases cleanup
    cases hf : map_find x s.timer_map with
    | none =>
      simp only [cleanup_one, hf, Option.some_bind]
      exact ih s
    | some p =>
      cases hc : cleanup_one x s with
      | none => rfl
      | some s1 =>
        simp only [Option.some_bind, Option.map_map]
        rw [← ih s1]
        cases cleanup_erases held xs s1 <;> rfl

theorem cleanup_erases_held (held : List Mutex) :
    ∀ (q : List Int) (s : State) (r : State × List (Int × List Mutex)),
      cleanup_erases held q s = some r → ∀ x ∈ r.2, x.2 = held := by
  intro q
  induction q with
  | nil =>
    intro s r h x hx
    simp only [cleanup_erases, Option.some.injEq] at h
    subst h
    simp at hx
  | cons y ys ih =>
    intro s r h x hx
    unfold cleanup_erases at h
    cases hf : map_find y s.timer_map with
    | none =>
      simp only [hf] at h
      exact ih s r h x hx
    | some p =>
      simp only [hf] at h
      cases hc : cleanup_one y s with
      | none =>
        rw [hc] at h
        cases h
      | some s1 =>
        rw [hc, Option.some_bind] at h
        cases hr : cleanup_erases held ys s1 with
        | none =>
          rw [hr] at h
          cases h
        | some r1 =>
          rw [hr] at h
          simp only [Option.map_some', Option.some.injEq] at h
          subst h
          rcases List.mem_cons.1 hx with h1 | h1
          · rw [h1]
          · exact ih s1 r1 hr x h1

/-- The instrumented `Tick` computes the state of `Tick`. -/
theorem Tick_erases_fst (acts : Actions) (T : timeval) (held : List Mutex) (s : State) :
    (Tick_erases acts T held s).map Prod.fst = (Tick acts T s).map Prod.fst := by
  unfold Tick_erases Tick
  cases sort_timers { s with timestamp := { tv_sec := T.tv_sec, tv_usec := T.tv_usec } } with
  | none => rfl
  | some s1 =>
    simp only [Option.some_bind]
    cases tick_loop acts T s1.sorted_timers s1 [] with
    | none => rfl
    | some r =>
      simp only [Option.some_bind, Option.map_map]
      rw [← cleanup_erases_fst
        (acquire Mutex.removed_id_mutex (release Mutex.time_mutex (acquire Mutex.time_mutex held)))
        r.1.removed_timer_ids r.1]
      cases cleanup_erases
        (acquire Mutex.removed_id_mutex (release Mutex.time_mutex (acquire Mutex.time_mutex held)))
        r.1.removed_timer_ids r.1 <;> rfl

/-- Whatever the actions and the registry, every erase of a `Tick` called with
no mutex held is done while `removed_id_mutex` alone is held. -/
theorem Tick_erases_held (acts : Actions) (T : timeval) (s : State)
    (r : State × List (Int × List Mutex)) (h : Tick_erases acts T [] s = some r) :
    ∀ x ∈ r.2, x.2 = [Mutex.removed_id_mutex] ∧ Mutex.time_mutex ∉ x.2 := by
  unfold Tick_erases at h
  cases hs : sort_timers
      { s with timestamp := { tv_sec := T.tv_sec, tv_usec := T.tv_usec } } with
  | none =>
    rw [hs] at h
    cases h
  | some s1 =>
    rw [hs, Option.some_bind] at h
    cases hl : tick_loop acts T s1.sorted_timers s1 [] with
    | none =>
      rw [hl] at h
      cases h
    | some r1 =>
      rw [hl, Option.some_bind] at h
      have hheld : acquire Mutex.removed_id_mutex
          (release Mutex.time_mutex (acquire Mutex.time_mutex [])) =
          [Mutex.removed_id_mutex] := by decide
      simp only [hheld] at h
      cases hc : cleanup_erases [Mutex.removed_id_mutex] r1.1.removed_timer_ids r1.1 with
      | none =>
        rw [hc] at h
        cases h
      | some q =>
        rw [hc] at h
        simp only [Option.map_some', Option.some.injEq] at h
        subst h
        intro x hx
        have := cleanup_erases_held _ _ _ _ hc x hx
        rw [this]
        exact ⟨rfl, by decide⟩

/-- C17 fails on the code: `Tick` at 100.5 s on the sample registry, called with
no mutex held, erases the one-shot timer with id 1 from `timer_map` and
`sorted_timers` while it holds `removed_id_mutex` only; `time_mutex`, released
at line 60, is not held. -/
theorem C17_cleanup_erases_without_time_mutex :
    (Tick_erases (pure_actions sample_outcomes) { tv_sec := 100, tv_usec := 500000 } []
        sample_state).map Prod.snd = some [(1, [Mutex.removed_id_mutex])] ∧
    Mutex.time_mutex ∉ [Mutex.removed_id_mutex] ∧
    map_find (1 : Int) sample_state.timer_map = some 2 ∧
    (Tick (pure_actions sample_outcomes) { tv_sec := 100, tv_usec := 500000 }
        sample_state).map (fun r => (r.1.timer_map, r.1.sorted_timers)) =
      some ([(0, 1), (2, 3)], [1, 3]) := by
  decide

/-! ## The dispatch loop with actions that cancel timers -/

theorem invoke_cancelling (o : Outcomes) (c : Cancels) (e : timer_event) (s : State) :
    invoke (cancelling_actions o c) e s = (remove_all (cancel_list c e) s, outcome o e) := by
  unfold invoke outcome cancel_list cancelling_actions
  cases e.callback with
  | some f => rfl
  | none =>
    cases e.event with
    | some h => rfl
    | none =>
      cases e.event_func with
      | some g => rfl
      | none => rfl

theorem flags_only_refl (s : State) : flags_only s s :=
  ⟨rfl, rfl, fun _ e he => ⟨e, he, rfl, fun h => h⟩, fun _ hx => hx⟩

theorem flags_only_trans {s1 s2 s3 : State} (h12 : flags_only s1 s2) (h23 : flags_only s2 s3) :
    flags_only s1 s3 := by
  obtain ⟨a1, a2, a3, a4⟩ := h12
  obtain ⟨b1, b2, b3, b4⟩ := h23
  refine ⟨b1.trans a1, b2.trans a2, fun p e he => ?_, fun x hx => b4 x (a4 x hx)⟩
  obtain ⟨e2, he2, hid2, hc2⟩ := a3 p e he
  obtain ⟨e3, he3, hid3, hc3⟩ := b3 p e2 he2
  exact ⟨e3, he3, hid3.trans hid2, fun h => hc3 (hc2 h)⟩

theorem WF_of_flags_only {s s2 : State} (hwf : WF s) (h : flags_only s s2) : WF s2 := by
  obtain ⟨a1, a2, a3, _⟩ := h
  apply WF_intro
  · intro id p hf
    rw [a1] at hf
    obtain ⟨hp, e, he, hid⟩ := WF_map hwf hf
    obtain ⟨e2, he2, hid2, _⟩ := a3 p e he
    rw [a2]
    exact ⟨hp, e2, he2, hid2.trans hid⟩
  · intro p hp
    rw [a2] at hp
    obtain ⟨e, he, hm⟩ := WF_sorted hwf hp
    obtain ⟨e2, he2, hid2, _⟩ := a3 p e he
    refine ⟨e2, he2, ?_⟩
    rw [a1, hid2]
    exact hm
  · rw [a2]
    exact hwf.2.2

theorem WF_addr_unique {s : State} (h : WF s) {p1 p2 : Nat} {e1 e2 : timer_event}
    (hp1 : p1 ∈ s.sorted_timers) (hp2 : p2 ∈ s.sorted_timers)
    (h1 : map_find p1 s.heap = some e1) (h2 : map_find p2 s.heap = some e2)
    (hid : e1.timer_id = e2.timer_id) : p1 = p2 := by
  obtain ⟨a1, ha1, hm1⟩ := WF_sorted h hp1
  obtain ⟨a2, ha2, hm2⟩ := WF_sorted h hp2
  rw [h1] at ha1
  rw [h2] at ha2
  cases ha1
  cases ha2
  rw [hid, hm2] at hm1
  exact (Option.some.inj hm1).symm

/-- One `RemoveTimer` call of an action on a well-formed registry. -/
theorem remove_one_spec {s : State} (hwf : WF s) (id : Int) :
    flags_only s (((RemoveTimer id s).map Prod.fst).getD s) ∧
      ∀ p, map_find id s.timer_map = some p →
        id ∈ (((RemoveTimer id s).map Prod.fst).getD s).removed_timer_ids ∧
        ∃ e2, map_find p (((RemoveTimer id s).map Prod.fst).getD s).heap = some e2 ∧
          e2.timer_cancelled = true := by
  cases hf : map_find id s.timer_map with
  | none =>
    rw [RemoveTimer_absent id s hf]
    exact ⟨flags_only_refl s, fun p hp => by cases hp⟩
  | some p =>
    obtain ⟨e, he, _, _, hr⟩ := RemoveTimer_present hwf id p hf
    rw [hr]
    show flags_only s (cancel_at p e id s) ∧ _
    refine ⟨⟨rfl, rfl, fun q e2 he2 => ?_, fun x hx => ?_⟩, fun q hq => ?_⟩
    · by_cases hpq : p = q
      · subst hpq
        rw [he] at he2
        cases he2
        exact ⟨{ e with timer_cancelled := true }, by rw [find_cancel_at, if_pos rfl], rfl,
          fun _ => rfl⟩
      · exact ⟨e2, by rw [find_cancel_at, if_neg hpq]; exact he2, rfl, fun h => h⟩
    · show x ∈ s.removed_timer_ids ++ [id]
      simp [hx]
    · cases hq
      refine ⟨?_, { e with timer_cancelled := true }, ?_, rfl⟩
      · show id ∈ s.removed_timer_ids ++ [id]
        simp
      · show map_find p (cancel_at p e id s).heap = _
        rw [find_cancel_at, if_pos rfl]

/-- The `RemoveTimer` calls of an action on a well-formed registry: only flags
are set, and every id of the list that is a key of `timer_map` is queued and its
record flagged. -/
theorem remove_all_spec : ∀ (ids : List Int) (s : State), WF s →
    flags_only s (remove_all ids s) ∧
      ∀ id ∈ ids, ∀ p, map_find id s.timer_map = some p →
        id ∈ (remove_all ids s).removed_timer_ids ∧
        ∃ e2, map_find p (remove_all ids s).heap = some e2 ∧ e2.timer_cancelled = true := by
  intro ids
  induction ids with
  | nil =>
    intro s _
    exact ⟨flags_only_refl s, fun id hid => by simp at hid⟩
  | cons x xs ih =>
    intro s hwf
    obtain ⟨h1, h2⟩ := remove_one_spec hwf x
    have hwf1 := WF_of_flags_only hwf h1
    obtain ⟨h3, h4⟩ := ih _ hwf1
    refine ⟨flags_only_trans h1 h3, fun id hid p hp => ?_⟩
    show id ∈ (remove_all xs (((RemoveTimer x s).map Prod.fst).getD s)).removed_timer_ids ∧
      ∃ e2, map_find p (remove_all xs (((RemoveTimer x s).map Prod.fst).getD s)).heap = some e2 ∧
        e2.timer_cancelled = true
    rcases List.mem_cons.1 hid with h5 | h5
    · subst h5
      obtain ⟨h6, e2, he2, hc2⟩ := h2 p hp
      obtain ⟨e3, he3, _, hc3⟩ := h3.2.2.1 p e2 he2
      exact ⟨h3.2.2.2 _ h6, e3, he3, hc3 hc2⟩
    · have hp1 : map_find id (((RemoveTimer x s).map Prod.fst).getD s).timer_map = some p := by
        rw [h1.1]
        exact hp
      exact h4 id h5 p hp1

theorem flags_only_push (s : State) (x : Int) :
    flags_only s { s with removed_timer_ids := s.removed_timer_ids ++ [x] } :=
  ⟨rfl, rfl, fun _ e he => ⟨e, he, rfl, fun h => h⟩, fun y hy => by
    show y ∈ s.removed_timer_ids ++ [x]
    simp [hy]⟩

theorem flags_only_resched (s : State) (p : Nat) (e2 : timer_event) (T : timeval)
    (h : map_find p s.heap = some e2) :
    flags_only s { s with heap := map_assign p (reschedule T e2) s.heap } := by
  refine ⟨rfl, rfl, fun q e he => ?_, fun _ hy => hy⟩
  show ∃ e3, map_find q (map_assign p (reschedule T e2) s.heap) = some e3 ∧ _
  rw [map_find_assign]
  by_cases hpq : p = q
  · subst hpq
    rw [h] at he
    cases he
    exact ⟨reschedule T e2, by rw [if_pos rfl], rfl, fun hc => hc⟩
  · exact ⟨e, by rw [if_neg hpq]; exact he, rfl, fun hc => hc⟩

/-- One step of the loop: the record `evt` at the head address `p` was skipped
(`entry` is empty) or fired (`entry` holds it), the registry went from `s` to
`sb`, and the rest of the loop from `sb` to `s2`. -/
theorem loop_cancels_step (o : Outcomes) (c : Cancels) {p : Nat} {rest : List Nat}
    {s sb s2 : State} {evt : timer_event} {entry log3 : List (timer_event × Int)}
    (hwf : WF s) (hp : p ∈ s.sorted_timers) (hevt : map_find p s.heap = some evt)
    (hrest : ∀ q ∈ rest, q ∈ s.sorted_timers) (hpn : p ∉ rest)
    (hsb : flags_only s sb)
    (hentry : entry = [] ∨
      (entry = [(evt, outcome o evt)] ∧ evt.timer_cancelled = false ∧
        ∀ pb eb, pb ∈ rest → map_find pb s.heap = some eb →
          eb.timer_id ∈ cancel_list c evt →
          eb.timer_id ∈ sb.removed_timer_ids ∧
            ∃ e2, map_find pb sb.heap = some e2 ∧ e2.timer_cancelled = true))
    (hih : loop_cancels_ok c rest sb s2 log3) :
    loop_cancels_ok c (p :: rest) s s2 (entry ++ log3) := by
  obtain ⟨hf3, hF1, hF2⟩ := hih
  have hwfb : WF sb := WF_of_flags_only hwf hsb
  have hsorted : sb.sorted_timers = s.sorted_timers := hsb.2.1
  -- a record fired by the rest of the loop stands at an address of the rest in `s`
  have back : ∀ x ∈ log3, ∃ q ∈ rest, ∃ e0 e1, map_find q s.heap = some e0 ∧
      map_find q sb.heap = some e1 ∧ e0.timer_id = x.1.timer_id ∧
      e0.timer_cancelled = false ∧ e1.timer_cancelled = false := by
    intro x hx
    obtain ⟨q, hq, e1, he1, hid1, hc1⟩ := hF1 x hx
    obtain ⟨e0, he0, _⟩ := WF_sorted hwf (hrest q hq)
    obtain ⟨e2, he2, hid2, hc2⟩ := hsb.2.2.1 q e0 he0
    rw [he1] at he2
    cases he2
    refine ⟨q, hq, e0, e1, he0, he1, hid2.symm.trans hid1, ?_, hc1⟩
    cases h0 : e0.timer_cancelled with
    | false => rfl
    | true =>
      have := hc2 h0
      rw [hc1] at this
      cases this
  have entry_mem : ∀ x ∈ entry, x.1 = evt ∧ evt.timer_cancelled = false := by
    intro x hx
    rcases hentry with h0 | ⟨h1, h2, _⟩
    · rw [h0] at hx
      simp at hx
    · rw [h1] at hx
      simp only [List.mem_singleton] at hx
      rw [hx]
      exact ⟨rfl, h2⟩
  refine ⟨flags_only_trans hsb hf3, ?_, ?_⟩
  · intro x hx
    rcases List.mem_append.1 hx with h1 | h1
    · obtain ⟨h2, h3⟩ := entry_mem x h1
      exact ⟨p, List.mem_cons_self _ _, evt, hevt, by rw [h2], h3⟩
    · obtain ⟨q, hq, e0, _, he0, _, hid0, hc0, _⟩ := back x h1
      exact ⟨q, List.mem_cons_of_mem _ hq, e0, he0, hid0, hc0⟩
  · intro pa pb ea eb hsub hea heb hx
    obtain ⟨x, hx, hxid, hxc⟩ := hx
    -- the record at `pb` is not the one at `p`
    have not_head : pb ∈ rest → eb.timer_id ≠ evt.timer_id := by
      intro hpb heq
      have := WF_addr_unique hwf (hrest pb hpb) hp heb hevt heq
      rw [this] at hpb
      exact hpn hpb
    cases hsub with
    | cons _ h =>
      have hpa : pa ∈ rest := h.subset (by simp)
      have hpb : pb ∈ rest := h.subset (by simp)
      have hx3 : x ∈ log3 := by
        rcases List.mem_append.1 hx with h1 | h1
        · exfalso
          obtain ⟨h2, _⟩ := entry_mem x h1
          rw [h2] at hxid
          have := WF_addr_unique hwf hp (hrest pa hpa) hevt hea hxid
          rw [← this] at hpa
          exact hpn hpa
        · exact h1
      obtain ⟨ea2, hea2, hida, _⟩ := hsb.2.2.1 pa ea hea
      obtain ⟨eb2, heb2, hidb, _⟩ := hsb.2.2.1 pb eb heb
      have h4 := hF2 pa pb ea2 eb2 h hea2 heb2
        ⟨x, hx3, by rw [hida]; exact hxid, by rw [hidb]; exact hxc⟩
      rw [hidb] at h4
      refine ⟨?_, h4.2⟩
      rw [List.map_append, List.mem_append]
      rintro (h5 | h5)
      · obtain ⟨y, hy, hyid⟩ := List.mem_map.1 h5
        obtain ⟨h6, _⟩ := entry_mem y hy
        rw [h6] at hyid
        exact not_head hpb hyid.symm
      · exact h4.1 h5
    | cons₂ _ h =>
      have hpb : pb ∈ rest := h.subset (by simp)
      rw [hevt] at hea
      cases hea
      have hent : x ∈ entry := by
        rcases List.mem_append.1 hx with h1 | h1
        · exact h1
        · exfalso
          obtain ⟨q, hq, e0, _, he0, _, hid0, _, _⟩ := back x h1
          have := WF_addr_unique hwf (hrest q hq) hp he0 hevt (hid0.trans hxid)
          rw [this] at hq
          exact hpn hq
      rcases hentry with h0 | ⟨h1, _, h3⟩
      · rw [h0] at hent
        simp at hent
      · obtain ⟨h2, _⟩ := entry_mem x hent
        rw [h2] at hxc
        obtain ⟨hq1, e2, he2, hc2⟩ := h3 pb eb hpb heb hxc
        refine ⟨?_, hf3.2.2.2 _ hq1⟩
        rw [List.map_append, List.mem_append]
        rintro (h5 | h5)
        · obtain ⟨y, hy, hyid⟩ := List.mem_map.1 h5
          obtain ⟨h6, _⟩ := entry_mem y hy
          rw [h6] at hyid
          exact not_head hpb hyid.symm
        · obtain ⟨y, hy, hyid⟩ := List.mem_map.1 h5
          obtain ⟨q, hq, e0, e1, he0, he1, hid0, _, hc1⟩ := back y hy
          have hqb : q = pb :=
            WF_addr_unique hwf (hrest q hq) (hrest pb hpb) he0 heb (hid0.trans hyid)
          rw [hqb, he2] at he1
          cases he1
          rw [hc2] at hc1
          cases hc1

/-- The loop of `Tick` with cancelling actions on a well-formed registry, over
distinct addresses of `sorted_timers`: it ends, and `loop_cancels_ok` holds. -/
theorem tick_loop_cancelling (o : Outcomes) (c : Cancels) (T : timeval) :
    ∀ (ps : List Nat) (s : State) (log : List (timer_event × Int)),
      WF s → (∀ p ∈ ps, p ∈ s.sorted_timers) → ps.Nodup →
      ∃ s2 log2, tick_loop (cancelling_actions o c) T ps s log = some (s2, log ++ log2) ∧
        loop_cancels_ok c ps s s2 log2 := by
  intro ps
  induction ps with
  | nil =>
    intro s log _ _ _
    refine ⟨s, [], by simp [tick_loop], flags_only_refl s, fun x hx => by simp at hx, ?_⟩
    intro pa pb ea eb hsub
    simp at hsub
  | cons p rest ih =>
    intro s log hwf hps hnd
    have hp : p ∈ s.sorted_timers := hps p (List.mem_cons_self _ _)
    have hrest : ∀ q ∈ rest, q ∈ s.sorted_timers :=
      fun q hq => hps q (List.mem_cons_of_mem _ hq)
    have hpn : p ∉ rest := (List.nodup_cons.1 hnd).1
    have hnd2 : rest.Nodup := (List.nodup_cons.1 hnd).2
    obtain ⟨evt, hevt, _⟩ := WF_sorted hwf hp
    -- the rest of the loop from a state `sb` reached by the head step
    have cont : ∀ (sb : State) (entry : List (timer_event × Int)), flags_only s sb →
        (entry = [] ∨
          (entry = [(evt, outcome o evt)] ∧ evt.timer_cancelled = false ∧
            ∀ pb eb, pb ∈ rest → map_find pb s.heap = some eb →
              eb.timer_id ∈ cancel_list c evt →
              eb.timer_id ∈ sb.removed_timer_ids ∧
                ∃ e2, map_find pb sb.heap = some e2 ∧ e2.timer_cancelled = true)) →
        ∃ s2 log2, tick_loop (cancelling_actions o c) T rest sb (log ++ entry) =
            some (s2, log ++ log2) ∧ loop_cancels_ok c (p :: rest) s s2 log2 := by
      intro sb entry hsb hentry
      have hwfb : WF sb := WF_of_flags_only hwf hsb
      have hrestb : ∀ q ∈ rest, q ∈ sb.sorted_timers := by
        intro q hq
        rw [hsb.2.1]
        exact hrest q hq
      obtain ⟨s2, log3, hl, hok⟩ := ih sb (log ++ entry) hwfb hrestb hnd2
      refine ⟨s2, entry ++ log3, ?_, loop_cancels_step o c hwf hp hevt hrest hpn hsb hentry hok⟩
      rw [hl, List.append_assoc]
    simp only [tick_loop, hevt]
    by_cases hc : evt.timer_cancelled = true
    · rw [if_pos hc]
      have h1 := cont { s with removed_timer_ids := s.removed_timer_ids ++ [evt.timer_id] } []
        (flags_only_push s _) (Or.inl rfl)
      rw [List.append_nil] at h1
      exact h1
    · have hc2 : evt.timer_cancelled = false := by simpa using hc
      rw [if_neg hc]
      by_cases hf : tv_before T evt.trigger_tm = true
      · rw [if_pos hf]
        refine ⟨s, [], by simp, flags_only_refl s, fun x hx => by simp at hx, ?_⟩
        intro pa pb ea eb _ _ _ hx
        obtain ⟨x, hx, _⟩ := hx
        simp at hx
      · rw [if_neg hf]
        simp only [invoke_cancelling]
        obtain ⟨hfa, hca⟩ := remove_all_spec (cancel_list c evt) s hwf
        have hwfa : WF (remove_all (cancel_list c evt) s) := WF_of_flags_only hwf hfa
        -- what the action has done to a later record whose id it cancelled
        have hcanc : ∀ sb : State, flags_only (remove_all (cancel_list c evt) s) sb →
            ∀ pb eb, pb ∈ rest → map_find pb s.heap = some eb →
              eb.timer_id ∈ cancel_list c evt →
              eb.timer_id ∈ sb.removed_timer_ids ∧
                ∃ e2, map_find pb sb.heap = some e2 ∧ e2.timer_cancelled = true := by
          intro sb hsb pb eb hpb heb hin
          obtain ⟨e0, he0, hm0⟩ := WF_sorted hwf (hrest pb hpb)
          rw [heb] at he0
          cases he0
          obtain ⟨hq, e2, he2, hc2'⟩ := hca _ hin pb hm0
          obtain ⟨e3, he3, _, hc3⟩ := hsb.2.2.1 pb e2 he2
          exact ⟨hsb.2.2.2 _ hq, e3, he3, hc3 hc2'⟩
        obtain ⟨ea2, hea2, _, _⟩ := hfa.2.2.1 p evt hevt
        by_cases hr : 0 < outcome o evt
        · rw [if_pos hr]
          simp only [hea2]
          by_cases hk : ea2.timeslices ≠ -1 ∧ ea2.recurring ≠ 0
          · rw [if_pos hk]
            have hsb := flags_only_resched (remove_all (cancel_list c evt) s) p ea2 T hea2
            exact cont _ [(evt, outcome o evt)] (flags_only_trans hfa hsb)
              (Or.inr ⟨rfl, hc2, hcanc _ hsb⟩)
          · rw [if_neg hk]
            have hsb := flags_only_push (remove_all (cancel_list c evt) s) evt.timer_id
            exact cont _ [(evt, outcome o evt)] (flags_only_trans hfa hsb)
              (Or.inr ⟨rfl, hc2, hcanc _ hsb⟩)
        · rw [if_neg hr]
          have hsb := flags_only_push (remove_all (cancel_list c evt) s) evt.timer_id
          exact cont _ [(evt, outcome o evt)] (flags_only_trans hfa hsb)
            (Or.inr ⟨rfl, hc2, hcanc _ hsb⟩)

/-- C12 (re-entrant cancellation within a pass).  With actions that call
`RemoveTimer` on the registry, on a well-formed registry, for records A and B
with A before B in the working list of the pass: `Tick` returns 1, and when the
pass has invoked the action of A and this action has called `RemoveTimer` with
the id of B, the pass does not fire B, and after the `Tick` the id of B is
unbound in `timer_map` and carried by no record of `sorted_timers`. -/
theorem C12_cancelled_in_pass_not_fired (o : Outcomes) (c : Cancels) (T : timeval)
    (s : State) (hwf : WF s) (pa pb : Nat) (ea eb : timer_event)
    (hsub : List.Sublist [(pa, ea), (pb, eb)] (sorted_records s)) :
    ∃ s2 log, Tick (cancelling_actions o c) T s = some (s2, log, 1) ∧
      ((∃ x ∈ log, x.1.timer_id = ea.timer_id ∧ eb.timer_id ∈ cancel_list c x.1) →
        eb.timer_id ∉ log.map (fun x => x.1.timer_id) ∧
        map_find eb.timer_id s2.timer_map = none ∧
        ∀ e ∈ records s2, e.timer_id ≠ eb.timer_id) := by
  have hwf0 : WF { s with timestamp := { tv_sec := T.tv_sec, tv_usec := T.tv_usec } } := hwf
  have hsort := sort_timers_eq
    { s with timestamp := { tv_sec := T.tv_sec, tv_usec := T.tv_usec } } (WF_live hwf)
  have hwf1 : WF (resorted { s with timestamp := { tv_sec := T.tv_sec, tv_usec := T.tv_usec } }) :=
    WF_resort hwf0
  obtain ⟨sl, log, hloop, hfl, _, hF2⟩ := tick_loop_cancelling o c T
    (resorted { s with timestamp := { tv_sec := T.tv_sec, tv_usec := T.tv_usec } }).sorted_timers
    (resorted { s with timestamp := { tv_sec := T.tv_sec, tv_usec := T.tv_usec } }) []
    hwf1 (fun _ hp => hp) hwf1.2.2
  rw [List.nil_append] at hloop
  have hwfl : WF sl := WF_of_flags_only hwf1 hfl
  obtain ⟨s3, hc, _, a1, a2, _, a4, _⟩ := cleanup_spec sl.removed_timer_ids sl hwfl
  refine ⟨{ s3 with removed_timer_ids := [] }, log, ?_, ?_⟩
  · unfold Tick
    rw [hsort]
    simp only [Option.some_bind]
    change (tick_loop (cancelling_actions o c) T
      (resorted { s with timestamp := { tv_sec := T.tv_sec, tv_usec := T.tv_usec } }).sorted_timers
      (resorted { s with timestamp := { tv_sec := T.tv_sec, tv_usec := T.tv_usec } }) []).bind _ = _
    rw [hloop]
    simp only [Option.some_bind, hc, Option.map_some']
  · intro hx
    have hA : (pa, ea) ∈ sorted_records s := hsub.subset (by simp)
    have hB : (pb, eb) ∈ sorted_records s := hsub.subset (by simp)
    have hsub2 : List.Sublist [pa, pb]
        (resorted { s with timestamp := { tv_sec := T.tv_sec, tv_usec := T.tv_usec } }).sorted_timers :=
      hsub.map Prod.fst
    obtain ⟨h1, h2⟩ := hF2 pa pb ea eb hsub2 (mem_sorted_records.1 hA).2
      (mem_sorted_records.1 hB).2 hx
    refine ⟨h1, ?_, ?_⟩
    · show map_find eb.timer_id s3.timer_map = none
      rw [a1, if_pos h2]
    · intro e he heq
      obtain ⟨q, hq, hf⟩ := mem_records.1 he
      have hq3 : q ∈ s3.sorted_timers := hq
      have hf3 : map_find q s3.heap = some e := hf
      rw [a4 q hq3] at hf3
      apply ((a2 q).1 hq3).2 e hf3
      rw [heq]
      exact h2

/-- C12, at the sample registry and captured time 100.5 s: the action of the
one-shot timer with id 1, first in the working list, cancels the timer with id
0, which is due too; the pass fires id 1 only. -/
theorem C12_cancelled_in_pass_not_fired_witness :
    WF sample_state ∧
    List.Sublist [(2, sample_oneshot), (1, sample_record)] (sorted_records sample_state) ∧
    due { tv_sec := 100, tv_usec := 500000 } sample_oneshot ∧
    due { tv_sec := 100, tv_usec := 500000 } sample_record ∧
    sample_record.timer_id ∈ cancel_list sample_cancels sample_oneshot ∧
    (Tick (cancelling_actions sample_outcomes sample_cancels)
        { tv_sec := 100, tv_usec := 500000 } sample_state).map
      (fun r => r.2.1.map (fun x => x.1.timer_id)) = some [1] ∧
    ∃ s2 log, Tick (cancelling_actions sample_outcomes sample_cancels)
        { tv_sec := 100, tv_usec := 500000 } sample_state = some (s2, log, 1) ∧
      ((∃ x ∈ log, x.1.timer_id = sample_oneshot.timer_id ∧
          sample_record.timer_id ∈ cancel_list sample_cancels x.1) →
        sample_record.timer_id ∉ log.map (fun x => x.1.timer_id) ∧
        map_find sample_record.timer_id s2.timer_map = none ∧
        ∀ e ∈ records s2, e.timer_id ≠ sample_record.timer_id) :=
  ⟨by decide, by decide, by decide, by decide, by decide, by decide,
    C12_cancelled_in_pass_not_fired sample_outcomes sample_cancels
      { tv_sec := 100, tv_usec := 500000 } sample_state (by decide) 2 1 sample_oneshot
      sample_record (by decide)⟩

/-! ## Ties and registration order -/

theorem pairwise_orderedInsert {α : Type} (r : α → α → Prop) [DecidableRel r]
    (P : α → α → Prop) (a : α) (hP : ∀ b, ¬ r a b → P b a) :
    ∀ l : List α, (∀ b ∈ l, P a b) → l.Pairwise P → (l.orderedInsert r a).Pairwise P := by
  intro l
  induction l with
  | nil =>
    intro _ _
    simp
  | cons b l ih =>
    intro hall hpw
    rw [List.pairwise_cons] at hpw
    by_cases hab : r a b
    · rw [List.orderedInsert, if_pos hab]
      exact List.pairwise_cons.2 ⟨hall, List.pairwise_cons.2 hpw⟩
    · rw [List.orderedInsert, if_neg hab]
      refine List.pairwise_cons.2 ⟨fun x hx => ?_, ih (fun x hx => hall x (List.mem_cons_of_mem _ hx)) hpw.2⟩
      rcases (List.mem_orderedInsert r).1 hx with h1 | h1
      · rw [h1]
        exact hP b hab
      · exact hpw.1 x h1

theorem pairwise_insertionSort {α : Type} (r : α → α → Prop) [DecidableRel r]
    (P : α → α → Prop) (hP : ∀ a b, ¬ r a b → P b a) :
    ∀ l : List α, l.Pairwise P → (l.insertionSort r).Pairwise P := by
  intro l
  induction l with
  | nil =>
    intro _
    simp
  | cons a l ih =>
    intro hpw
    rw [List.pairwise_cons] at hpw
    rw [List.insertionSort]
    apply pairwise_orderedInsert r P a (hP a) _ _ (ih hpw.2)
    intro b hb
    exact hpw.1 b ((List.perm_insertionSort r l).subset hb)

theorem tv_before_irrefl (a b : timeval) (h : a = b) : tv_before a b = false := by
  subst h
  simp [tv_before]

/-- The stable sort of line 58 keeps ties in registration order. -/
theorem tie_order_resorted {R : List Int} {s : State} (h : tie_order R s) :
    tie_order R (resorted s) := by
  unfold tie_order at h ⊢
  rw [records_resorted, List.pairwise_map]
  rw [records_eq_deref, List.pairwise_map] at h
  unfold sorted_records stable_sort
  apply pairwise_insertionSort _ _ _ _ h
  intro a b hab heq
  exfalso
  apply hab
  show SortTimerEventsTrigger b.2 a.2 = false
  exact tv_before_irrefl _ _ heq

/-- Ties stay in registration order when addresses are erased from the ordered
sequence and every record left keeps its id and `trigger_tm` or has its id in
`R2`. -/
theorem tie_order_frame {R R2 : List Int} {s s2 : State}
    (hsub : List.Sublist s2.sorted_timers s.sorted_timers) (hR : ∀ x ∈ R, x ∈ R2)
    (hrec : ∀ p ∈ s2.sorted_timers, ∀ e2, map_find p s2.heap = some e2 →
      e2.timer_id ∈ R2 ∨
        ∃ e, map_find p s.heap = some e ∧ e.timer_id = e2.timer_id ∧
          e.trigger_tm = e2.trigger_tm)
    (h : tie_order R s) : tie_order R2 s2 := by
  unfold tie_order records at h ⊢
  rw [List.pairwise_filterMap] at h ⊢
  refine List.Pairwise.imp_of_mem ?_ (h.sublist hsub)
  intro p q hp hq hpq ea hea eb heb heq
  rcases hrec p hp ea hea with h1 | ⟨e1, he1, hid1, htr1⟩
  · exact Or.inr (Or.inl h1)
  · rcases hrec q hq eb heb with h2 | ⟨e2, he2, hid2, htr2⟩
    · exact Or.inr (Or.inr h2)
    · rw [← hid1, ← hid2]
      rcases hpq e1 he1 e2 he2 (by rw [htr1, htr2, heq]) with h3 | h3 | h3
      · exact Or.inl h3
      · exact Or.inr (Or.inl (hR _ h3))
      · exact Or.inr (Or.inr (hR _ h3))

theorem rescheduled_ids_cons (out : Out) (outs : List Out) :
    rescheduled_ids (out :: outs) = rescheduled_ids [out] ++ rescheduled_ids outs := by
  cases out <;> simp [rescheduled_ids]

/-- One call of a public operation keeps ties in registration order, but for the
records that a `Tick` reschedules. -/
theorem step_tie_order (op : Op) {s : State} (h : Inv s) {R : List Int}
    (ht : tie_order R s) :
    ∃ s2 out, step op s = some (s2, out) ∧ Inv s2 ∧
      tie_order (R ++ rescheduled_ids [out]) s2 := by
  obtain ⟨s2, out, hs, hinv, _⟩ := step_spec op h
  refine ⟨s2, out, hs, hinv, ?_⟩
  have hwf := h.1
  have hib := h.2.1
  have hreg : ∀ evt : timer_event, evt.timer_id = s.next_timer_id → ∀ r : State × Int,
      insert_timer evt { s with next_timer_id := s.next_timer_id + 1 } = some r →
      tie_order R r.1 := by
    intro evt hid r h3
    obtain ⟨_, _, heq⟩ := insert_timer_eq hwf hib evt hid
    rw [heq] at h3
    cases h3
    apply tie_order_resorted
    have hwf0 : WF { s with next_timer_id := s.next_timer_id + 1 } := hwf
    unfold tie_order
    rw [records_inserted hwf0 evt, List.pairwise_append]
    refine ⟨ht, by simp, ?_⟩
    intro a ha b hb _
    rw [List.mem_singleton] at hb
    subst hb
    left
    rw [hid]
    exact records_id_below hwf hib ha
  cases op with
  | register now fresh n tr rec cb parm =>
    simp only [step, RegisterTimer, RegisterTimer_nb, Option.map_eq_some'] at hs
    obtain ⟨r, hr, hrr⟩ := hs
    cases hrr
    simpa [rescheduled_ids] using hreg _ rfl r hr
  | register_event now fresh n tr rec ev =>
    simp only [step, RegisterTimer_event, RegisterTimer_nb_event, Option.map_eq_some'] at hs
    obtain ⟨r, hr, hrr⟩ := hs
    cases hrr
    simpa [rescheduled_ids] using hreg _ rfl r hr
  | register_func now fresh n tr rec ev =>
    simp only [step, RegisterTimer_func, RegisterTimer_nb_func, Option.map_eq_some'] at hs
    obtain ⟨r, hr, hrr⟩ := hs
    cases hrr
    simpa [rescheduled_ids] using hreg _ rfl r hr
  | remove id =>
    simp only [step, Option.map_eq_some'] at hs
    obtain ⟨r, hr, hrr⟩ := hs
    cases hrr
    rcases RemoveTimer_spec h id with ⟨_, hr2⟩ | ⟨p, e, _, he, _, _, hr2, _⟩
    · rw [hr2] at hr
      cases hr
      simpa [rescheduled_ids] using ht
    · rw [hr2] at hr
      cases hr
      refine @tie_order_frame R _ s (cancel_at p e id s) (List.Sublist.refl _)
        (fun x hx => by simp [hx]) ?_ ht
      intro q _ e2 he2
      right
      rw [find_cancel_at] at he2
      by_cases hpq : p = q
      · subst hpq
        rw [if_pos rfl] at he2
        cases he2
        exact ⟨e, he, rfl, rfl⟩
      · rw [if_neg hpq] at he2
        exact ⟨e2, he2, rfl, rfl⟩
  | tick o T =>
    obtain ⟨s3, htk, _, _, _, _, _, b3, b4⟩ := Tick_pure_final hwf o T
    simp only [step, htk, Option.map_some', Option.some.injEq, Prod.mk.injEq] at hs
    obtain ⟨hs1, hs2⟩ := hs
    subst hs1
    subst hs2
    refine @tie_order_frame R _ (resorted s) s3 b4 (fun x hx => by simp [hx]) ?_
      (tie_order_resorted ht)
    intro p hp e2 he2
    rw [b3 p hp] at he2
    rcases find_after_loop hwf o T p with h1 | ⟨e, hv, hc, hk, he, h2⟩
    · right
      rw [h1] at he2
      exact ⟨e2, he2, rfl, rfl⟩
    · left
      rw [h2] at he2
      cases he2
      apply List.mem_append_right
      simp only [rescheduled_ids, List.append_nil, List.mem_map, List.mem_filter,
        decide_eq_true_eq]
      exact ⟨(e, outcome o e), ⟨mem_loop_log.2 ⟨p, hv, hc, rfl⟩, hk⟩, rfl⟩

/-- Every run of operations keeps ties in registration order, but for the
records that its `Tick` calls reschedule. -/
theorem run_tie_order : ∀ (ops : List Op) (s : State) (R : List Int), Inv s →
    tie_order R s →
    ∃ s2 outs, run ops s = some (s2, outs) ∧ Inv s2 ∧
      tie_order (R ++ rescheduled_ids outs) s2 := by
  intro ops
  induction ops with
  | nil =>
    intro s R h ht
    exact ⟨s, [], rfl, h, by simpa [rescheduled_ids] using ht⟩
  | cons op ops ih =>
    intro s R h ht
    obtain ⟨s1, out, hs, hinv1, ht1⟩ := step_tie_order op h ht
    obtain ⟨s2, outs, hr, hinv2, ht2⟩ := ih s1 _ hinv1 ht1
    refine ⟨s2, out :: outs, ?_, hinv2, ?_⟩
    · simp only [run, hs, Option.some_bind, hr, Option.map_some']
    · rw [rescheduled_ids_cons, ← List.append_assoc]
      exact ht2

theorem pair_sublist_or {α : Type} {a b : α} (hne : a ≠ b) :
    ∀ l : List α, a ∈ l → b ∈ l → List.Sublist [a, b] l ∨ List.Sublist [b, a] l := by
  intro l
  induction l with
  | nil =>
    intro ha _
    simp at ha
  | cons x l ih =>
    intro ha hb
    rcases List.mem_cons.1 ha with h1 | h1
    · rcases List.mem_cons.1 hb with h2 | h2
      · exact absurd (h1.trans h2.symm) hne
      · left
        rw [h1]
        exact List.Sublist.cons₂ _ (List.singleton_sublist.2 h2)
    · rcases List.mem_cons.1 hb with h2 | h2
      · right
        rw [h2]
        exact List.Sublist.cons₂ _ (List.singleton_sublist.2 h1)
      · rcases ih h1 h2 with h3 | h3
        · exact Or.inl (List.Sublist.cons _ h3)
        · exact Or.inr (List.Sublist.cons _ h3)

/-- Of two records that a `Tick` fires with the same `trigger_tm`, the one fired
first has the smaller id, unless the id of one of them is in `R`. -/
theorem Tick_pure_tie_order {s : State} {R : List Int} (ht : tie_order R s)
    (o : Outcomes) (T : timeval) :
    (((sorted_records s).filter (fun pe => decide (due T pe.2))).map
        (fun pe => (pe.2, outcome o pe.2))).Pairwise
      (fun x y => x.1.trigger_tm = y.1.trigger_tm →
        x.1.timer_id < y.1.timer_id ∨ x.1.timer_id ∈ R ∨ y.1.timer_id ∈ R) := by
  have h1 := tie_order_resorted ht
  unfold tie_order at h1
  rw [records_resorted, List.pairwise_map] at h1
  rw [List.pairwise_map]
  exact h1.sublist (List.filter_sublist _)

/-- C16, amended: in every state reached from a new `Timetracker` by calls of the
three `RegisterTimer` variants, `RemoveTimer` and `Tick`, a further `Tick`
returns 1 and fires no id twice; of two records with equal `trigger_tm` that are
both due, it fires first the one that stands earlier in `sorted_timers` when the
`Tick` begins; and of two records it fires with equal `trigger_tm`, neither of
which has been rescheduled by a `Tick` of the run, it fires first the one with
the smaller id, the one registered earlier. -/
theorem C16_ties_fire_in_sequence_order (now0 : timeval) (ops : List Op) (o : Outcomes)
    (T : timeval) :
    ∃ s outs s2 log, run ops (Timetracker now0) = some (s, outs) ∧
      Tick (pure_actions o) T s = some (s2, log, 1) ∧
      (∀ pa pb ea eb, List.Sublist [pa, pb] s.sorted_timers →
        map_find pa s.heap = some ea → map_find pb s.heap = some eb →
        ea.trigger_tm = eb.trigger_tm → due T ea → due T eb →
        List.Sublist [(ea, outcome o ea), (eb, outcome o eb)] log) ∧
      (∀ x ∈ log, ∀ y ∈ log, x.1.trigger_tm = y.1.trigger_tm →
        x.1.timer_id ∉ rescheduled_ids outs → y.1.timer_id ∉ rescheduled_ids outs →
        x.1.timer_id < y.1.timer_id → List.Sublist [x, y] log) ∧
      (log.map (fun x => x.1.timer_id)).Nodup := by
  have h0 : tie_order [] (Timetracker now0) := by
    simp [tie_order, records, Timetracker]
  obtain ⟨s, outs, hrun, hinv, ht⟩ :=
    run_tie_order ops (Timetracker now0) [] (Inv_Timetracker now0) h0
  rw [List.nil_append] at ht
  have hwf := hinv.1
  obtain ⟨s2, htk⟩ := Tick_pure_log hwf o T
  refine ⟨s, outs, s2, _, hrun, htk, ?_, ?_, ?_⟩
  · intro pa pb ea eb hsub hea heb heq hda hdb
    have hle : tv_le ea.trigger_tm eb.trigger_tm := by
      rw [heq]
      exact tv_le_refl _
    have h2 : List.Sublist [(pa, ea), (pb, eb)] (sorted_records s) :=
      @sorted_records_stable s (pa, ea) (pb, eb) hle (deref_pair_sublist hsub hea heb)
    exact @log_pair_sublist s o T (pa, ea) (pb, eb) h2 hda hdb
  · intro x hx y hy heq hxr hyr hlt
    have hpw := @Tick_pure_tie_order s _ ht o T
    have hne : x ≠ y := by
      intro h
      rw [h] at hlt
      exact lt_irrefl _ hlt
    rcases pair_sublist_or hne _ hx hy with h1 | h1
    · exact h1
    · exfalso
      have h2 := hpw.sublist h1
      rw [List.pairwise_cons] at h2
      rcases h2.1 x (by simp) heq.symm with h3 | h3 | h3
      · exact lt_asymm hlt h3
      · exact hyr h3
      · exact hxr h3
  · rw [List.map_map]
    exact ((List.filter_sublist _).map _).nodup (sorted_records_ids_nodup hwf)

/-- C16 amended, at a run in which the timer with id 0 is registered with the
absolute trigger 110 s, the recurring timer with id 1 with an interval of 50
timeslices at 100 s, the timer with id 2 with the absolute trigger 110 s, and a
`Tick` at 105 s reschedules id 1 to 110 s: the `Tick` at 110 s fires id 1, which
stands first, then id 0 before id 2. -/
theorem C16_ties_fire_in_sequence_order_witness :
    (run [Op.register_event { tv_sec := 100, tv_usec := 0 } sample_fresh 0
            (some { tv_sec := 110, tv_usec := 0 }) 0 (some 7),
          Op.register_event { tv_sec := 100, tv_usec := 0 } sample_fresh 50 none 1 (some 8),
          Op.register_event { tv_sec := 100, tv_usec := 0 } sample_fresh 0
            (some { tv_sec := 110, tv_usec := 0 }) 0 (some 9),
          Op.tick sample_outcomes { tv_sec := 105, tv_usec := 0 },
          Op.tick sample_outcomes { tv_sec := 110, tv_usec := 0 }]
        (Timetracker { tv_sec := 100, tv_usec := 0 })).map
      (fun r => fired_per_tick r.2) =
      some [[(1, { tv_sec := 105, tv_usec := 0 })],
        [(1, { tv_sec := 110, tv_usec := 0 }), (0, { tv_sec := 110, tv_usec := 0 }),
          (2, { tv_sec := 110, tv_usec := 0 })]] ∧
    ∃ s outs s2 log,
      run [Op.register_event { tv_sec := 100, tv_usec := 0 } sample_fresh 0
            (some { tv_sec := 110, tv_usec := 0 }) 0 (some 7),
          Op.register_event { tv_sec := 100, tv_usec := 0 } sample_fresh 50 none 1 (some 8),
          Op.register_event { tv_sec := 100, tv_usec := 0 } sample_fresh 0
            (some { tv_sec := 110, tv_usec := 0 }) 0 (some 9),
          Op.tick sample_outcomes { tv_sec := 105, tv_usec := 0 }]
        (Timetracker { tv_sec := 100, tv_usec := 0 }) = some (s, outs) ∧
      Tick (pure_actions sample_outcomes) { tv_sec := 110, tv_usec := 0 } s =
        some (s2, log, 1) ∧
      (∀ pa pb ea eb, List.Sublist [pa, pb] s.sorted_timers →
        map_find pa s.heap = some ea → map_find pb s.heap = some eb →
        ea.trigger_tm = eb.trigger_tm → due { tv_sec := 110, tv_usec := 0 } ea →
        due { tv_sec := 110, tv_usec := 0 } eb →
        List.Sublist [(ea, outcome sample_outcomes ea), (eb, outcome sample_outcomes eb)] log) ∧
      (∀ x ∈ log, ∀ y ∈ log, x.1.trigger_tm = y.1.trigger_tm →
        x.1.timer_id ∉ rescheduled_ids outs → y.1.timer_id ∉ rescheduled_ids outs →
        x.1.timer_id < y.1.timer_id → List.Sublist [x, y] log) ∧
      (log.map (fun x => x.1.timer_id)).Nodup :=
  ⟨by decide,
    C16_ties_fire_in_sequence_order { tv_sec := 100, tv_usec := 0 } _ sample_outcomes
      { tv_sec := 110, tv_usec := 0 }⟩

/-! ## What the loop with cancelling actions does to each record -/

theorem flagged_false (e : timer_event) : flagged e false = e := by
  cases e
  simp [flagged]

theorem flagged_flagged (e : timer_event) (a b : Bool) :
    flagged (flagged e a) b = flagged e (a || b) := by
  simp [flagged, Bool.or_assoc]

theorem flagged_true (e : timer_event) :
    ({ e with timer_cancelled := true } : timer_event) = flagged e true := by
  simp [flagged]

theorem flagged_mem_append (e : timer_event) (x : Int) (l1 l2 : List Int) :
    flagged (flagged e (decide (x ∈ l1))) (decide (x ∈ l2)) =
      flagged e (decide (x ∈ l1 ++ l2)) := by
  rw [flagged_flagged]
  congr 1
  simp [List.mem_append]

theorem flagged_congr (e : timer_event) {P Q : Prop} [Decidable P] [Decidable Q]
    (h : P ↔ Q) : flagged e (decide P) = flagged e (decide Q) := by
  congr 1
  exact decide_eq_decide.2 h

/-- The `RemoveTimer` calls of an action on a well-formed registry, record by
record: the flag of a record is set when its id is in the list, and the ids of
the list that are keys of `timer_map` are appended to the removal queue. -/
theorem remove_all_at : ∀ (ids : List Int) (s : State), WF s →
    (∀ p e, p ∈ s.sorted_timers → map_find p s.heap = some e →
      map_find p (remove_all ids s).heap = some (flagged e (decide (e.timer_id ∈ ids)))) ∧
    (∀ id, id ∈ (remove_all ids s).removed_timer_ids ↔
      id ∈ s.removed_timer_ids ∨ (id ∈ ids ∧ ∃ q, map_find id s.timer_map = some q)) := by
  intro ids
  induction ids with
  | nil =>
    intro s _
    refine ⟨fun p e _ he => ?_, fun id => ?_⟩
    · show map_find p s.heap = _
      rw [he]
      simp [flagged_false]
    · show id ∈ s.removed_timer_ids ↔ _
      simp
  | cons x xs ih =>
    intro s hwf
    cases hf : map_find x s.timer_map with
    | none =>
      have hs : remove_all (x :: xs) s = remove_all xs s := by
        show remove_all xs (((RemoveTimer x s).map Prod.fst).getD s) = _
        rw [RemoveTimer_absent x s hf]
        rfl
      rw [hs]
      obtain ⟨h1, h2⟩ := ih s hwf
      refine ⟨fun p e hp he => ?_, fun id => ?_⟩
      · rw [h1 p e hp he]
        congr 1
        apply flagged_congr
        obtain ⟨e0, he0, hm0⟩ := WF_sorted hwf hp
        rw [he] at he0
        cases he0
        constructor
        · exact fun h => List.mem_cons_of_mem _ h
        · intro h
          rcases List.mem_cons.1 h with h3 | h3
          · rw [h3, hf] at hm0
            cases hm0
          · exact h3
      · rw [h2 id]
        constructor
        · rintro (h | ⟨h, hq⟩)
          · exact Or.inl h
          · exact Or.inr ⟨List.mem_cons_of_mem _ h, hq⟩
        · rintro (h | ⟨h, q, hq⟩)
          · exact Or.inl h
          · rcases List.mem_cons.1 h with h3 | h3
            · rw [h3, hf] at hq
              cases hq
            · exact Or.inr ⟨h3, q, hq⟩
    | some p0 =>
      obtain ⟨e0, he0, hid0, hp0, hr⟩ := RemoveTimer_present hwf x p0 hf
      have hs : remove_all (x :: xs) s = remove_all xs (cancel_at p0 e0 x s) := by
        show remove_all xs (((RemoveTimer x s).map Prod.fst).getD s) = _
        rw [hr]
        rfl
      rw [hs]
      obtain ⟨h1, h2⟩ := ih (cancel_at p0 e0 x s) (WF_cancel_at hwf he0)
      refine ⟨fun p e hp he => ?_, fun id => ?_⟩
      · by_cases hpp : p0 = p
        · subst hpp
          rw [he0] at he
          cases he
          have h3 : map_find p0 (cancel_at p0 e0 x s).heap =
              some { e0 with timer_cancelled := true } := by
            rw [find_cancel_at, if_pos rfl]
          rw [h1 p0 _ hp0 h3, flagged_true, flagged_flagged]
          congr 1
          simp [flagged, hid0]
        · have h3 : map_find p (cancel_at p0 e0 x s).heap = some e := by
            rw [find_cancel_at, if_neg hpp]
            exact he
          rw [h1 p e hp h3]
          congr 1
          apply flagged_congr
          constructor
          · exact fun h => List.mem_cons_of_mem _ h
          · intro h
            rcases List.mem_cons.1 h with h4 | h4
            · exfalso
              apply hpp
              exact WF_addr_unique hwf hp0 hp he0 he (hid0.trans h4.symm)
            · exact h4
      · rw [h2 id]
        show (id ∈ s.removed_timer_ids ++ [x] ∨
          (id ∈ xs ∧ ∃ q, map_find id s.timer_map = some q)) ↔ _
        constructor
        · rintro (h | ⟨h, hq⟩)
          · rcases List.mem_append.1 h with h3 | h3
            · exact Or.inl h3
            · rw [List.mem_singleton] at h3
              subst h3
              exact Or.inr ⟨List.mem_cons_self _ _, p0, hf⟩
          · exact Or.inr ⟨List.mem_cons_of_mem _ h, hq⟩
        · rintro (h | ⟨h, hq⟩)
          · exact Or.inl (List.mem_append_left _ h)
          · rcases List.mem_cons.1 h with h3 | h3
            · exact Or.inl (List.mem_append_right _ (by simp [h3]))
            · exact Or.inr ⟨h3, hq⟩

theorem loop_tracks_nil (o : Outcomes) (c : Cancels) (T : timeval) (ps : List Nat)
    (s : State) : loop_tracks o c T ps s s [] := by
  refine ⟨fun p e _ he _ => ⟨?_, fun h => Or.inl h, ?_⟩, fun x hx => by simp at hx⟩
  · rw [he]
    simp [cancelled_ids, flagged_false]
  · rintro (h | h)
    · exact h
    · simp [cancelled_ids] at h

theorem flagged_if_id (K : Prop) [Decidable K] (T : timeval) (e : timer_event) (b : Bool) :
    (flagged (if K then reschedule T e else e) b).timer_id = e.timer_id := by
  split_ifs <;> rfl

/-- One step of the loop at a cancelled record: its id is queued and the loop
goes on. -/
theorem loop_tracks_skip (o : Outcomes) (c : Cancels) (T : timeval) {p : Nat}
    {rest : List Nat} {s s2 : State} {evt : timer_event} {log3 : List (timer_event × Int)}
    (hwf : WF s) (hp : p ∈ s.sorted_timers) (hevt : map_find p s.heap = some evt)
    (hc : evt.timer_cancelled = true) (hrest : ∀ q ∈ rest, q ∈ s.sorted_timers)
    (hpn : p ∉ rest)
    (hih : loop_tracks o c T rest
      { s with removed_timer_ids := s.removed_timer_ids ++ [evt.timer_id] } s2 log3) :
    loop_tracks o c T (p :: rest) s s2 log3 := by
  obtain ⟨h1, h2⟩ := hih
  refine ⟨fun q e hq he hnf => ?_, fun x hx => ?_⟩
  · obtain ⟨a1, a2, a3⟩ := h1 q e hq he hnf
    refine ⟨a1, fun h => ?_, fun h => ?_⟩
    · rcases a2 h with h3 | h3 | h3
      · have h3' : e.timer_id ∈ s.removed_timer_ids ++ [evt.timer_id] := h3
        rcases List.mem_append.1 h3' with h4 | h4
        · exact Or.inl h4
        · rw [List.mem_singleton] at h4
          have hqp := WF_addr_unique hwf hq hp he hevt h4
          subst hqp
          rw [hevt] at he
          cases he
          exact Or.inr (Or.inr hc)
      · exact Or.inr (Or.inl h3)
      · exact Or.inr (Or.inr h3)
    · apply a3
      rcases h with h3 | h3
      · exact Or.inl (List.mem_append_left _ h3)
      · exact Or.inr h3
  · obtain ⟨q, hq, b1, b2, b3, b4, b5, b6⟩ := h2 x hx
    have b1' : map_find q s.heap = some x.1 := b1
    refine ⟨q, List.mem_cons_of_mem _ hq, b1', b2, b3, b4, b5, ?_⟩
    have hne : x.1.timer_id ≠ evt.timer_id := by
      intro h
      have hqp := WF_addr_unique hwf (hrest q hq) hp b1' hevt h
      rw [hqp] at hq
      exact hpn hq
    rw [b6]
    have hq2 : x.1.timer_id ∈ s.removed_timer_ids ++ [evt.timer_id] ↔
        x.1.timer_id ∈ s.removed_timer_ids := by
      simp [hne]
    exact or_congr_left hq2

/-- One step of the loop at a record that is fired: its action has passed the ids
of `cancel_list` to `RemoveTimer`, and the record has been rescheduled or its id
queued. -/
theorem loop_tracks_fire (o : Outcomes) (c : Cancels) (T : timeval) {p : Nat}
    {rest : List Nat} {s sb s2 : State} {evt : timer_event}
    {log3 : List (timer_event × Int)}
    (hwf : WF s) (hwfb : WF sb) (hp : p ∈ s.sorted_timers)
    (hevt : map_find p s.heap = some evt) (hc : evt.timer_cancelled = false)
    (hfut : tv_before T evt.trigger_tm = false)
    (hrest : ∀ q ∈ rest, q ∈ s.sorted_timers) (hpn : p ∉ rest)
    (hsorted : sb.sorted_timers = s.sorted_timers)
    (hb : ∀ q e, q ∈ s.sorted_timers → q ≠ p → map_find q s.heap = some e →
      map_find q sb.heap = some (flagged e (decide (e.timer_id ∈ cancel_list c evt))))
    (hcc : map_find p sb.heap =
      some (flagged (if keeps (outcome o evt) evt then reschedule T evt else evt)
        (decide (evt.timer_id ∈ cancel_list c evt))))
    (hd : ∀ id, id ∈ sb.removed_timer_ids ↔
      id ∈ s.removed_timer_ids ∨
        (id ∈ cancel_list c evt ∧ ∃ q, map_find id s.timer_map = some q) ∨
        (¬ keeps (outcome o evt) evt ∧ id = evt.timer_id))
    (hih : loop_tracks o c T rest sb s2 log3) :
    loop_tracks o c T (p :: rest) s s2 ((evt, outcome o evt) :: log3) := by
  obtain ⟨h1, h2⟩ := hih
  have hpb : p ∈ sb.sorted_timers := by
    rw [hsorted]
    exact hp
  refine ⟨fun q e hq he hnf => ?_, fun x hx => ?_⟩
  · simp only [List.map_cons, List.mem_cons, not_or] at hnf
    obtain ⟨hne0, hnf3⟩ := hnf
    have hqp : q ≠ p := by
      intro h
      subst h
      rw [hevt] at he
      cases he
      exact hne0 rfl
    have hsb := hb q e hq hqp he
    have hqb : q ∈ sb.sorted_timers := by
      rw [hsorted]
      exact hq
    obtain ⟨e1, he1, hm1⟩ := WF_sorted hwf hq
    rw [he] at he1
    cases he1
    obtain ⟨a1, a2, a3⟩ := h1 q _ hqb hsb hnf3
    refine ⟨?_, fun h => ?_, fun h => ?_⟩
    · rw [a1]
      exact congrArg some (flagged_mem_append e e.timer_id _ _)
    · rcases a2 h with h3 | h3 | h3
      · rcases (hd _).1 h3 with h4 | ⟨h4, _⟩ | ⟨_, h4⟩
        · exact Or.inl h4
        · exact Or.inr (Or.inl (List.mem_append_left _ h4))
        · exact absurd h4 hne0
      · exact Or.inr (Or.inl (List.mem_append_right _ h3))
      · have h3' : (e.timer_cancelled || decide (e.timer_id ∈ cancel_list c evt)) = true := h3
        rw [Bool.or_eq_true, decide_eq_true_eq] at h3'
        rcases h3' with h4 | h4
        · exact Or.inr (Or.inr h4)
        · exact Or.inr (Or.inl (List.mem_append_left _ h4))
    · apply a3
      rcases h with h3 | h3
      · exact Or.inl ((hd _).2 (Or.inl h3))
      · rcases List.mem_append.1 h3 with h4 | h4
        · exact Or.inl ((hd _).2 (Or.inr (Or.inl ⟨h4, q, hm1⟩)))
        · exact Or.inr h4
  · obtain ⟨ep, hep, hmp⟩ := WF_sorted hwf hp
    rw [hevt] at hep
    cases hep
    rcases List.mem_cons.1 hx with h0 | h0
    · subst h0
      have hid := flagged_if_id (keeps (outcome o evt) evt) T evt
        (decide (evt.timer_id ∈ cancel_list c evt))
      have hnf3 : (flagged (if keeps (outcome o evt) evt then reschedule T evt else evt)
          (decide (evt.timer_id ∈ cancel_list c evt))).timer_id ∉
            log3.map (fun x => x.1.timer_id) := by
        intro hm
        obtain ⟨y, hy, hyid⟩ := List.mem_map.1 hm
        obtain ⟨q, hq, b1, _⟩ := h2 y hy
        have hqb : q ∈ sb.sorted_timers := by
          rw [hsorted]
          exact hrest q hq
        have hqp := WF_addr_unique hwfb hqb hpb b1 hcc hyid
        rw [hqp] at hq
        exact hpn hq
      obtain ⟨a1, a2, a3⟩ := h1 p _ hpb hcc hnf3
      rw [hid] at a1 a2 a3
      refine ⟨p, List.mem_cons_self _ _, hevt, hc, hfut, rfl, ?_, ?_⟩
      · rw [a1]
        exact congrArg some (flagged_mem_append _ evt.timer_id _ _)
      · constructor
        · intro h
          rcases a2 h with h3 | h3 | h3
          · rcases (hd _).1 h3 with h4 | ⟨h4, _⟩ | ⟨h4, _⟩
            · exact Or.inl h4
            · exact Or.inr (Or.inr (List.mem_append_left _ h4))
            · exact Or.inr (Or.inl h4)
          · exact Or.inr (Or.inr (List.mem_append_right _ h3))
          · have h3' : ((if keeps (outcome o evt) evt then reschedule T evt
                else evt).timer_cancelled ||
                decide (evt.timer_id ∈ cancel_list c evt)) = true := h3
            have h5 : (if keeps (outcome o evt) evt then reschedule T evt
                else evt).timer_cancelled = false := by
              split_ifs
              · exact hc
              · exact hc
            rw [h5, Bool.false_or, decide_eq_true_eq] at h3'
            exact Or.inr (Or.inr (List.mem_append_left _ h3'))
        · intro h
          apply a3
          rcases h with h3 | h3 | h3
          · exact Or.inl ((hd _).2 (Or.inl h3))
          · exact Or.inl ((hd _).2 (Or.inr (Or.inr ⟨h3, rfl⟩)))
          · rcases List.mem_append.1 h3 with h4 | h4
            · exact Or.inl ((hd _).2 (Or.inr (Or.inl ⟨h4, p, hmp⟩)))
            · exact Or.inr h4
    · obtain ⟨q, hq, b1, b2, b3, b4, b5, b6⟩ := h2 x h0
      obtain ⟨e0, he0, _⟩ := WF_sorted hwf (hrest q hq)
      have hqp : q ≠ p := by
        intro h
        rw [h] at hq
        exact hpn hq
      have hsb := hb q e0 (hrest q hq) hqp he0
      rw [b1] at hsb
      have hx1 : x.1 = flagged e0 (decide (e0.timer_id ∈ cancel_list c evt)) :=
        Option.some.inj hsb
      have hfl : (e0.timer_cancelled || decide (e0.timer_id ∈ cancel_list c evt)) = false := by
        have := b2
        rw [hx1] at this
        exact this
      rw [Bool.or_eq_false_iff, decide_eq_false_iff_not] at hfl
      have hx2 : x.1 = e0 := by
        rw [hx1, decide_eq_false hfl.2, flagged_false]
      rw [← hx2] at he0 hfl
      have hne : x.1.timer_id ≠ evt.timer_id := by
        intro h
        exact hqp (WF_addr_unique hwf (hrest q hq) hp he0 hevt h)
      have hcan : x.1.timer_id ∈ cancelled_ids c ((evt, outcome o evt) :: log3) ↔
          x.1.timer_id ∈ cancelled_ids c log3 := by
        show x.1.timer_id ∈ cancel_list c evt ++ cancelled_ids c log3 ↔ _
        rw [List.mem_append]
        exact or_iff_right hfl.2
      refine ⟨q, List.mem_cons_of_mem _ hq, he0, b2, b3, b4, ?_, ?_⟩
      · rw [b5]
        exact congrArg some (flagged_congr _ hcan.symm)
      · rw [b6, hd, hcan]
        constructor
        · rintro ((h | ⟨h, _⟩ | ⟨_, h⟩) | h | h)
          · exact Or.inl h
          · exact absurd h hfl.2
          · exact absurd h hne
          · exact Or.inr (Or.inl h)
          · exact Or.inr (Or.inr h)
        · rintro (h | h | h)
          · exact Or.inl (Or.inl h)
          · exact Or.inr (Or.inl h)
          · exact Or.inr (Or.inr h)

/-- The loop of `Tick` with cancelling actions on a well-formed registry, over
distinct addresses of `sorted_timers`: it ends, and `loop_tracks` tells what it
has done to each record. -/
theorem tick_loop_tracks (o : Outcomes) (c : Cancels) (T : timeval) :
    ∀ (ps : List Nat) (s : State) (log : List (timer_event × Int)),
      WF s → (∀ p ∈ ps, p ∈ s.sorted_timers) → ps.Nodup →
      ∃ s2 log2, tick_loop (cancelling_actions o c) T ps s log = some (s2, log ++ log2) ∧
        flags_only s s2 ∧ loop_tracks o c T ps s s2 log2 := by
  intro ps
  induction ps with
  | nil =>
    intro s log _ _ _
    exact ⟨s, [], by simp [tick_loop], flags_only_refl s, loop_tracks_nil o c T [] s⟩
  | cons p rest ih =>
    intro s log hwf hps hnd
    have hp : p ∈ s.sorted_timers := hps p (List.mem_cons_self _ _)
    have hrest : ∀ q ∈ rest, q ∈ s.sorted_timers :=
      fun q hq => hps q (List.mem_cons_of_mem _ hq)
    have hpn : p ∉ rest := (List.nodup_cons.1 hnd).1
    have hnd2 : rest.Nodup := (List.nodup_cons.1 hnd).2
    obtain ⟨evt, hevt, _⟩ := WF_sorted hwf hp
    simp only [tick_loop, hevt]
    by_cases hc : evt.timer_cancelled = true
    · rw [if_pos hc]
      have hfp := flags_only_push s evt.timer_id
      obtain ⟨s2, log3, hl, hf3, hok⟩ := ih
        { s with removed_timer_ids := s.removed_timer_ids ++ [evt.timer_id] } log
        (WF_of_flags_only hwf hfp) hrest hnd2
      exact ⟨s2, log3, hl, flags_only_trans hfp hf3,
        loop_tracks_skip o c T hwf hp hevt hc hrest hpn hok⟩
    · have hc2 : evt.timer_cancelled = false := by simpa using hc
      rw [if_neg hc]
      by_cases hf : tv_before T evt.trigger_tm = true
      · rw [if_pos hf]
        exact ⟨s, [], by simp, flags_only_refl s, loop_tracks_nil o c T _ s⟩
      · have hf2 : tv_before T evt.trigger_tm = false := by simpa using hf
        rw [if_neg hf]
        simp only [invoke_cancelling]
        obtain ⟨hfa, _⟩ := remove_all_spec (cancel_list c evt) s hwf
        obtain ⟨hr1, hr2⟩ := remove_all_at (cancel_list c evt) s hwf
        have hea2 := hr1 p evt hp hevt
        -- the rest of the loop from the state `sb` the head step has reached
        have cont : ∀ sb : State, flags_only (remove_all (cancel_list c evt) s) sb →
            (∀ q, q ≠ p →
              map_find q sb.heap = map_find q (remove_all (cancel_list c evt) s).heap) →
            map_find p sb.heap =
              some (flagged (if keeps (outcome o evt) evt then reschedule T evt else evt)
                (decide (evt.timer_id ∈ cancel_list c evt))) →
            (∀ id, id ∈ sb.removed_timer_ids ↔
              id ∈ (remove_all (cancel_list c evt) s).removed_timer_ids ∨
                (¬ keeps (outcome o evt) evt ∧ id = evt.timer_id)) →
            ∃ s2 log2, tick_loop (cancelling_actions o c) T rest sb
                (log ++ [(evt, outcome o evt)]) = some (s2, log ++ log2) ∧
              flags_only s s2 ∧ loop_tracks o c T (p :: rest) s s2 log2 := by
          intro sb hsb hheap hcc hq
          have hfsb := flags_only_trans hfa hsb
          have hwfb : WF sb := WF_of_flags_only hwf hfsb
          have hrestb : ∀ q ∈ rest, q ∈ sb.sorted_timers := by
            intro q hq
            rw [hfsb.2.1]
            exact hrest q hq
          obtain ⟨s2, log3, hl, hf3, hok⟩ := ih sb (log ++ [(evt, outcome o evt)]) hwfb
            hrestb hnd2
          refine ⟨s2, (evt, outcome o evt) :: log3, ?_, flags_only_trans hfsb hf3, ?_⟩
          · rw [hl, List.append_assoc]
            rfl
          · refine loop_tracks_fire o c T hwf hwfb hp hevt hc2 hf2 hrest hpn hfsb.2.1 ?_ hcc
              ?_ hok
            · intro q e hq hqp he
              rw [hheap q hqp]
              exact hr1 q e hq he
            · intro id
              rw [hq id, hr2 id, or_assoc]
        by_cases hr : 0 < outcome o evt
        · rw [if_pos hr]
          simp only [hea2]
          by_cases hk : (flagged evt (decide (evt.timer_id ∈ cancel_list c evt))).timeslices ≠ -1 ∧
              (flagged evt (decide (evt.timer_id ∈ cancel_list c evt))).recurring ≠ 0
          · rw [if_pos hk]
            have hK : keeps (outcome o evt) evt := ⟨hr, hk.1, hk.2⟩
            refine cont _ (flags_only_resched _ p _ T hea2) ?_ ?_ ?_
            · intro q hqp
              show map_find q (map_assign p _ _) = _
              rw [map_find_assign, if_neg (fun h => hqp h.symm)]
            · show map_find p (map_assign p _ _) = _
              rw [map_find_assign, if_pos rfl, if_pos hK]
              rfl
            · intro id
              constructor
              · exact fun h => Or.inl h
              · rintro (h | ⟨h, _⟩)
                · exact h
                · exact absurd hK h
          · rw [if_neg hk]
            have hK : ¬ keeps (outcome o evt) evt := fun h => hk ⟨h.2.1, h.2.2⟩
            refine cont _ (flags_only_push _ evt.timer_id) (fun q _ => rfl) ?_ ?_
            · show map_find p (remove_all (cancel_list c evt) s).heap = _
              rw [hea2, if_neg hK]
            · intro id
              show id ∈ (remove_all (cancel_list c evt) s).removed_timer_ids ++
                [evt.timer_id] ↔ _
              rw [List.mem_append, List.mem_singleton]
              exact or_congr_right ⟨fun h => ⟨hK, h⟩, fun h => h.2⟩
        · rw [if_neg hr]
          have hK : ¬ keeps (outcome o evt) evt := fun h => hr h.1
          refine cont _ (flags_only_push _ evt.timer_id) (fun q _ => rfl) ?_ ?_
          · show map_find p (remove_all (cancel_list c evt) s).heap = _
            rw [hea2, if_neg hK]
          · intro id
            show id ∈ (remove_all (cancel_list c evt) s).removed_timer_ids ++
              [evt.timer_id] ↔ _
            rw [List.mem_append, List.mem_singleton]
            exact or_congr_right ⟨fun h => ⟨hK, h⟩, fun h => h.2⟩

/-! ## One `Tick` with actions that cancel timers -/

/-- The function `Tick` with cancelling actions on a well-formed registry: `sl` is
the registry when the loop has ended, `s3` the registry after the cleanup. -/
theorem Tick_cancelling_spec {s : State} (hwf : WF s) (o : Outcomes) (c : Cancels)
    (T : timeval) :
    ∃ sl s3 log, Tick (cancelling_actions o c) T s =
        some ({ s3 with removed_timer_ids := [] }, log, 1) ∧
      WF sl ∧ sl.timer_map = s.timer_map ∧
      (∀ p, p ∈ sl.sorted_timers ↔ p ∈ s.sorted_timers) ∧
      loop_tracks o c T s.sorted_timers s sl log ∧
      removes sl.removed_timer_ids sl s3 := by
  have hwf0 : WF { s with timestamp := { tv_sec := T.tv_sec, tv_usec := T.tv_usec } } := hwf
  have hsort := sort_timers_eq
    { s with timestamp := { tv_sec := T.tv_sec, tv_usec := T.tv_usec } } (WF_live hwf)
  have hwf1 : WF (resorted { s with timestamp := { tv_sec := T.tv_sec, tv_usec := T.tv_usec } }) :=
    WF_resort hwf0
  obtain ⟨sl, log, hloop, hfl, h1, h2⟩ := tick_loop_tracks o c T
    (resorted { s with timestamp := { tv_sec := T.tv_sec, tv_usec := T.tv_usec } }).sorted_timers
    (resorted { s with timestamp := { tv_sec := T.tv_sec, tv_usec := T.tv_usec } }) []
    hwf1 (fun _ hp => hp) hwf1.2.2
  rw [List.nil_append] at hloop
  have hwfl : WF sl := WF_of_flags_only hwf1 hfl
  obtain ⟨s3, hc, _, hrm⟩ := cleanup_spec sl.removed_timer_ids sl hwfl
  have hmem : ∀ p, p ∈ (sorted_records s).map Prod.fst ↔ p ∈ s.sorted_timers :=
    fun p => (sorted_records_fst_perm (WF_live hwf)).mem_iff
  refine ⟨sl, s3, log, ?_, hwfl, hfl.1, fun p => ?_, ⟨fun p e hp he hnf => ?_, fun x hx => ?_⟩,
    hrm⟩
  · unfold Tick
    rw [hsort]
    simp only [Option.some_bind]
    change (tick_loop (cancelling_actions o c) T
      (resorted { s with timestamp := { tv_sec := T.tv_sec, tv_usec := T.tv_usec } }).sorted_timers
      (resorted { s with timestamp := { tv_sec := T.tv_sec, tv_usec := T.tv_usec } }) []).bind _ = _
    rw [hloop]
    simp only [Option.some_bind, hc, Option.map_some']
  · rw [hfl.2.1]
    exact hmem p
  · exact h1 p e ((hmem p).2 hp) he hnf
  · obtain ⟨p, hp, hr⟩ := h2 x hx
    exact ⟨p, (hmem p).1 hp, hr⟩

/-- C3, as stated, fails: a recurring timer with an interval of 5 timeslices is
registered on a new `Timetracker` at 100 s; its action calls `RemoveTimer` with
the id of its own timer and returns 1.  The `Tick` at 100.5 s fires it with
`ret = 1`, `recurring = 1` and `timeslices = 5`, and when the `Tick` returns the
id is in neither `timer_map` nor `sorted_timers`. -/
theorem C3_self_cancelling_timer_erased :
    ((RegisterTimer_event { tv_sec := 100, tv_usec := 0 } sample_fresh 5 none 1 (some 7)
        (Timetracker { tv_sec := 100, tv_usec := 0 })).bind fun r =>
      (Tick (cancelling_actions sample_outcomes sample_self_cancels)
        { tv_sec := 100, tv_usec := 500000 } r.1).map fun q =>
          (q.2.1.map (fun x => (x.1.timer_id, x.2, x.1.recurring, x.1.timeslices)),
            q.1.timer_map, q.1.sorted_timers)) =
      some ([(0, 1, 1, 5)], [], []) := by
  decide

/-- C3, amended.  With actions that call `RemoveTimer` on the registry, on a
well-formed registry in which every record whose id is queued for removal is
cancelled (every reachable registry is such), for every record fired by a `Tick`
with outcome `ret`:
when `ret > 0`, `recurring` is set, `timeslices != -1` and no action invoked in
this `Tick` has passed its id to `RemoveTimer`, its id is still bound in
`timer_map` after the `Tick`, to an address of `sorted_timers` that holds the
record rescheduled from the captured time; in every other case its id is unbound
in `timer_map` and no record of `sorted_timers` carries it. -/
theorem C3_fired_record_kept_unless_cancelled (o : Outcomes) (c : Cancels) (T : timeval)
    (s : State) (hwf : WF s) (hqc : queue_cancelled s) :
    ∃ s2 log, Tick (cancelling_actions o c) T s = some (s2, log, 1) ∧
      ∀ x ∈ log,
        (((0 < x.2 ∧ x.1.recurring ≠ 0 ∧ x.1.timeslices ≠ -1) ∧
            x.1.timer_id ∉ cancelled_ids c log) →
          ∃ p, map_find x.1.timer_id s2.timer_map = some p ∧ p ∈ s2.sorted_timers ∧
            map_find p s2.heap = some (reschedule T x.1)) ∧
        (¬ ((0 < x.2 ∧ x.1.recurring ≠ 0 ∧ x.1.timeslices ≠ -1) ∧
            x.1.timer_id ∉ cancelled_ids c log) →
          map_find x.1.timer_id s2.timer_map = none ∧
            ∀ e2 ∈ records s2, e2.timer_id ≠ x.1.timer_id) := by
  obtain ⟨sl, s3, log, htk, hwfl, hmap, hsrt, ⟨_, h2⟩, a1, a2, _, a4, _⟩ :=
    Tick_cancelling_spec hwf o c T
  refine ⟨_, log, htk, fun x hx => ?_⟩
  obtain ⟨p, hp, he, hc, _, hret, hfin, hq⟩ := h2 x hx
  obtain ⟨e0, he0, hm0⟩ := WF_sorted hwf hp
  rw [he] at he0
  cases he0
  have hnq0 : x.1.timer_id ∉ s.removed_timer_ids := by
    intro h
    have := hqc x.1 (mem_records.2 ⟨p, hp, he⟩) h
    rw [hc] at this
    cases this
  have hkeeps : keeps x.2 x.1 ↔ (0 < x.2 ∧ x.1.recurring ≠ 0 ∧ x.1.timeslices ≠ -1) :=
    ⟨fun h => ⟨h.1, h.2.2, h.2.1⟩, fun h => ⟨h.1, h.2.2, h.2.1⟩⟩
  constructor
  · rintro ⟨hk, hnc⟩
    have hK : keeps x.2 x.1 := hkeeps.2 hk
    have hnq : x.1.timer_id ∉ sl.removed_timer_ids := by
      rw [hq]
      rintro (h | h | h)
      · exact hnq0 h
      · exact h hK
      · exact hnc h
    rw [if_pos hK, decide_eq_false hnc, flagged_false] at hfin
    have hp3 : p ∈ s3.sorted_timers := by
      rw [a2]
      refine ⟨(hsrt p).2 hp, fun e3 he3 => ?_⟩
      rw [hfin] at he3
      cases he3
      exact hnq
    refine ⟨p, ?_, hp3, ?_⟩
    · show map_find x.1.timer_id s3.timer_map = some p
      rw [a1, if_neg hnq, hmap]
      exact hm0
    · show map_find p s3.heap = _
      rw [a4 p hp3]
      exact hfin
  · intro hn
    have hin : x.1.timer_id ∈ sl.removed_timer_ids := by
      rw [hq]
      by_cases hK : keeps x.2 x.1
      · right
        right
        by_contra hnc
        exact hn ⟨hkeeps.1 hK, hnc⟩
      · exact Or.inr (Or.inl hK)
    refine ⟨?_, fun e2 he2 heq => ?_⟩
    · show map_find x.1.timer_id s3.timer_map = none
      rw [a1, if_pos hin]
    · obtain ⟨q, hq1, hf⟩ := mem_records.1 he2
      have hq3 : q ∈ s3.sorted_timers := hq1
      have hf3 : map_find q s3.heap = some e2 := hf
      rw [a4 q hq3] at hf3
      apply ((a2 q).1 hq3).2 e2 hf3
      rw [heq]
      exact hin

/-- C3 amended, at the sample registry and captured time 100.5 s, where the
action of the one-shot timer with id 1 cancels the timer with id 2: the `Tick`
fires ids 1 and 0, and keeps id 0, rescheduled. -/
theorem C3_fired_record_kept_unless_cancelled_witness :
    WF sample_state ∧ queue_cancelled sample_state ∧
    (Tick (cancelling_actions sample_outcomes sample_future_cancels)
        { tv_sec := 100, tv_usec := 500000 } sample_state).map
      (fun r => (r.2.1.map (fun x => x.1.timer_id), r.1.timer_map)) =
      some ([1, 0], [(0, 1)]) ∧
    ∃ s2 log, Tick (cancelling_actions sample_outcomes sample_future_cancels)
        { tv_sec := 100, tv_usec := 500000 } sample_state = some (s2, log, 1) ∧
      ∀ x ∈ log,
        (((0 < x.2 ∧ x.1.recurring ≠ 0 ∧ x.1.timeslices ≠ -1) ∧
            x.1.timer_id ∉ cancelled_ids sample_future_cancels log) →
          ∃ p, map_find x.1.timer_id s2.timer_map = some p ∧ p ∈ s2.sorted_timers ∧
            map_find p s2.heap = some (reschedule { tv_sec := 100, tv_usec := 500000 } x.1)) ∧
        (¬ ((0 < x.2 ∧ x.1.recurring ≠ 0 ∧ x.1.timeslices ≠ -1) ∧
            x.1.timer_id ∉ cancelled_ids sample_future_cancels log) →
          map_find x.1.timer_id s2.timer_map = none ∧
            ∀ e2 ∈ records s2, e2.timer_id ≠ x.1.timer_id) :=
  ⟨by decide, by decide, by decide,
    C3_fired_record_kept_unless_cancelled sample_outcomes sample_future_cancels
      { tv_sec := 100, tv_usec := 500000 } sample_state (by decide) (by decide)⟩

/-! ## Records a `Tick` with cancelling actions does not touch -/

/-- C18, as stated, fails: on a new `Timetracker` the timer with id 0 is
registered with the absolute trigger 200 s and the one-shot timer with id 1 with
an interval of 2 timeslices at 100 s, whose action calls `RemoveTimer(0)`.
Before the `Tick` at 100.5 s the removal queue is empty and the record with id 0
is not cancelled, with `trigger_tm` after the captured time; the `Tick` fires id
1 and erases both: id 0 is in neither `timer_map` nor `sorted_timers` when it
returns. -/
theorem C18_future_record_cancelled_in_pass_erased :
    (run [Op.register_event { tv_sec := 100, tv_usec := 0 } sample_fresh 0
            (some { tv_sec := 200, tv_usec := 0 }) 0 (some 7),
          Op.register_func { tv_sec := 100, tv_usec := 0 } sample_fresh 2 none 0 (some 8)]
        (Timetracker { tv_sec := 100, tv_usec := 0 })).map
      (fun r => (r.1.removed_timer_ids, (records r.1).map
        (fun e => (e.timer_id, e.timer_cancelled, e.trigger_tm)))) =
      some ([], [(1, false, { tv_sec := 100, tv_usec := 200000 }),
        (0, false, { tv_sec := 200, tv_usec := 0 })]) ∧
    ((run [Op.register_event { tv_sec := 100, tv_usec := 0 } sample_fresh 0
            (some { tv_sec := 200, tv_usec := 0 }) 0 (some 7),
          Op.register_func { tv_sec := 100, tv_usec := 0 } sample_fresh 2 none 0 (some 8)]
        (Timetracker { tv_sec := 100, tv_usec := 0 })).bind fun r =>
      (Tick (cancelling_actions sample_outcomes sample_cancels)
        { tv_sec := 100, tv_usec := 500000 } r.1).map fun q =>
          (q.2.1.map (fun x => x.1.timer_id), q.1.timer_map, q.1.sorted_timers)) =
      some ([1], [], []) := by
  decide

/-- C18, amended (`Tick` frame on untouched records).  With actions that call
`RemoveTimer` on the registry, on a well-formed registry with an empty removal
queue, `Tick` at captured time `T` returns 1 with an empty removal queue, and for
every record that is not cancelled and whose `trigger_tm` is strictly after `T`:
when no action invoked in this `Tick` has passed its id to `RemoveTimer`, the
record is not fired and is still bound in `timer_map` under its id, at the same
address, which is still in `sorted_timers` and holds the record with every field
unchanged; when an action has, its id is unbound in `timer_map` and no record of
`sorted_timers` carries it. -/
theorem C18_tick_keeps_uncancelled_future_records (o : Outcomes) (c : Cancels)
    (T : timeval) (s : State) (hwf : WF s) (hq : s.removed_timer_ids = []) :
    ∃ s2 log, Tick (cancelling_actions o c) T s = some (s2, log, 1) ∧
      s2.removed_timer_ids = [] ∧
      ∀ p e, p ∈ s.sorted_timers → map_find p s.heap = some e →
        e.timer_cancelled = false → tv_before T e.trigger_tm = true →
          (e.timer_id ∉ cancelled_ids c log →
            map_find e.timer_id s2.timer_map = some p ∧ p ∈ s2.sorted_timers ∧
              map_find p s2.heap = some e ∧ e.timer_id ∉ log.map (fun x => x.1.timer_id)) ∧
          (e.timer_id ∈ cancelled_ids c log →
            map_find e.timer_id s2.timer_map = none ∧
              (∀ e2 ∈ records s2, e2.timer_id ≠ e.timer_id) ∧
              e.timer_id ∉ log.map (fun x => x.1.timer_id)) := by
  obtain ⟨sl, s3, log, htk, hwfl, hmap, hsrt, ⟨h1, h2⟩, a1, a2, _, a4, _⟩ :=
    Tick_cancelling_spec hwf o c T
  refine ⟨_, log, htk, rfl, fun p e hp he hc hfut => ?_⟩
  obtain ⟨e0, he0, hm0⟩ := WF_sorted hwf hp
  rw [he] at he0
  cases he0
  have hnf : e.timer_id ∉ log.map (fun x => x.1.timer_id) := by
    intro hm
    obtain ⟨x, hx, hxid⟩ := List.mem_map.1 hm
    obtain ⟨q, hq1, hxe, _, hxf, _⟩ := h2 x hx
    have hqp := WF_addr_unique hwf hq1 hp hxe he hxid
    subst hqp
    rw [he] at hxe
    cases hxe
    rw [hfut] at hxf
    cases hxf
  obtain ⟨b1, b2, b3⟩ := h1 p e hp he hnf
  constructor
  · intro hnc
    have hnq : e.timer_id ∉ sl.removed_timer_ids := by
      intro h
      rcases b2 h with h3 | h3 | h3
      · rw [hq] at h3
        simp at h3
      · exact hnc h3
      · rw [hc] at h3
        cases h3
    rw [decide_eq_false hnc, flagged_false] at b1
    have hp3 : p ∈ s3.sorted_timers := by
      rw [a2]
      refine ⟨(hsrt p).2 hp, fun e3 he3 => ?_⟩
      rw [b1] at he3
      cases he3
      exact hnq
    refine ⟨?_, hp3, ?_, hnf⟩
    · show map_find e.timer_id s3.timer_map = some p
      rw [a1, if_neg hnq, hmap]
      exact hm0
    · show map_find p s3.heap = _
      rw [a4 p hp3]
      exact b1
  · intro hcn
    have hin : e.timer_id ∈ sl.removed_timer_ids := b3 (Or.inr hcn)
    refine ⟨?_, fun e2 he2 heq => ?_, hnf⟩
    · show map_find e.timer_id s3.timer_map = none
      rw [a1, if_pos hin]
    · obtain ⟨q, hq1, hf⟩ := mem_records.1 he2
      have hq3 : q ∈ s3.sorted_timers := hq1
      have hf3 : map_find q s3.heap = some e2 := hf
      rw [a4 q hq3] at hf3
      apply ((a2 q).1 hq3).2 e2 hf3
      rw [heq]
      exact hin

/-- C18 amended, at the sample registry and captured time 100.5 s, where the
action of the recurring timer with id 0 cancels its own timer: the timer with id
2, due at 200 s, is the only one left, unchanged at address 3. -/
theorem C18_tick_keeps_uncancelled_future_records_witness :
    WF sample_state ∧ sample_state.removed_timer_ids = [] ∧
    (Tick (cancelling_actions sample_outcomes sample_self_cancels)
        { tv_sec := 100, tv_usec := 500000 } sample_state).map
      (fun r => (r.2.1.map (fun x => x.1.timer_id), r.1.timer_map, map_find 3 r.1.heap)) =
      some ([1, 0], [(2, 3)], map_find 3 sample_state.heap) ∧
    ∃ s2 log, Tick (cancelling_actions sample_outcomes sample_self_cancels)
        { tv_sec := 100, tv_usec := 500000 } sample_state = some (s2, log, 1) ∧
      s2.removed_timer_ids = [] ∧
      ∀ p e, p ∈ sample_state.sorted_timers → map_find p sample_state.heap = some e →
        e.timer_cancelled = false →
        tv_before { tv_sec := 100, tv_usec := 500000 } e.trigger_tm = true →
          (e.timer_id ∉ cancelled_ids sample_self_cancels log →
            map_find e.timer_id s2.timer_map = some p ∧ p ∈ s2.sorted_timers ∧
              map_find p s2.heap = some e ∧ e.timer_id ∉ log.map (fun x => x.1.timer_id)) ∧
          (e.timer_id ∈ cancelled_ids sample_self_cancels log →
            map_find e.timer_id s2.timer_map = none ∧
              (∀ e2 ∈ records s2, e2.timer_id ≠ e.timer_id) ∧
              e.timer_id ∉ log.map (fun x => x.1.timer_id)) :=
  ⟨by decide, rfl, by decide,
    C18_tick_keeps_uncancelled_future_records sample_outcomes sample_self_cancels
      { tv_sec := 100, tv_usec := 500000 } sample_state (by decide) rfl⟩

end Kismet
